import Mathlib

/-!
# Verification of the kpitt/sudoku solver core

A shallow embedding of the Go sudoku solver: the puzzle model
(`internal/puzzle`), the logical solver's candidate bookkeeping
(`internal/solver`), the deductive techniques referenced by the claims
(fish, unique rectangles), and the dancing-links exact-cover engine.
Machine integers are modelled as `Nat`/`Int`; Go's fatal `os.Exit` error
paths are modelled by an explicit result type; the bounded loops of the
Go code are translated to structural recursion, and the naked-single
cascade as well as the exact-cover search carry an explicit fuel
parameter whose sufficiency is proved separately.
-/

set_option autoImplicit false
set_option maxRecDepth 100000
set_option maxHeartbeats 1000000

namespace Sudoku

/-- Result of an operation that can hit a fatal puzzle-state error
(`puzzleStateError` calls `os.Exit(1)` in the Go code). -/
inductive PM (α : Type) where
  | fatal : PM α
  | ok : α → PM α
deriving DecidableEq

namespace PM

def bind {α β : Type} : PM α → (α → PM β) → PM β
  | .fatal, _ => .fatal
  | .ok a, f => f a

def isOk {α : Type} : PM α → Prop
  | .fatal => False
  | .ok _ => True

instance {α : Type} (x : PM α) : Decidable x.isOk := by
  cases x <;> simp [isOk] <;> infer_instance

end PM

/-- `internal/puzzle.Cell`: solved value (`0` = unsolved, as in the Go
code where `value int8` starts at zero), the given flag, and the
candidate set (`Candidates *set.Set[int8]`, modelled as a `Finset`). -/
structure Cell where
  value : ℕ
  given : Bool
  cands : Finset ℕ
deriving DecidableEq

/-- The initial candidate set `set.NewSet[int8](1, ..., 9)`. -/
def fullCands : Finset ℕ := {1, 2, 3, 4, 5, 6, 7, 8, 9}

/-- `puzzle.NewCell`. -/
def newCell : Cell := { value := 0, given := false, cands := fullCands }

/-- `Cell.IsSolved`: `value > 0`. -/
def Cell.solved (c : Cell) : Prop := c.value ≠ 0

instance (c : Cell) : Decidable c.solved := by
  unfold Cell.solved; infer_instance

/-- `Cell.HasCandidate`. -/
def Cell.hasCand (c : Cell) (v : ℕ) : Prop := v ∈ c.cands

instance (c : Cell) (v : ℕ) : Decidable (c.hasCand v) := by
  unfold Cell.hasCand; infer_instance

/-- `Cell.PlaceValue`: record the value and clear the candidates. -/
def Cell.place (c : Cell) (v : ℕ) : Cell :=
  { c with value := v, cands := ∅ }

/-- `Cell.GivenValue`: mark as given, then place. -/
def Cell.giveVal (c : Cell) (v : ℕ) : Cell :=
  { (c.place v) with given := true }

/-- `Cell.Box`: `(c.Row - c.Row%3) + c.Col/3`. -/
def boxOf (r c : ℕ) : ℕ := (r - r % 3) + c / 3

/-- `puzzle.Puzzle`: the 9×9 grid plus the `unsolvedCounts` array
(index 0 = total unsolved cells, index `d` = cells still needing digit
`d`).  The grid is a total function; only indices `0..8` are ever used. -/
structure Puzzle where
  grid : ℕ → ℕ → Cell
  counts : ℕ → ℤ

/-- `puzzle.NewPuzzle`. -/
def newPuzzle : Puzzle :=
  { grid := fun _ _ => newCell
    counts := fun d => if d = 0 then 81 else if d < 10 then 9 else 0 }

def Puzzle.setCell (p : Puzzle) (r c : ℕ) (cell : Cell) : Puzzle :=
  { p with grid := fun r' c' => if r' = r ∧ c' = c then cell else p.grid r' c' }

/-- `Puzzle.updateUnsolvedCounts`: decrement the total count
(`unsolvedCounts[0]`) and the per-digit count (`unsolvedCounts[val]`,
which coincide when `val = 0`), then fail fatally if the per-digit
count went negative. -/
def Puzzle.updateUnsolvedCounts (p : Puzzle) (v : ℕ) : PM Puzzle :=
  if (if v = 0 then p.counts 0 - 1 else p.counts v) - 1 < 0 then .fatal
  else .ok { p with counts := fun d =>
    if d = v then (if v = 0 then p.counts 0 - 1 else p.counts v) - 1
    else if d = 0 then p.counts 0 - 1 else p.counts d }

/-- `Puzzle.GivenValue`: overwrite the cell with a given value (no
conflict checking of any kind), then update the unsolved counts. -/
def Puzzle.givenValue (p : Puzzle) (r c v : ℕ) : PM Puzzle :=
  (p.setCell r c ((p.grid r c).giveVal v)).updateUnsolvedCounts v

/-- `Puzzle.PlaceValue`: returns `false` if the cell already holds the
value, fails fatally on a conflicting solved value, and otherwise
places the value and updates the counts, returning `true`. -/
def Puzzle.placeValue (p : Puzzle) (r c v : ℕ) : PM (Bool × Puzzle) :=
  let cell := p.grid r c
  if cell.solved then
    if cell.value ≠ v then .fatal else .ok (false, p)
  else
    PM.bind ((p.setCell r c (cell.place v)).updateUnsolvedCounts v)
      (fun p' => .ok (true, p'))

/-- Number of unsolved cells actually present in the 9×9 grid. -/
def unsolvedCells (p : Puzzle) : ℕ :=
  ((Finset.range 9 ×ˢ Finset.range 9).filter
    (fun rc => (p.grid rc.1 rc.2).value = 0)).card

end Sudoku

namespace Sudoku

/-! ## Claim C3: `Puzzle.PlaceValue` branch behaviour -/

/-- C3, behaviour on an already-solved cell holding the same value:
`PlaceValue` returns `false` and changes nothing. -/
theorem placeValue_solved_same (p : Puzzle) (r c v : ℕ)
    (hs : (p.grid r c).solved) (hv : (p.grid r c).value = v) :
    p.placeValue r c v = .ok (false, p) := by
  unfold Puzzle.placeValue
  simp [hs, hv]

/-- C3, behaviour on a cell solved with a different value: fatal. -/
theorem placeValue_solved_conflict (p : Puzzle) (r c v : ℕ)
    (hs : (p.grid r c).solved) (hv : (p.grid r c).value ≠ v) :
    p.placeValue r c v = .fatal := by
  unfold Puzzle.placeValue
  simp [hs, hv]

/-- The claim C3 as stated says that on an unsolved cell `PlaceValue`
always succeeds and returns `true`.  Counterexample: in a puzzle state
where `unsolvedCounts[5]` is already `0`, placing a `5` into an
unsolved cell hits the fatal digit-overcount error instead. -/
def overcountPuzzle : Puzzle :=
  { grid := fun _ _ => newCell
    counts := fun d => if d = 0 then 81 else if d = 5 then 0 else 9 }

theorem c3_counterexample :
    ¬ (overcountPuzzle.grid 0 0).solved ∧
      overcountPuzzle.placeValue 0 0 5 = .fatal := by
  constructor
  · decide
  · rfl

/-- The state produced by a successful `PlaceValue` on an unsolved
cell (proof support, mirroring `Cell.PlaceValue` followed by
`updateUnsolvedCounts`). -/
def placedState (p : Puzzle) (r c v : ℕ) : Puzzle :=
  let p2 := p.setCell r c ((p.grid r c).place v)
  { p2 with counts := fun d =>
    if d = v then (if v = 0 then p2.counts 0 - 1 else p2.counts v) - 1
    else if d = 0 then p2.counts 0 - 1 else p2.counts d }

/-- C3 (amended): on an unsolved cell, if `unsolvedCounts[v] ≥ 1` then
`PlaceValue` records `v`, clears the cell's candidate set, decrements
`unsolvedCounts[0]` and `unsolvedCounts[v]` by one each, leaves every
other count and every other cell unchanged, and returns `true`; if
`unsolvedCounts[v] ≤ 0` it fails fatally with the digit-overcount
error.  (Together with `placeValue_solved_same` and
`placeValue_solved_conflict` this covers every branch of the Go
function.) -/
theorem placeValue_unsolved (p : Puzzle) (r c v : ℕ)
    (hu : ¬ (p.grid r c).solved) (hv : v ≠ 0) :
    (1 ≤ p.counts v →
      p.placeValue r c v = .ok (true, placedState p r c v) ∧
        ((placedState p r c v).grid r c).value = v ∧
        ((placedState p r c v).grid r c).cands = ∅ ∧
        (placedState p r c v).counts 0 = p.counts 0 - 1 ∧
        (placedState p r c v).counts v = p.counts v - 1 ∧
        (∀ d, d ≠ 0 → d ≠ v → (placedState p r c v).counts d = p.counts d) ∧
        (∀ r' c', ¬ (r' = r ∧ c' = c) →
          (placedState p r c v).grid r' c' = p.grid r' c')) ∧
    (p.counts v ≤ 0 → p.placeValue r c v = .fatal) := by
  constructor
  · intro hge
    have hvv : ¬ ((if v = (0:ℕ) then
        ((p.setCell r c ((p.grid r c).place v)).counts 0 - 1)
        else (p.setCell r c ((p.grid r c).place v)).counts v) - 1 < 0) := by
      rw [if_neg hv]
      show ¬ (p.counts v - 1 < 0)
      omega
    refine And.intro ?_ (And.intro ?_ (And.intro ?_ ⟨?_, ?_, ?_, ?_⟩))
    · unfold Puzzle.placeValue Puzzle.updateUnsolvedCounts
      rw [if_neg hu, if_neg hvv]
      rfl
    · simp [placedState, Puzzle.setCell, Cell.place]
    · simp [placedState, Puzzle.setCell, Cell.place]
    · simp [placedState, Puzzle.setCell, hv, Ne.symm hv]
    · simp [placedState, Puzzle.setCell, hv]
    · intro d hd0 hdv
      simp [placedState, Puzzle.setCell, hd0, hdv]
    · intro r' c' hne
      simp [placedState, Puzzle.setCell, hne]
  · intro hle
    have hvv : ((if v = (0:ℕ) then
        ((p.setCell r c ((p.grid r c).place v)).counts 0 - 1)
        else (p.setCell r c ((p.grid r c).place v)).counts v) - 1 < 0) := by
      rw [if_neg hv]
      show (p.counts v - 1 < 0)
      omega
    unfold Puzzle.placeValue Puzzle.updateUnsolvedCounts
    rw [if_neg hu, if_pos hvv]
    rfl

theorem placeValue_unsolved_witness :
    ¬ (newPuzzle.grid 2 3).solved ∧ (5 : ℕ) ≠ 0 ∧ 1 ≤ newPuzzle.counts 5 ∧
      newPuzzle.placeValue 2 3 5 = .ok (true, placedState newPuzzle 2 3 5) ∧
      ((placedState newPuzzle 2 3 5).grid 2 3).value = 5 ∧
      (placedState newPuzzle 2 3 5).counts 0 = newPuzzle.counts 0 - 1 :=
  have h := (placeValue_unsolved newPuzzle 2 3 5 (by decide) (by decide)).1
    (by norm_num [newPuzzle])
  ⟨by decide, by decide, by norm_num [newPuzzle], h.1, h.2.1, h.2.2.2.1⟩

theorem placeValue_solved_same_witness :
    ∃ p : Puzzle, (p.grid 0 0).solved ∧ (p.grid 0 0).value = 7 ∧
      p.placeValue 0 0 7 = .ok (false, p) := by
  refine ⟨{ grid := fun _ _ => { value := 7, given := true, cands := ∅ },
            counts := fun _ => 0 }, ?_, rfl, ?_⟩
  · decide
  · exact placeValue_solved_same _ 0 0 7 (by decide) rfl

/-! ## Claim C10: `Puzzle.GivenValue` performs no conflict checking -/

/-- C10: `GivenValue` succeeds or fails depending only on the per-digit
unsolved count: it is fatal exactly when `unsolvedCounts[v]` would drop
below zero (for `v ≠ 0`, exactly when `unsolvedCounts[v] ≤ 0`, i.e. the
digit has already been supplied nine times), and in particular two
givens with the same value in one row are accepted without error while
a tenth given of the same digit is fatal. -/
theorem givenValue_no_conflict_check :
    (∀ (p : Puzzle) (r c v : ℕ), v ≠ 0 →
      ((p.givenValue r c v).isOk ↔ 1 ≤ p.counts v)) ∧
    (∃ p₂ : Puzzle,
      PM.bind (newPuzzle.givenValue 0 0 5) (fun q => q.givenValue 0 1 5) =
        .ok p₂ ∧
      (p₂.grid 0 0).value = 5 ∧ (p₂.grid 0 1).value = 5) ∧
    (∀ p : Puzzle, p.counts 5 = 0 → p.givenValue 4 4 5 = .fatal) := by
  have key : ∀ (p : Puzzle) (r c v : ℕ), v ≠ 0 →
      ((if v = (0:ℕ) then
        ((p.setCell r c ((p.grid r c).giveVal v)).counts 0 - 1)
        else (p.setCell r c ((p.grid r c).giveVal v)).counts v) - 1 < 0 ↔
        p.counts v - 1 < 0) := by
    intro p r c v hv
    rw [if_neg hv]
    exact Iff.rfl
  refine ⟨?_, ?_, ?_⟩
  · intro p r c v hv
    unfold Puzzle.givenValue Puzzle.updateUnsolvedCounts
    by_cases hlt : p.counts v - 1 < 0
    · rw [if_pos ((key p r c v hv).2 hlt)]
      simp only [PM.isOk, false_iff]
      omega
    · rw [if_neg (fun h => hlt ((key p r c v hv).1 h))]
      simp only [PM.isOk, true_iff]
      omega
  · exact ⟨_, rfl, rfl, rfl⟩
  · intro p h5
    unfold Puzzle.givenValue Puzzle.updateUnsolvedCounts
    rw [if_pos ((key p 4 4 5 (by decide)).2 (by omega))]

/-! ## Claim C8: `Set.Values` enumeration order -/

/-- `internal/set.Set.Values` iterates a Go map (`for k := range
s.elements`); the Go specification leaves map iteration order
unspecified and the runtime randomizes it on every `range` statement.
`valuesRel s l` holds iff `l` is a possible result of one `Values()`
call on a set holding the elements of `s`: each element exactly once,
in some order. -/
def valuesRel (s : Finset ℕ) (l : List ℕ) : Prop :=
  l.Nodup ∧ l.toFinset = s

/-- C8 fails on the code: for the set `{1, 2}`, both `[1, 2]` and
`[2, 1]` are legal results of a single `Values()` call, and they are
different sequences, so two calls with no intervening mutation are not
guaranteed to return the same sequence. -/
theorem valuesRel_not_deterministic :
    valuesRel {1, 2} [1, 2] ∧ valuesRel {1, 2} [2, 1] ∧
      ([1, 2] : List ℕ) ≠ [2, 1] := by
  refine ⟨⟨?_, ?_⟩, ⟨?_, ?_⟩, ?_⟩ <;> decide

/-! ## Claim C4: `buildMatrix` row and column structure -/

/-- The 324 column headers created by `buildMatrix` (`for i := range
324`), identified by their index. -/
def matrixColumns : List ℕ := List.range 324

/-- The four constraint column indices computed by `createRowNodes`
for the matrix row `(r, c, v)`. -/
def rowColumnIndices (r c v : ℕ) : List ℕ :=
  [r * 9 + c, 81 + r * 9 + (v - 1), 162 + c * 9 + (v - 1),
   243 + (r / 3 * 3 + c / 3) * 9 + (v - 1)]

/-- The matrix rows emitted by the grid loop of `buildMatrix`, in
emission order: for every cell in row-major order, the single row
`(r, c, value)` if the cell is solved, otherwise one row per value
`1..9` that is a candidate of the cell. -/
def cellRows (cell : Cell) (r c : ℕ) : List (ℕ × ℕ × ℕ) :=
  if cell.solved then [(r, c, cell.value)]
  else (List.range 9).filterMap fun i =>
    if cell.hasCand (i + 1) then some (r, c, i + 1) else none

def matrixRows (p : Puzzle) : List (ℕ × ℕ × ℕ) :=
  (List.range 9).flatMap fun r =>
    (List.range 9).flatMap fun c => cellRows (p.grid r c) r c

/-- A fully solved puzzle for the boundary part of C4 (proof support):
cell `(r, c)` holds the value `(r*3 + r/3 + c) % 9 + 1`, a standard
valid filled grid. -/
def solvedPuzzle : Puzzle :=
  { grid := fun r c =>
      { value := (r * 3 + r / 3 + c) % 9 + 1, given := true, cands := ∅ }
    counts := fun _ => 0 }

/-- C4: the emission behaviour of `buildMatrix` per cell, together
with the column-index formula, the 324-column count, and the two
boundary cases.  For a solved cell exactly the single row
`(r, c, value)` is emitted; for an unsolved cell the emitted rows are
exactly the rows `(r, c, v)` with `v` a candidate of the cell in
`1..9`, without duplicates; every row's four nodes sit in the columns
`r*9+c`, `81+r*9+(v-1)`, `162+c*9+(v-1)` and `243+(r/3*3+c/3)*9+(v-1)`;
the fresh empty puzzle yields 729 rows and a fully solved puzzle yields
exactly 81 rows. -/
theorem buildMatrix_rows :
    matrixColumns.length = 324 ∧
    (∀ (cell : Cell) (r c : ℕ), cell.solved →
      cellRows cell r c = [(r, c, cell.value)]) ∧
    (∀ (cell : Cell) (r c : ℕ), ¬ cell.solved →
      (∀ v, (r, c, v) ∈ cellRows cell r c ↔
        (v ∈ cell.cands ∧ 1 ≤ v ∧ v ≤ 9)) ∧ (cellRows cell r c).Nodup) ∧
    (∀ r c v, rowColumnIndices r c v =
      [r * 9 + c, 81 + r * 9 + (v - 1), 162 + c * 9 + (v - 1),
       243 + (r / 3 * 3 + c / 3) * 9 + (v - 1)] ∧
      (rowColumnIndices r c v).length = 4) ∧
    (matrixRows newPuzzle).length = 729 ∧
    (∀ p : Puzzle, (∀ r, r < 9 → ∀ c, c < 9 → (p.grid r c).solved) →
      (matrixRows p).length = 81) := by
  refine ⟨rfl, ?_, ?_, ?_, by decide, ?_⟩
  · intro cell r c hs
    simp [cellRows, hs]
  · intro cell r c hu
    constructor
    · intro v
      simp only [cellRows, hu, if_false, List.mem_filterMap, List.mem_range]
      constructor
      · rintro ⟨i, hi, hfi⟩
        by_cases h : cell.hasCand (i + 1)
        · rw [if_pos h] at hfi
          have h3 : i + 1 = v := by simpa using hfi
          exact ⟨by rw [← h3]; exact h, by omega, by omega⟩
        · rw [if_neg h] at hfi
          exact absurd hfi (by simp)
      · rintro ⟨hv, h1, h9⟩
        refine ⟨v - 1, by omega, ?_⟩
        have : v - 1 + 1 = v := by omega
        rw [if_pos (by simpa [Cell.hasCand, this] using hv), this]
    · simp only [cellRows, hu, if_false]
      apply List.Nodup.filterMap ?_ (List.nodup_range 9)
      intro a b x ha hb
      by_cases h1 : cell.hasCand (a + 1)
      · rw [if_pos h1] at ha
        by_cases h2 : cell.hasCand (b + 1)
        · rw [if_pos h2] at hb
          have ha' : (r, c, a + 1) = x := by simpa using ha
          have hb' : (r, c, b + 1) = x := by simpa using hb
          have hab : a + 1 = b + 1 := by
            have h := ha'.trans hb'.symm
            simpa using h
          omega
        · rw [if_neg h2] at hb
          exact absurd hb (by simp)
      · rw [if_neg h1] at ha
        exact absurd ha (by simp)
  · intro r c v
    exact ⟨rfl, rfl⟩
  · intro p hs
    have inner : ∀ r, r < 9 →
        ((List.range 9).flatMap fun c => cellRows (p.grid r c) r c).length
          = 9 := by
      intro r hr
      rw [List.length_flatMap]
      simp only [Function.comp_def]
      have h1 : ∀ c ∈ List.range 9,
          (cellRows (p.grid r c) r c).length = 1 := by
        intro c hc
        rw [List.mem_range] at hc
        simp [cellRows, hs r hr c hc]
      rw [List.map_congr_left h1]
      simp
    rw [matrixRows, List.length_flatMap]
    simp only [Function.comp_def]
    have h2 : ∀ r ∈ List.range 9,
        ((List.range 9).flatMap fun c => cellRows (p.grid r c) r c).length
          = 9 := by
      intro r hr
      exact inner r (List.mem_range.1 hr)
    rw [List.map_congr_left h2]
    simp

theorem buildMatrix_rows_witness :
    (∀ r, r < 9 → ∀ c, c < 9 → (solvedPuzzle.grid r c).solved) ∧
      (matrixRows solvedPuzzle).length = 81 :=
  have h : ∀ r, r < 9 → ∀ c, c < 9 → (solvedPuzzle.grid r c).solved := by
    decide
  ⟨h, buildMatrix_rows.2.2.2.2.2 solvedPuzzle h⟩

/-! ## Claim C6: `findUniqueRectangles` / `checkUniqueRectangleForCell` -/

/-- Ascending enumeration standing in for `Set.Values` where a
deterministic order is needed; all sets so enumerated hold integers
below 10 (candidate digits `1..9`, local indices `0..8`). -/
def setValues (s : Finset ℕ) : List ℕ :=
  (List.range 10).filter (fun v => v ∈ s)

/-- `solver.sameCandidates`: equal candidate-set size and union of that
same size, i.e. equal candidate sets. -/
def sameCandsB (a b : Cell) : Bool :=
  b.cands.card == a.cands.card && (a.cands ∪ b.cands).card == a.cands.card

/-- The part of a `SolutionStep` that the claims observe: the pattern
values and cell indices (`row*9+col`) set by the technique and the
scheduled candidate deletions `(cellIndex, value)`. -/
structure SStep where
  values : List ℕ
  cellIdx : List ℕ
  bases : List ℕ
  covers : List ℕ
  deleted : List (ℕ × ℕ)
deriving DecidableEq

/-- `solver.eliminateValuesFromCell`: schedule deletion of every value
of `values` present in cell `(r, c)`; report whether any was
scheduled. -/
def elimValuesFromCell (p : Puzzle) (r c : ℕ) (values : Finset ℕ) :
    List (ℕ × ℕ) :=
  (setValues values).filterMap fun v =>
    if (p.grid r c).hasCand v then some (r * 9 + c, v) else none

/-- `solver.checkUniqueRectangleForCell`: find the first cell in the
base's row with the same candidate pair (`rowWing`), then the first in
the base's column (`colWing`); if the wings sit in different boxes and
one of them shares the base's box, schedule elimination of the pair
from the fourth corner `(colWing.Row, rowWing.Col)`, reporting the step
iff at least one candidate is actually deleted. -/
def checkURForCell (p : Puzzle) (br bc : ℕ) : Option SStep :=
  match (List.range 9).find?
      (fun c => !(c == bc) && sameCandsB (p.grid br bc) (p.grid br c)) with
  | none => none
  | some wc =>
    match (List.range 9).find?
        (fun r => !(r == br) && sameCandsB (p.grid br bc) (p.grid r bc)) with
    | none => none
    | some wr =>
      if boxOf br wc ≠ boxOf wr bc ∧
          (boxOf br wc = boxOf br bc ∨ boxOf wr bc = boxOf br bc) then
        if elimValuesFromCell p wr wc (p.grid br bc).cands ≠ [] then
          some { values := setValues (p.grid br bc).cands
                 cellIdx := [br * 9 + bc, br * 9 + wc, wr * 9 + bc]
                 bases := [], covers := []
                 deleted := elimValuesFromCell p wr wc (p.grid br bc).cands }
        else none
      else none

/-- `solver.findUniqueRectangles`: scan cells in row-major order,
checking each cell with exactly two candidates, and return the first
reported step. -/
def findUniqueRectangles (p : Puzzle) : Option SStep :=
  (List.range 9).findSome? fun r =>
    (List.range 9).findSome? fun c =>
      if (p.grid r c).cands.card = 2 then checkURForCell p r c else none

/-- The concrete grid refuting C6 as stated: `(0,0)`, `(0,1)`, `(1,0)`
and `(0,3)` are bicandidate `{1,2}` cells, `(1,3)` holds candidates
`{1,7}`, and every other cell holds `{1,2,3}`. -/
def urGrid : Puzzle :=
  { grid := fun r c =>
      if r = 0 ∧ c = 0 then { value := 0, given := false, cands := {1, 2} }
      else if r = 0 ∧ c = 1 then { value := 0, given := false, cands := {1, 2} }
      else if r = 1 ∧ c = 0 then { value := 0, given := false, cands := {1, 2} }
      else if r = 0 ∧ c = 3 then { value := 0, given := false, cands := {1, 2} }
      else if r = 1 ∧ c = 3 then { value := 0, given := false, cands := {1, 7} }
      else { value := 0, given := false, cands := {1, 2, 3} }
    counts := fun _ => 0 }

/-- C6 fails as stated: in `urGrid` the base `(0,0)` with pair
`P = {1,2}`, the row wing `(0,3)` and the column wing `(1,0)` satisfy
every premise of the claim (equal candidate pairs, different wing
boxes, exactly one wing sharing the base's box, and the fourth corner
`(1,3)` holding `1 ∈ P`), yet `findUniqueRectangles` reports nothing,
because the search takes the *first* matching wing in the row — here
`(0,1)` — and gives up on the cell when the box test fails for that
first pair. -/
theorem findUniqueRectangles_counterexample :
    (urGrid.grid 0 0).cands = {1, 2} ∧ (urGrid.grid 0 0).cands.card = 2 ∧
    (urGrid.grid 0 3).cands = {1, 2} ∧ (urGrid.grid 1 0).cands = {1, 2} ∧
    boxOf 0 3 ≠ boxOf 1 0 ∧
    (boxOf 0 3 = boxOf 0 0 ∨ boxOf 1 0 = boxOf 0 0) ∧
    (urGrid.grid 1 3).hasCand 1 ∧
    findUniqueRectangles urGrid = none := by
  refine ⟨rfl, by decide, rfl, rfl, by decide, ?_, by decide, by decide⟩
  right
  decide

/-- `findSome?` over `List.range'` returns the image of the first
index whose image is not `none` (proof support). -/
theorem findSome_range'_first {α : Type} (f : ℕ → Option α) :
    ∀ (n s k : ℕ), s ≤ k → k < s + n → (∀ i, s ≤ i → i < k → f i = none) →
      (f k).isSome → (List.range' s n).findSome? f = f k := by
  intro n
  induction n with
  | zero =>
    intro s k h1 h2 _ _
    omega
  | succ m ih =>
    intro s k h1 h2 h0 hk
    rw [List.range'_succ s m 1, List.findSome?_cons]
    by_cases hsk : s = k
    · subst hsk
      cases hfk : f s with
      | none => rw [hfk] at hk; exact absurd hk (by simp)
      | some b => simp
    · have hnone : f s = none := h0 s le_rfl (by omega)
      rw [hnone]
      exact ih (s + 1) k (by omega) (by omega)
        (fun i hi1 hi2 => h0 i (by omega) hi2) hk

theorem findSome_range_first {α : Type} (f : ℕ → Option α) (n k : ℕ)
    (hk : k < n) (h0 : ∀ i, i < k → f i = none) (hx : (f k).isSome) :
    (List.range n).findSome? f = f k := by
  rw [List.range_eq_range']
  exact findSome_range'_first f n 0 k (Nat.zero_le k) (by omega)
    (fun i _ hi => h0 i hi) hx

/-- C6 (amended): for a bicandidate base cell, take `rowWing` to be the
*first* cell of the base's row (ascending column order) with the same
candidate set and `colWing` the *first* such cell of the base's column;
if the two wings sit in different boxes and one of them shares the
base's box, then `checkUniqueRectangleForCell` schedules elimination of
exactly the base-pair values present as candidates in the fourth corner
`(colWing.Row, rowWing.Col)`, reporting a step iff that corner holds at
least one of them; and `findUniqueRectangles` reports that step when
the base is the first cell (row-major) with two candidates whose check
succeeds. -/
theorem checkUniqueRectangleForCell_amended (p : Puzzle) (br bc wc wr : ℕ)
    (hwc : (List.range 9).find?
      (fun c => !(c == bc) && sameCandsB (p.grid br bc) (p.grid br c))
        = some wc)
    (hwr : (List.range 9).find?
      (fun r => !(r == br) && sameCandsB (p.grid br bc) (p.grid r bc))
        = some wr)
    (hbox : boxOf br wc ≠ boxOf wr bc ∧
      (boxOf br wc = boxOf br bc ∨ boxOf wr bc = boxOf br bc))
    (hP : ∀ v ∈ (p.grid br bc).cands, v < 10) :
    (checkURForCell p br bc = none ↔
      ∀ v ∈ (p.grid br bc).cands, ¬ (p.grid wr wc).hasCand v) ∧
    (∀ s, checkURForCell p br bc = some s →
      (∀ iv, iv ∈ s.deleted ↔ ∃ v, iv = (wr * 9 + wc, v) ∧
        v ∈ (p.grid br bc).cands ∧ (p.grid wr wc).hasCand v) ∧
      s.deleted ≠ []) ∧
    (br < 9 → bc < 9 → (p.grid br bc).cands.card = 2 →
      (checkURForCell p br bc).isSome →
      (∀ r' c', r' < 9 → c' < 9 → (r' < br ∨ (r' = br ∧ c' < bc)) →
        ¬ ((p.grid r' c').cands.card = 2 ∧
           (checkURForCell p r' c').isSome)) →
      findUniqueRectangles p = checkURForCell p br bc) := by
  have hmem : ∀ iv, iv ∈ elimValuesFromCell p wr wc (p.grid br bc).cands ↔
      ∃ v, iv = (wr * 9 + wc, v) ∧ v ∈ (p.grid br bc).cands ∧
        (p.grid wr wc).hasCand v := by
    intro iv
    simp only [elimValuesFromCell, setValues, List.mem_filterMap,
      List.mem_filter, List.mem_range]
    constructor
    · rintro ⟨v, ⟨hv10, hvP⟩, hif⟩
      by_cases h : (p.grid wr wc).hasCand v
      · rw [if_pos h] at hif
        refine ⟨v, ?_, by simpa using hvP, h⟩
        injection hif with h'
        exact h'.symm
      · rw [if_neg h] at hif
        exact absurd hif (by simp)
    · rintro ⟨v, rfl, hvP, hv⟩
      exact ⟨v, ⟨hP v hvP, by simpa using hvP⟩, if_pos hv⟩
  have hred : checkURForCell p br bc =
      (if elimValuesFromCell p wr wc (p.grid br bc).cands ≠ [] then
        some { values := setValues (p.grid br bc).cands
               cellIdx := [br * 9 + bc, br * 9 + wc, wr * 9 + bc]
               bases := [], covers := []
               deleted := elimValuesFromCell p wr wc (p.grid br bc).cands }
       else none) := by
    simp only [checkURForCell, hwc, hwr]
    rw [if_pos hbox]
  have hemp : elimValuesFromCell p wr wc (p.grid br bc).cands = [] ↔
      ∀ v ∈ (p.grid br bc).cands, ¬ (p.grid wr wc).hasCand v := by
    rw [List.eq_nil_iff_forall_not_mem]
    constructor
    · intro h v hv hc
      exact h _ ((hmem (wr * 9 + wc, v)).2 ⟨v, rfl, hv, hc⟩)
    · rintro h iv hiv
      obtain ⟨v, rfl, hv, hc⟩ := (hmem iv).1 hiv
      exact h v hv hc
  refine ⟨?_, ?_, ?_⟩
  · rw [hred]
    by_cases h : elimValuesFromCell p wr wc (p.grid br bc).cands = []
    · rw [if_neg (by simp [h])]
      exact iff_of_true rfl (hemp.1 h)
    · rw [if_pos h]
      constructor
      · intro hcon
        exact absurd hcon (by simp)
      · intro hc
        exact absurd (hemp.2 hc) h
  · intro s hs
    rw [hred] at hs
    by_cases h : elimValuesFromCell p wr wc (p.grid br bc).cands = []
    · rw [if_neg (by simp [h])] at hs
      exact absurd hs (by simp)
    · rw [if_pos h] at hs
      have hss : s = { values := setValues (p.grid br bc).cands
                       cellIdx := [br * 9 + bc, br * 9 + wc, wr * 9 + bc]
                       bases := [], covers := []
                       deleted :=
                         elimValuesFromCell p wr wc (p.grid br bc).cands
                     } := by
        injection hs with h'
        exact h'.symm
      subst hss
      exact ⟨hmem, h⟩
  · intro hbr hbc hcard hsome hearlier
    unfold findUniqueRectangles
    have hrow : ∀ r', r' < br →
        ((List.range 9).findSome? fun c =>
          if (p.grid r' c).cands.card = 2 then checkURForCell p r' c
          else none) = none := by
      intro r' hr'
      rw [List.findSome?_eq_none_iff]
      intro c' hc'
      rw [List.mem_range] at hc'
      by_cases h2 : (p.grid r' c').cands.card = 2
      · rw [if_pos h2]
        cases hck : checkURForCell p r' c' with
        | none => rfl
        | some s =>
          exact absurd ⟨h2, by rw [hck]; rfl⟩
            (hearlier r' c' (by omega) hc' (Or.inl hr'))
      · rw [if_neg h2]
    have hin : ((List.range 9).findSome? fun c =>
        if (p.grid br c).cands.card = 2 then checkURForCell p br c
        else none) = checkURForCell p br bc := by
      have h9 := findSome_range_first
        (fun c => if (p.grid br c).cands.card = 2 then checkURForCell p br c
          else none) 9 bc hbc ?_ ?_
      · rw [h9]
        beta_reduce
        rw [if_pos hcard]
      · intro c' hc'
        beta_reduce
        by_cases h2 : (p.grid br c').cands.card = 2
        · rw [if_pos h2]
          cases hck : checkURForCell p br c' with
          | none => rfl
          | some s =>
            exact absurd ⟨h2, by rw [hck]; rfl⟩
              (hearlier br c' hbr (by omega) (Or.inr ⟨rfl, hc'⟩))
        · rw [if_neg h2]
      · beta_reduce
        rw [if_pos hcard]
        exact hsome
    have hout := findSome_range_first
      (fun r => (List.range 9).findSome? fun c =>
        if (p.grid r c).cands.card = 2 then checkURForCell p r c else none)
      9 br hbr hrow
      (by beta_reduce; rw [hin]; exact hsome)
    beta_reduce at hout
    rw [hout, hin]

/-- Concrete grid on which the amended C6 fires: base `(0,0)` `{1,2}`,
row wing `(0,3)`, column wing `(1,0)`, fourth corner `(1,3)` holding
candidate `1`. -/
def urGrid2 : Puzzle :=
  { grid := fun r c =>
      if r = 0 ∧ c = 0 then { value := 0, given := false, cands := {1, 2} }
      else if r = 1 ∧ c = 0 then { value := 0, given := false, cands := {1, 2} }
      else if r = 0 ∧ c = 3 then { value := 0, given := false, cands := {1, 2} }
      else if r = 1 ∧ c = 3 then { value := 0, given := false, cands := {1, 7} }
      else { value := 0, given := false, cands := {1, 2, 3} }
    counts := fun _ => 0 }

theorem checkUniqueRectangleForCell_amended_witness :
    findUniqueRectangles urGrid2 = checkURForCell urGrid2 0 0 ∧
      (checkURForCell urGrid2 0 0).isSome :=
  have h := checkUniqueRectangleForCell_amended urGrid2 0 0 3 1
    (by decide) (by decide) (by decide) (by decide)
  ⟨h.2.2 (by decide) (by decide) (by decide) (by decide)
    (by intro r' c' _ _ h0 _; omega), by decide⟩

/-! ## Claim C5: fish techniques (`findFishInLines` / `checkFishForValue`) -/

/-- A cell as seen through a `House` in the fish code: its grid
position and candidate set. -/
structure FCell where
  row : ℕ
  col : ℕ
  cands : Finset ℕ
deriving DecidableEq

/-- A `solver.House` as used by the fish finder: its index, the
`Unsolved` value-to-locations map (an association list standing for
the Go map, enumerated in list order), and its member cells. -/
structure HouseF where
  index : ℕ
  unsolved : List (ℕ × Finset ℕ)
  cells : ℕ → FCell

/-- Go map lookup `h.Unsolved[val]`. -/
def HouseF.lookup (h : HouseF) (v : ℕ) : Option (Finset ℕ) :=
  (h.unsolved.find? (fun e => e.1 == v)).map (·.2)

/-- `House.NumLocations`: the size of the location set, `0` if the
value is absent. -/
def HouseF.numLocations (h : HouseF) (v : ℕ) : ℕ :=
  (h.lookup v).elim 0 Finset.card

/-- `House.Locations` (also standing for the raw `h.Unsolved[val]`
access inside `checkLines`, which is only reached for lines whose
location set is present). -/
def HouseF.locations (h : HouseF) (v : ℕ) : Finset ℕ :=
  (h.lookup v).getD ∅

/-- `solver.eliminateFromOtherLocs`: schedule deletion of every value
of `values` from every cell of house `g` whose local index is not in
`locs`. -/
def elimFromOtherLocs (g : HouseF) (values locs : Finset ℕ) :
    List (ℕ × ℕ) :=
  (List.range 9).flatMap fun l =>
    if l ∈ locs then []
    else (setValues values).filterMap fun v =>
      if v ∈ (g.cells l).cands then
        some ((g.cells l).row * 9 + (g.cells l).col, v)
      else none

/-- `solver.eliminateFromOtherLocsMulti`. -/
def elimFromOtherLocsMulti (houses : List HouseF) (values locs : Finset ℕ) :
    List (ℕ × ℕ) :=
  houses.flatMap fun g => elimFromOtherLocs g values locs

/-- The recursive `checkLines` closure of `checkFishForValue`:
extend `fishLines` with further base lines keeping the running union
of candidate locations within `fishSize`, succeeding as soon as
`fishSize` lines are collected and returning the union as the cover
location set; on failure backtrack and continue with later lines. -/
def checkLines (fishSize val : ℕ) :
    List HouseF → Finset ℕ → List ℕ → Option (List ℕ × Finset ℕ)
  | [], _, _ => none
  | line :: rest, fishLocs, fishLines =>
    if fishSize < (fishLocs ∪ line.locations val).card then
      checkLines fishSize val rest fishLocs fishLines
    else
      if (fishLines ++ [line.index]).length = fishSize then
        some (fishLines ++ [line.index], fishLocs ∪ line.locations val)
      else
        match checkLines fishSize val rest (fishLocs ∪ line.locations val)
            (fishLines ++ [line.index]) with
        | some res => some res
        | none => checkLines fishSize val rest fishLocs fishLines

/-- Fallback house for the (unreachable) out-of-range cover-line
index, mirroring that Go would panic there. -/
def dummyHouse : HouseF := { index := 0, unsolved := [], cells := fun _ => ⟨0, 0, ∅⟩ }

/-- `solver.checkFishForValue`: filter candidate base lines (distinct
index, between 2 and `fishSize` locations for `val`), run `checkLines`
starting from `base1`, and on success schedule the eliminations from
the cover lines indexed by the union, reporting the step iff at least
one elimination exists.  The step records the fish-line indices as
`bases` and the cover-line indices as `covers`. -/
def checkFishForValue (fishSize val : ℕ) (base1 : HouseF)
    (baseLines coverLines : List HouseF) : Option SStep :=
  match checkLines fishSize val
      (baseLines.filter fun b2 =>
        !(b2.index == base1.index) &&
          decide (2 ≤ b2.numLocations val) &&
          decide (b2.numLocations val ≤ fishSize))
      (base1.locations val) [base1.index] with
  | none => none
  | some (fishLines, coverLocs) =>
    if elimFromOtherLocsMulti
        ((setValues coverLocs).map fun y => coverLines.getD y dummyHouse)
        {val} fishLines.toFinset ≠ [] then
      some { values := [val], cellIdx := [], bases := fishLines
             covers := setValues coverLocs
             deleted := elimFromOtherLocsMulti
               ((setValues coverLocs).map fun y => coverLines.getD y dummyHouse)
               {val} fishLines.toFinset }
    else none

/-- `solver.findFishInLines`: for each base line and each unsolved
value with at most `fishSize` candidate locations, try
`checkFishForValue`. -/
def findFishInLines (fishSize : ℕ) (baseLines coverLines : List HouseF) :
    Option SStep :=
  baseLines.findSome? fun base =>
    base.unsolved.findSome? fun e =>
      if fishSize < e.2.card then none
      else checkFishForValue fishSize e.1 base baseLines coverLines

/-- Base lines refuting the "exactly `N`" part of C5: rows 0, 1 and 2
each hold value 5 in columns `{0, 1}` only. -/
def fishRow (i : ℕ) : HouseF :=
  { index := i
    unsolved := if i < 3 then [(5, {0, 1})] else []
    cells := fun _ => ⟨0, 0, ∅⟩ }

/-- Cover lines for the C5 counterexample: column 0 holds candidate 5
at row 5. -/
def fishCol (i : ℕ) : HouseF :=
  { index := i
    unsolved := []
    cells := fun l => ⟨l, i, if i = 0 ∧ l = 5 then {5} else ∅⟩ }

def fishBase : List HouseF := (List.range 9).map fishRow

def fishCover : List HouseF := (List.range 9).map fishCol

/-- C5 fails as stated for the Swordfish size `N = 3`: on the state
`fishBase`/`fishCover` the finder reports a fish built from the 3 base
lines 0, 1, 2 whose location union is `{0, 1}` of size 2, so only 2
cover lines are taken — the union need not have size exactly `N`. -/
theorem findFishInLines_counterexample :
    ∃ step, findFishInLines 3 fishBase fishCover = some step ∧
      step.bases.length = 3 ∧ step.covers.length = 2 :=
  ⟨_, rfl, rfl, rfl⟩

/-- The running union of candidate locations accumulated by
`checkLines` (proof support). -/
def locsUnion (val : ℕ) (hs : List HouseF) (s : Finset ℕ) : Finset ℕ :=
  hs.foldl (fun a h => a ∪ h.locations val) s

theorem checkLines_sound (N val : ℕ) :
    ∀ (lines : List HouseF) (fishLocs : Finset ℕ) (fl flist : List ℕ)
      (clocs : Finset ℕ),
      checkLines N val lines fishLocs fl = some (flist, clocs) →
      ∃ added : List HouseF, added.Sublist lines ∧
        flist = fl ++ added.map (fun h => h.index) ∧
        clocs = locsUnion val added fishLocs ∧
        flist.length = N ∧ clocs.card ≤ N := by
  intro lines
  induction lines with
  | nil =>
    intro _ _ _ _ h
    exact absurd h (by simp [checkLines])
  | cons line rest ih =>
    intro fishLocs fl flist clocs h
    rw [checkLines] at h
    by_cases hskip : N < (fishLocs ∪ line.locations val).card
    · rw [if_pos hskip] at h
      obtain ⟨added, hsub, h1, h2, h3, h4⟩ := ih fishLocs fl flist clocs h
      exact ⟨added, hsub.cons line, h1, h2, h3, h4⟩
    · rw [if_neg hskip] at h
      by_cases hlen : (fl ++ [line.index]).length = N
      · rw [if_pos hlen] at h
        refine ⟨[line], (List.nil_sublist rest).cons₂ line, ?_, ?_, ?_, ?_⟩
        · injection h with h'
          injection h' with ha hb
          exact ha.symm
        · injection h with h'
          injection h' with ha hb
          exact hb.symm
        · injection h with h'
          injection h' with ha hb
          rw [← ha, hlen]
        · injection h with h'
          injection h' with ha hb
          rw [← hb]
          omega
      · rw [if_neg hlen] at h
        cases hin : checkLines N val rest (fishLocs ∪ line.locations val)
            (fl ++ [line.index]) with
        | some res =>
          rw [hin] at h
          injection h with h'
          rw [h'] at hin
          obtain ⟨added, hsub, h1, h2, h3, h4⟩ :=
            ih (fishLocs ∪ line.locations val) (fl ++ [line.index])
              flist clocs hin
          refine ⟨line :: added, hsub.cons₂ line, ?_, h2, h3, h4⟩
          rw [h1, List.map_cons, List.append_assoc]
          rfl
        | none =>
          rw [hin] at h
          obtain ⟨added, hsub, h1, h2, h3, h4⟩ := ih fishLocs fl flist clocs h
          exact ⟨added, hsub.cons line, h1, h2, h3, h4⟩

/-- C5 (amended): soundness of the fish finder for size `N`.  Whenever
`findFishInLines` reports a step: the starting base line has at most
`N` candidate locations for the value; the fish consists of `N` base
lines, the extension lines each having between 2 and `N` locations;
the cover location union has size *at most* `N` (not exactly `N`); the
step takes the cover lines indexed by that union and schedules exactly
the eliminations of the value from cells of those cover lines whose
local (base-line) index is not among the fish lines, reporting the
step only because at least one such elimination exists.  The final
conjunct characterises the shared elimination primitive. -/
theorem findFishInLines_sound (N : ℕ) (bl cl : List HouseF) (step : SStep)
    (h : findFishInLines N bl cl = some step) :
    (∃ (base1 : HouseF) (val : ℕ) (elocs : Finset ℕ) (added : List HouseF)
       (clocs : Finset ℕ),
      base1 ∈ bl ∧ (val, elocs) ∈ base1.unsolved ∧ elocs.card ≤ N ∧
      (∀ b2 ∈ added, b2.index ≠ base1.index ∧
        2 ≤ b2.numLocations val ∧ b2.numLocations val ≤ N) ∧
      step.bases = base1.index :: added.map (fun h => h.index) ∧
      step.bases.length = N ∧
      clocs = locsUnion val added (base1.locations val) ∧ clocs.card ≤ N ∧
      step.values = [val] ∧ step.covers = setValues clocs ∧
      step.deleted = elimFromOtherLocsMulti
        ((setValues clocs).map fun y => cl.getD y dummyHouse)
        {val} step.bases.toFinset ∧
      step.deleted ≠ []) ∧
    (∀ (g : HouseF) (values locs : Finset ℕ) (iv : ℕ × ℕ),
      iv ∈ elimFromOtherLocs g values locs ↔
        ∃ l, l < 9 ∧ l ∉ locs ∧ ∃ v, v < 10 ∧ v ∈ values ∧
          v ∈ (g.cells l).cands ∧
          iv = ((g.cells l).row * 9 + (g.cells l).col, v)) := by
  constructor
  · obtain ⟨base1, hb1, h1⟩ := List.exists_of_findSome?_eq_some h
    obtain ⟨e, he, h2⟩ := List.exists_of_findSome?_eq_some h1
    by_cases hcard : N < e.2.card
    · rw [if_pos hcard] at h2
      exact absurd h2 (by simp)
    · rw [if_neg hcard] at h2
      unfold checkFishForValue at h2
      cases hcl : checkLines N e.1
          (bl.filter fun b2 =>
            !(b2.index == base1.index) &&
              decide (2 ≤ b2.numLocations e.1) &&
              decide (b2.numLocations e.1 ≤ N))
          (base1.locations e.1) [base1.index] with
      | none =>
        rw [hcl] at h2
        exact absurd h2 (by simp)
      | some res =>
        obtain ⟨fl0, cv0⟩ := res
        rw [hcl] at h2
        have h2' : (if elimFromOtherLocsMulti
            ((setValues cv0).map fun y => cl.getD y dummyHouse)
            {e.1} fl0.toFinset ≠ [] then
            some { values := [e.1], cellIdx := [], bases := fl0
                   covers := setValues cv0
                   deleted := elimFromOtherLocsMulti
                     ((setValues cv0).map fun y => cl.getD y dummyHouse)
                     {e.1} fl0.toFinset }
          else none) = some step := h2
        by_cases hne : elimFromOtherLocsMulti
            ((setValues cv0).map fun y => cl.getD y dummyHouse)
            {e.1} fl0.toFinset ≠ []
        · rw [if_pos hne] at h2'
          obtain ⟨added, hsub, h1', h2'', h3', h4'⟩ :=
            checkLines_sound N e.1 _ _ _ fl0 cv0 hcl
          injection h2' with h''
          subst h''
          refine ⟨base1, e.1, e.2, added, cv0, hb1, he, by omega,
            ?_, by simpa using h1', by simpa using h3', h2'', h4',
            rfl, rfl, rfl, hne⟩
          intro b2 hb2
          have hmem := hsub.subset hb2
          rw [List.mem_filter] at hmem
          have hprop := hmem.2
          simp only [Bool.and_eq_true, decide_eq_true_eq] at hprop
          refine ⟨?_, hprop.1.2, hprop.2⟩
          have hne' := hprop.1.1
          simpa using hne'
        · rw [if_neg hne] at h2'
          exact absurd h2' (by simp)
  · intro g values locs iv
    simp only [elimFromOtherLocs, List.mem_flatMap, List.mem_range,
      List.mem_filterMap, setValues, List.mem_filter]
    constructor
    · rintro ⟨l, hl9, hbody⟩
      by_cases hloc : l ∈ locs
      · rw [if_pos hloc] at hbody
        exact absurd hbody (by simp)
      · rw [if_neg hloc] at hbody
        rw [List.mem_filterMap] at hbody
        obtain ⟨v, hv, hif⟩ := hbody
        rw [List.mem_filter, List.mem_range] at hv
        by_cases hcand : v ∈ (g.cells l).cands
        · rw [if_pos hcand] at hif
          refine ⟨l, hl9, hloc, v, hv.1, by simpa using hv.2, hcand, ?_⟩
          injection hif with h'
          exact h'.symm
        · rw [if_neg hcand] at hif
          exact absurd hif (by simp)
    · rintro ⟨l, hl9, hloc, v, hv10, hvv, hcand, rfl⟩
      refine ⟨l, hl9, ?_⟩
      rw [if_neg hloc, List.mem_filterMap]
      exact ⟨v, by simp [List.mem_filter, List.mem_range, hv10, hvv],
        if_pos hcand⟩

theorem findFishInLines_sound_witness :
    ∃ step, findFishInLines 3 fishBase fishCover = some step ∧
      ∃ (base1 : HouseF) (val : ℕ) (elocs : Finset ℕ) (added : List HouseF)
        (clocs : Finset ℕ),
        base1 ∈ fishBase ∧ (val, elocs) ∈ base1.unsolved ∧ elocs.card ≤ 3 ∧
        (∀ b2 ∈ added, b2.index ≠ base1.index ∧
          2 ≤ b2.numLocations val ∧ b2.numLocations val ≤ 3) ∧
        step.bases = base1.index :: added.map (fun h => h.index) ∧
        step.bases.length = 3 ∧
        clocs = locsUnion val added (base1.locations val) ∧ clocs.card ≤ 3 ∧
        step.values = [val] ∧ step.covers = setValues clocs ∧
        step.deleted = elimFromOtherLocsMulti
          ((setValues clocs).map fun y => fishCover.getD y dummyHouse)
          {val} step.bases.toFinset ∧
        step.deleted ≠ [] :=
  ⟨_, rfl, (findFishInLines_sound 3 fishBase fishCover _ rfl).1⟩

/-! ## Claims C1 and C9: solver candidate bookkeeping, naked-single cascade -/

/-- Go map lookup on a `House.Unsolved` association list. -/
def hmFind (m : List (ℕ × Finset ℕ)) (v : ℕ) : Option (Finset ℕ) :=
  (m.find? (fun e => e.1 == v)).map (fun e => e.2)

/-- `House.RemoveCandidateCell`: remove `cell` from `unsolved[val]`
(when present), dropping the key if its set becomes empty. -/
def removeCandidateCell (m : List (ℕ × Finset ℕ)) (v cell : ℕ) :
    List (ℕ × Finset ℕ) :=
  match hmFind m v with
  | none => m
  | some S =>
    if (S.erase cell).card = 0 then m.filter (fun e => !(e.1 == v))
    else m.map (fun e => if e.1 = v then (v, S.erase cell) else e)

/-- `House.RemoveCandidateValue`: drop key `val` and remove `cell` from
every remaining location set. -/
def removeCandidateValue (m : List (ℕ × Finset ℕ)) (v cell : ℕ) :
    List (ℕ × Finset ℕ) :=
  (m.filter (fun e => !(e.1 == v))).map (fun e => (e.1, e.2.erase cell))

/-- The solver state: the puzzle plus the three banks of nine houses
(rows, columns, boxes), each carrying its `Unsolved` map.  House cells
are not stored: the Go houses hold pointers into the same grid, so the
cell of house `(kind, i)` at local index `l` is read off the grid
through the fixed index mapping `housePos`. -/
structure SolverSt where
  puzzle : Puzzle
  rows : ℕ → List (ℕ × Finset ℕ)
  cols : ℕ → List (ℕ × Finset ℕ)
  boxes : ℕ → List (ℕ × Finset ℕ)

/-- Result of a solver operation: fuel exhausted (an artifact of the
embedding, shown unreachable for sufficient fuel), the fatal
puzzle-state error, or a new state. -/
inductive SR where
  | out : SR
  | fatal : SR
  | ok : SolverSt → SR

def SR.bind (x : SR) (f : SolverSt → SR) : SR :=
  match x with
  | .out => .out
  | .fatal => .fatal
  | .ok s => f s

/-- Sequencing of a state-transforming loop body over a list. -/
def srFoldl {α : Type} (h : SolverSt → α → SR) (l : List α) (x : SR) : SR :=
  l.foldl (fun acc a => SR.bind acc (fun t => h t a)) x

def setFun (f : ℕ → List (ℕ × Finset ℕ)) (i : ℕ)
    (m : List (ℕ × Finset ℕ)) : ℕ → List (ℕ × Finset ℕ) :=
  fun j => if j = i then m else f j

/-- `getBoxInfo` / `BoxCoordinates`: the box index of `(r, c)`. -/
def boxIdx (r c : ℕ) : ℕ := r / 3 * 3 + c / 3

/-- `BoxCoordinates`: the local index of `(r, c)` inside its box. -/
def boxCell (r c : ℕ) : ℕ := r % 3 * 3 + c % 3

/-- The 27 grid positions visited by the elimination loop of
`eliminateCandidates` for cell `(r, c)`, in loop order: for each
`i ∈ 0..8` the row cell `(r, i)`, the column cell `(i, c)` and the box
cell `(rowBase + i/3, colBase + i%3)`. -/
def elimCells (r c : ℕ) : List (ℕ × ℕ) :=
  (List.range 9).flatMap fun i =>
    [(r, i), (i, c), (r / 3 * 3 + i / 3, c / 3 * 3 + i % 3)]

/-- The state after the removal statements of
`Solver.removeCellCandidate` (cell candidate erased, the three houses
updated through `RemoveCandidateCell`). -/
def rccState (s : SolverSt) (r c v : ℕ) : SolverSt :=
  { puzzle := s.puzzle.setCell r c
      { s.puzzle.grid r c with cands := (s.puzzle.grid r c).cands.erase v }
    rows := setFun s.rows r (removeCandidateCell (s.rows r) v c)
    cols := setFun s.cols c (removeCandidateCell (s.cols c) v r)
    boxes := setFun s.boxes (boxIdx r c)
      (removeCandidateCell (s.boxes (boxIdx r c)) v (boxCell r c)) }

/-- `Solver.removeCellCandidate`, parametric in the `PlaceValue`
callback that closes the naked-single recursion: no-op on a solved
cell or an absent candidate; otherwise remove the candidate, mirror
the removal into the three houses, and place the last remaining
candidate when exactly one is left. -/
def rccGo (pv : SolverSt → ℕ → ℕ → ℕ → SR) (s : SolverSt) (r c v : ℕ) :
    SR :=
  if (s.puzzle.grid r c).solved ∨ ¬ (s.puzzle.grid r c).hasCand v then .ok s
  else if h : ((s.puzzle.grid r c).cands.erase v).card = 1 then
    pv (rccState s r c v) r c
      (((s.puzzle.grid r c).cands.erase v).min'
        (Finset.card_pos.mp (by omega)))
  else .ok (rccState s r c v)

/-- The state after the three `RemoveCandidateValue` calls that open
`Solver.eliminateCandidates`. -/
def elimState (s : SolverSt) (r c v : ℕ) : SolverSt :=
  { puzzle := s.puzzle
    rows := setFun s.rows r (removeCandidateValue (s.rows r) v c)
    cols := setFun s.cols c (removeCandidateValue (s.cols c) v r)
    boxes := setFun s.boxes (boxIdx r c)
      (removeCandidateValue (s.boxes (boxIdx r c)) v (boxCell r c)) }

/-- `Solver.eliminateCandidates`, parametric in the
`removeCellCandidate` callback. -/
def elimGo (rcc : SolverSt → ℕ → ℕ → ℕ → SR) (s : SolverSt) (r c v : ℕ) :
    SR :=
  srFoldl (fun t pos => rcc t pos.1 pos.2 v) (elimCells r c)
    (.ok (elimState s r c v))

/-- `Solver.PlaceValue` with fuel: if the puzzle accepts the placement,
eliminate the placed value from the cell's houses (one unit of fuel per
nested placement). -/
def pvF : ℕ → SolverSt → ℕ → ℕ → ℕ → SR :=
  fun f s r c v =>
    match s.puzzle.placeValue r c v with
    | .fatal => .fatal
    | .ok (b, p') =>
      if b then
        match f with
        | 0 => .out
        | f' + 1 => elimGo (rccGo (pvF f')) { s with puzzle := p' } r c v
      else .ok s

/-- `Solver.removeCellCandidate` with fuel. -/
def rccF (f : ℕ) : SolverSt → ℕ → ℕ → ℕ → SR := rccGo (pvF f)

/-- `Solver.eliminateCandidates` with fuel. -/
def elimF (f : ℕ) : SolverSt → ℕ → ℕ → ℕ → SR := elimGo (rccGo (pvF f))

/-- `NewHouse`: `unsolved[v] = {0..8}` for every `v ∈ 1..9`. -/
def initialHouse : List (ℕ × Finset ℕ) :=
  (List.range 9).map fun i => (i + 1, ({0, 1, 2, 3, 4, 5, 6, 7, 8} : Finset ℕ))

/-- The 81 grid positions in row-major order. -/
def gridCellList : List (ℕ × ℕ) :=
  (List.range 9).flatMap fun r => (List.range 9).map fun c => (r, c)

/-- `Solver.initializeCandidates`: eliminate the value of every given
cell. -/
def initGo (el : SolverSt → ℕ → ℕ → ℕ → SR) (s : SolverSt) : SR :=
  srFoldl (fun t pos =>
    if (t.puzzle.grid pos.1 pos.2).given then
      el t pos.1 pos.2 (t.puzzle.grid pos.1 pos.2).value
    else .ok t) gridCellList (.ok s)

/-- The solver state assembled by `NewSolver` before
`initializeCandidates` runs: the puzzle plus fresh houses in all three
banks. -/
def initSolver (p : Puzzle) : SolverSt :=
  { puzzle := p, rows := fun _ => initialHouse
    cols := fun _ => initialHouse, boxes := fun _ => initialHouse }

/-- `NewSolver`: fresh houses for all three banks, then
`initializeCandidates`. -/
def newSolverF (f : ℕ) (p : Puzzle) : SR :=
  initGo (elimF f) (initSolver p)

/-- `Solver.applyStepCandidates`: apply a step's deleted candidates
`(r, c, v)` through `removeCellCandidate`. -/
def applyStepF (f : ℕ) (s : SolverSt) (ds : List (ℕ × ℕ × ℕ)) : SR :=
  srFoldl (fun t d => rccF f t d.1 d.2.1 d.2.2) ds (.ok s)

/-- The grid position of local cell `l` of house `i` of kind `k`
(0 = row, 1 = column, 2 = box), as fixed by `NewSolver`'s cell
collection loop. -/
def housePos (k i l : ℕ) : ℕ × ℕ :=
  if k = 0 then (i, l)
  else if k = 1 then (l, i)
  else (i / 3 * 3 + l / 3, i % 3 * 3 + l % 3)

/-- The `Unsolved` map of house `i` of kind `k`. -/
def houseOf (s : SolverSt) (k i : ℕ) : List (ℕ × Finset ℕ) :=
  if k = 0 then s.rows i else if k = 1 then s.cols i else s.boxes i

/-- The cell of house `(k, i)` at local index `l`. -/
def cellOf (s : SolverSt) (k i l : ℕ) : Cell :=
  s.puzzle.grid (housePos k i l).1 (housePos k i l).2

/-- The set of local indices of house `(k, i)` whose cell holds `v` as
a candidate — the right-hand side of C1's first mirror equation. -/
def candLocs (s : SolverSt) (k i v : ℕ) : Finset ℕ :=
  (Finset.range 9).filter (fun l => v ∈ (cellOf s k i l).cands)

/-- Local indices of house `(k, i)` lying in the pending set `P`
(proof support for the generalized invariant). -/
def pendLocs (P : Finset (ℕ × ℕ)) (k i : ℕ) : Finset ℕ :=
  (Finset.range 9).filter (fun l => housePos k i l ∈ P)

/-- Generalized mirror invariant (proof support): `P` is a set of
cells whose candidate sets are cleared but whose house entries may
still carry their stale locations; `E` marks `(house, value)` pairs
whose value-coverage direction is temporarily suspended.  With
`P = ∅` and `E` empty this is exactly C1's equivalence. -/
def GInvP (s : SolverSt) (P : Finset (ℕ × ℕ)) (E : ℕ → ℕ → ℕ → Prop) :
    Prop :=
  (∀ rc ∈ P, (s.puzzle.grid rc.1 rc.2).cands = ∅) ∧
  (∀ k, k < 3 → ∀ i, i < 9 →
    (∀ e ∈ houseOf s k i, e.2 \ pendLocs P k i = candLocs s k i e.1) ∧
    (∀ l, l < 9 → (cellOf s k i l).value = 0 → housePos k i l ∉ P →
      ∀ v, ¬ E k i v →
        (v ∈ (cellOf s k i l).cands ↔
          ∃ S, hmFind (houseOf s k i) v = some S ∧ l ∈ S)) ∧
    (∀ v, E k i v → hmFind (houseOf s k i) v = none))

def NoE : ℕ → ℕ → ℕ → Prop := fun _ _ _ => False

/-- C1's mirror equivalence between the per-cell candidate sets and
the per-house value-to-locations maps: every entry of every house map
equals the candidate locations of its value, and every unsolved cell's
candidate set equals the set of values whose house entry lists it. -/
def Inv (s : SolverSt) : Prop := GInvP s ∅ NoE

/-- How any solver operation may change the state: cell candidate sets
only shrink, solved cells are untouched, given flags are untouched,
and house entries only shrink (keys may disappear, location sets may
lose elements). -/
def Evolves (s t : SolverSt) : Prop :=
  (∀ x y, (t.puzzle.grid x y).cands ⊆ (s.puzzle.grid x y).cands) ∧
  (∀ x y, (s.puzzle.grid x y).value ≠ 0 →
    t.puzzle.grid x y = s.puzzle.grid x y) ∧
  (∀ x y, (t.puzzle.grid x y).given = (s.puzzle.grid x y).given) ∧
  (∀ k i, ∀ e' ∈ houseOf t k i,
    ∃ e ∈ houseOf s k i, e.1 = e'.1 ∧ e'.2 ⊆ e.2)

theorem Evolves.refl (s : SolverSt) : Evolves s s :=
  ⟨fun _ _ => subset_rfl, fun _ _ _ => rfl, fun _ _ => rfl,
    fun _ _ e' he' => ⟨e', he', rfl, subset_rfl⟩⟩

theorem Evolves.trans {s t u : SolverSt} (h1 : Evolves s t)
    (h2 : Evolves t u) : Evolves s u := by
  obtain ⟨a1, b1, c1, d1⟩ := h1
  obtain ⟨a2, b2, c2, d2⟩ := h2
  refine ⟨fun x y => (a2 x y).trans (a1 x y), fun x y hxy => ?_,
    fun x y => (c2 x y).trans (c1 x y), fun k i e' he' => ?_⟩
  · rw [b2 x y, b1 x y hxy]
    rw [b1 x y hxy]
    exact hxy
  · obtain ⟨e1, he1, hk1, hs1⟩ := d2 k i e' he'
    obtain ⟨e0, he0, hk0, hs0⟩ := d1 k i e1 he1
    exact ⟨e0, he0, hk0.trans hk1, hs1.trans hs0⟩

/-- Whether house `(k, i)` contains grid cell `(r, c)` (kinds other
than 0 and 1 address the box bank, mirroring `houseOf`). -/
def houseSel (k i r c : ℕ) : Prop :=
  if k = 0 then i = r else if k = 1 then i = c else i = boxIdx r c

instance (k i r c : ℕ) : Decidable (houseSel k i r c) := by
  unfold houseSel
  infer_instance

/-- The local index of grid cell `(r, c)` within the house of kind
`k` containing it. -/
def locIdx (k r c : ℕ) : ℕ :=
  if k = 0 then c else if k = 1 then r else boxCell r c

theorem housePos_lt (k i l : ℕ) (hk : k < 3) (hi : i < 9) (hl : l < 9) :
    (housePos k i l).1 < 9 ∧ (housePos k i l).2 < 9 := by
  unfold housePos
  interval_cases k <;> simp <;> omega

theorem housePos_eq_rc (k i l r c : ℕ) (hk : k < 3) (hi : i < 9)
    (hl : l < 9) (hr : r < 9) (hc : c < 9) :
    housePos k i l = (r, c) ↔ (houseSel k i r c ∧ l = locIdx k r c) := by
  unfold housePos houseSel locIdx boxIdx boxCell
  interval_cases k <;> simp [Prod.ext_iff] <;> omega

theorem locIdx_lt (k r c : ℕ) (hk : k < 3) (hr : r < 9) (hc : c < 9) :
    locIdx k r c < 9 := by
  unfold locIdx boxCell
  interval_cases k <;> simp <;> omega

theorem boxIdx_lt (r c : ℕ) (hr : r < 9) (hc : c < 9) : boxIdx r c < 9 := by
  unfold boxIdx
  omega

theorem housePos_locIdx (k i r c : ℕ) (hk : k < 3) (hi : i < 9)
    (hr : r < 9) (hc : c < 9) (hsel : houseSel k i r c) :
    housePos k i (locIdx k r c) = (r, c) :=
  (housePos_eq_rc k i (locIdx k r c) r c hk hi
    (locIdx_lt k r c hk hr hc) hr hc).2 ⟨hsel, rfl⟩

/-! ### Effect of the house-map operations on entries and lookups -/

theorem mem_removeCandidateValue (m : List (ℕ × Finset ℕ)) (v cell : ℕ)
    (e' : ℕ × Finset ℕ) :
    e' ∈ removeCandidateValue m v cell ↔
      ∃ e ∈ m, ¬ e.1 = v ∧ e' = (e.1, e.2.erase cell) := by
  unfold removeCandidateValue
  simp only [List.mem_map, List.mem_filter, Bool.not_eq_eq_eq_not,
    Bool.not_true, beq_eq_false_iff_ne, ne_eq]
  constructor
  · rintro ⟨e, ⟨he, hne⟩, rfl⟩
    exact ⟨e, he, hne, rfl⟩
  · rintro ⟨e, he, hne, rfl⟩
    exact ⟨e, ⟨he, hne⟩, rfl⟩

theorem hmFind_removeCandidateValue (m : List (ℕ × Finset ℕ))
    (v cell w : ℕ) :
    hmFind (removeCandidateValue m v cell) w =
      if w = v then none
      else (hmFind m w).map (fun S => S.erase cell) := by
  induction m with
  | nil =>
    unfold removeCandidateValue hmFind
    simp only [List.filter_nil, List.map_nil, List.find?_nil,
      Option.map_none]
    split <;> rfl
  | cons e m ih =>
    unfold removeCandidateValue hmFind at *
    by_cases hev : e.1 = v
    · have : (!(e.1 == v)) = false := by simp [hev]
      simp only [List.filter_cons, this, Bool.false_eq_true, if_false]
      rw [ih]
      by_cases hwv : w = v
      · simp [hwv]
      · rw [if_neg hwv, if_neg hwv]
        have : (e.1 == w) = false := by
          simp only [beq_eq_false_iff_ne, ne_eq]
          omega
        simp [List.find?_cons, this]
    · have : (!(e.1 == v)) = true := by simp [hev]
      simp only [List.filter_cons, this, if_true, List.map_cons]
      by_cases hew : e.1 = w
      · have hb : ((fun e : ℕ × Finset ℕ => e.1 == w) (e.1, e.2.erase cell))
            = true := by simp [hew]
        have hb2 : ((fun e : ℕ × Finset ℕ => e.1 == w) e) = true := by
          simp [hew]
        rw [@List.find?_cons_of_pos _ (fun e : ℕ × Finset ℕ => e.1 == w) _ _ hb,
          @List.find?_cons_of_pos _ (fun e : ℕ × Finset ℕ => e.1 == w) _ _ hb2]
        have hwv : ¬ w = v := by omega
        simp [hwv]
      · have hb : ¬ ((fun e : ℕ × Finset ℕ => e.1 == w) (e.1, e.2.erase cell))
            = true := by simp [hew]
        have hb2 : ¬ ((fun e : ℕ × Finset ℕ => e.1 == w) e) = true := by
          simp [hew]
        rw [@List.find?_cons_of_neg _ (fun e : ℕ × Finset ℕ => e.1 == w) _ _ hb,
          @List.find?_cons_of_neg _ (fun e : ℕ × Finset ℕ => e.1 == w) _ _ hb2]
        exact ih

theorem hmFind_filterKey (m : List (ℕ × Finset ℕ)) (v w : ℕ) :
    hmFind (m.filter (fun e => !(e.1 == v))) w =
      if w = v then none else hmFind m w := by
  induction m with
  | nil =>
    unfold hmFind
    simp only [List.filter_nil, List.find?_nil, Option.map_none]
    split <;> rfl
  | cons e m ih =>
    unfold hmFind at *
    by_cases hev : e.1 = v
    · have hf : (!(e.1 == v)) = false := by simp [hev]
      simp only [List.filter_cons, hf, Bool.false_eq_true, if_false]
      rw [ih]
      by_cases hwv : w = v
      · simp [hwv]
      · rw [if_neg hwv, if_neg hwv]
        have hb : ¬ ((fun e : ℕ × Finset ℕ => e.1 == w) e) = true := by
          simp
          omega
        rw [@List.find?_cons_of_neg _ (fun e : ℕ × Finset ℕ => e.1 == w)
          _ _ hb]
    · have hf : (!(e.1 == v)) = true := by simp [hev]
      simp only [List.filter_cons, hf, if_true]
      by_cases hew : e.1 = w
      · have hb : ((fun e : ℕ × Finset ℕ => e.1 == w) e) = true := by
          simp [hew]
        rw [@List.find?_cons_of_pos _ (fun e : ℕ × Finset ℕ => e.1 == w)
          _ _ hb,
          @List.find?_cons_of_pos _ (fun e : ℕ × Finset ℕ => e.1 == w)
          _ _ hb]
        have hwv : ¬ w = v := by omega
        rw [if_neg hwv]
      · have hb : ¬ ((fun e : ℕ × Finset ℕ => e.1 == w) e) = true := by
          simp [hew]
        rw [@List.find?_cons_of_neg _ (fun e : ℕ × Finset ℕ => e.1 == w)
          _ _ hb,
          @List.find?_cons_of_neg _ (fun e : ℕ × Finset ℕ => e.1 == w)
          _ _ hb]
        exact ih

theorem hmFind_mapKey (m : List (ℕ × Finset ℕ)) (v : ℕ) (S0 : Finset ℕ)
    (w : ℕ) :
    hmFind (m.map (fun e => if e.1 = v then (v, S0) else e)) w =
      if w = v then (if (hmFind m v).isSome then some S0 else none)
      else hmFind m w := by
  induction m with
  | nil =>
    unfold hmFind
    simp only [List.map_nil, List.find?_nil, Option.map_none,
      Option.isSome_none]
    split <;> simp
  | cons e m ih =>
    unfold hmFind at *
    by_cases hev : e.1 = v
    · simp only [List.map_cons, if_pos hev]
      by_cases hwv : w = v
      · subst hwv
        have hb : ((fun e : ℕ × Finset ℕ => e.1 == w) (w, S0)) = true := by
          simp
        have hb2 : ((fun e : ℕ × Finset ℕ => e.1 == w) e) = true := by
          simp [hev]
        rw [@List.find?_cons_of_pos _ (fun e : ℕ × Finset ℕ => e.1 == w)
          _ _ hb,
          @List.find?_cons_of_pos _ (fun e : ℕ × Finset ℕ => e.1 == w)
          _ _ hb2]
        simp
      · have hb : ¬ ((fun e : ℕ × Finset ℕ => e.1 == w) (v, S0)) = true := by
          simp
          omega
        have hb2 : ¬ ((fun e : ℕ × Finset ℕ => e.1 == w) e) = true := by
          simp [hev]
          omega
        rw [@List.find?_cons_of_neg _ (fun e : ℕ × Finset ℕ => e.1 == w)
          _ _ hb]
        rw [ih, if_neg hwv, if_neg hwv]
        rw [@List.find?_cons_of_neg _ (fun e : ℕ × Finset ℕ => e.1 == w)
          _ _ hb2]
    · simp only [List.map_cons, if_neg hev]
      by_cases hew : e.1 = w
      · have hb : ((fun e : ℕ × Finset ℕ => e.1 == w) e) = true := by
          simp [hew]
        rw [@List.find?_cons_of_pos _ (fun e : ℕ × Finset ℕ => e.1 == w)
          _ _ hb,
          @List.find?_cons_of_pos _ (fun e : ℕ × Finset ℕ => e.1 == w)
          _ _ hb]
        have hwv : ¬ w = v := by omega
        rw [if_neg hwv]
      · have hb : ¬ ((fun e : ℕ × Finset ℕ => e.1 == w) e) = true := by
          simp [hew]
        rw [@List.find?_cons_of_neg _ (fun e : ℕ × Finset ℕ => e.1 == w)
          _ _ hb,
          @List.find?_cons_of_neg _ (fun e : ℕ × Finset ℕ => e.1 == w)
          _ _ hb]
        rw [ih]
        by_cases hwv : w = v
        · subst hwv
          have hb2 : ¬ ((fun e : ℕ × Finset ℕ => e.1 == w) e) = true := by
            simp [hev]
          rw [if_pos rfl, if_pos rfl,
            @List.find?_cons_of_neg _ (fun e : ℕ × Finset ℕ => e.1 == w)
            _ _ hb2]
        · rw [if_neg hwv, if_neg hwv]

theorem hmFind_mem (m : List (ℕ × Finset ℕ)) (v : ℕ) (S : Finset ℕ)
    (h : hmFind m v = some S) : (v, S) ∈ m := by
  unfold hmFind at h
  cases hf : m.find? (fun e => e.1 == v) with
  | none => rw [hf] at h; exact absurd h (by simp)
  | some e =>
    rw [hf] at h
    have he := List.mem_of_find?_eq_some hf
    have hp := List.find?_some hf
    simp only [beq_iff_eq] at hp
    have : e.2 = S := by simpa using h
    rw [← hp, ← this]
    exact he

theorem removeCandidateCell_of_none (m : List (ℕ × Finset ℕ)) (v cell : ℕ)
    (h : hmFind m v = none) : removeCandidateCell m v cell = m := by
  unfold removeCandidateCell
  rw [h]

theorem hmFind_removeCandidateCell (m : List (ℕ × Finset ℕ)) (v cell : ℕ)
    (S : Finset ℕ) (h : hmFind m v = some S) (w : ℕ) :
    hmFind (removeCandidateCell m v cell) w =
      if (S.erase cell).card = 0 then
        (if w = v then none else hmFind m w)
      else
        (if w = v then some (S.erase cell) else hmFind m w) := by
  unfold removeCandidateCell
  rw [h]
  show hmFind (if (S.erase cell).card = 0 then
      m.filter (fun e => !(e.1 == v))
    else m.map (fun e => if e.1 = v then (v, S.erase cell) else e)) w = _
  by_cases hz : (S.erase cell).card = 0
  · rw [if_pos hz, if_pos hz, hmFind_filterKey]
  · rw [if_neg hz, if_neg hz, hmFind_mapKey]
    by_cases hwv : w = v
    · rw [if_pos hwv, if_pos hwv, h]
      simp
    · rw [if_neg hwv, if_neg hwv]

theorem mem_removeCandidateCell (m : List (ℕ × Finset ℕ)) (v cell : ℕ)
    (e' : ℕ × Finset ℕ) (h : e' ∈ removeCandidateCell m v cell) :
    (e' ∈ m ∧ (hmFind m v = none ∨ ¬ e'.1 = v)) ∨
    (∃ S, hmFind m v = some S ∧ e' = (v, S.erase cell)) := by
  unfold removeCandidateCell at h
  cases hf : hmFind m v with
  | none =>
    rw [hf] at h
    exact Or.inl ⟨h, Or.inl rfl⟩
  | some S =>
    rw [hf] at h
    have h' : e' ∈ (if (S.erase cell).card = 0 then
        m.filter (fun e => !(e.1 == v))
      else m.map (fun e => if e.1 = v then (v, S.erase cell) else e)) := h
    clear h
    rename' h' => h
    by_cases hz : (S.erase cell).card = 0
    · rw [if_pos hz] at h
      rw [List.mem_filter] at h
      refine Or.inl ⟨h.1, Or.inr ?_⟩
      have := h.2
      simpa using this
    · rw [if_neg hz] at h
      rw [List.mem_map] at h
      obtain ⟨e, he, heq⟩ := h
      by_cases hev : e.1 = v
      · rw [if_pos hev] at heq
        exact Or.inr ⟨S, rfl, heq.symm⟩
      · rw [if_neg hev] at heq
        rw [← heq]
        exact Or.inl ⟨he, Or.inr hev⟩

/-! ### Effect of the solver state transformers -/

theorem grid_rccState (s : SolverSt) (r c v x y : ℕ) :
    (rccState s r c v).puzzle.grid x y =
      if x = r ∧ y = c then
        { s.puzzle.grid r c with cands := (s.puzzle.grid r c).cands.erase v }
      else s.puzzle.grid x y := rfl

theorem houseOf_rccState (s : SolverSt) (r c v k i : ℕ) :
    houseOf (rccState s r c v) k i =
      if houseSel k i r c then
        removeCandidateCell (houseOf s k i) v (locIdx k r c)
      else houseOf s k i := by
  unfold houseOf rccState setFun houseSel locIdx
  by_cases h0 : k = 0
  · subst h0
    simp only [if_pos rfl]
    by_cases hi : i = r
    · subst hi
      simp
    · simp [hi]
  · by_cases h1 : k = 1
    · subst h1
      have hne : (1 : ℕ) ≠ 0 := by omega
      simp only [if_neg hne, if_pos rfl]
      by_cases hi : i = c
      · subst hi
        simp
      · simp [hi]
    · simp only [if_neg h0, if_neg h1]
      by_cases hi : i = boxIdx r c
      · subst hi
        simp
      · simp [hi]

theorem houseOf_elimState (s : SolverSt) (r c v k i : ℕ) :
    houseOf (elimState s r c v) k i =
      if houseSel k i r c then
        removeCandidateValue (houseOf s k i) v (locIdx k r c)
      else houseOf s k i := by
  unfold houseOf elimState setFun houseSel locIdx
  by_cases h0 : k = 0
  · subst h0
    simp only [if_pos rfl]
    by_cases hi : i = r
    · subst hi
      simp
    · simp [hi]
  · by_cases h1 : k = 1
    · subst h1
      have hne : (1 : ℕ) ≠ 0 := by omega
      simp only [if_neg hne, if_pos rfl]
      by_cases hi : i = c
      · subst hi
        simp
      · simp [hi]
    · simp only [if_neg h0, if_neg h1]
      by_cases hi : i = boxIdx r c
      · subst hi
        simp
      · simp [hi]

theorem candLocs_congr (s t : SolverSt) (k i w : ℕ)
    (h : ∀ x y, t.puzzle.grid x y = s.puzzle.grid x y) :
    candLocs t k i w = candLocs s k i w := by
  unfold candLocs cellOf
  ext l
  simp only [h]

/-- Generic lemma: if `t` differs from `s` only at grid cell `(r, c)`,
whose candidate set additionally loses membership of such values, then
`candLocs` changes by erasing the cell's local index. -/
theorem candLocs_point (s t : SolverSt) (r c : ℕ) (k i w : ℕ)
    (hk : k < 3) (hi : i < 9) (hr : r < 9) (hc : c < 9)
    (hsame : ∀ x y, ¬ (x = r ∧ y = c) →
      t.puzzle.grid x y = s.puzzle.grid x y)
    (hout : w ∉ (t.puzzle.grid r c).cands) :
    candLocs t k i w =
      if houseSel k i r c then (candLocs s k i w).erase (locIdx k r c)
      else candLocs s k i w := by
  ext l
  by_cases hl : l < 9
  · have hpos := housePos_eq_rc k i l r c hk hi hl hr hc
    by_cases hhit : housePos k i l = (r, c)
    · obtain ⟨hsel, hloc⟩ := hpos.1 hhit
      rw [if_pos hsel]
      subst hloc
      simp only [candLocs, Finset.mem_filter, Finset.mem_range,
        Finset.mem_erase, cellOf, hhit]
      constructor
      · rintro ⟨-, habs⟩
        exact absurd habs hout
      · rintro ⟨hne, -⟩
        exact absurd rfl hne
    · have hsame' : (cellOf t k i l).cands = (cellOf s k i l).cands := by
        unfold cellOf
        rw [hsame]
        intro hand
        exact hhit (Prod.ext hand.1 hand.2)
      by_cases hsel : houseSel k i r c
      · rw [if_pos hsel]
        have hne : l ≠ locIdx k r c := by
          intro heq
          exact hhit (hpos.2 ⟨hsel, heq⟩)
        simp only [candLocs, Finset.mem_filter, Finset.mem_range,
          Finset.mem_erase, hsame']
        constructor
        · rintro ⟨h1, h2⟩
          exact ⟨hne, h1, h2⟩
        · rintro ⟨-, h1, h2⟩
          exact ⟨h1, h2⟩
      · rw [if_neg hsel]
        simp only [candLocs, Finset.mem_filter, Finset.mem_range, hsame']
  · have h1 : l ∉ candLocs t k i w := by
      simp [candLocs, Finset.mem_filter]
      omega
    have h2 : l ∉ candLocs s k i w := by
      simp [candLocs, Finset.mem_filter]
      omega
    simp only [h1, false_iff]
    split
    · simp only [Finset.mem_erase]
      rintro ⟨-, habs⟩
      exact h2 habs
    · intro habs
      exact h2 habs

theorem pendLocs_insert (P : Finset (ℕ × ℕ)) (r c k i : ℕ)
    (hk : k < 3) (hi : i < 9) (hr : r < 9) (hc : c < 9) :
    pendLocs (insert (r, c) P) k i =
      if houseSel k i r c then insert (locIdx k r c) (pendLocs P k i)
      else pendLocs P k i := by
  ext l
  by_cases hl : l < 9
  · have hpos := housePos_eq_rc k i l r c hk hi hl hr hc
    simp only [pendLocs, Finset.mem_filter, Finset.mem_range,
      Finset.mem_insert]
    by_cases hsel : houseSel k i r c
    · rw [if_pos hsel]
      simp only [Finset.mem_insert, Finset.mem_filter, Finset.mem_range]
      constructor
      · rintro ⟨h9, hor | hP⟩
        · exact Or.inl (hpos.1 hor).2
        · exact Or.inr ⟨h9, hP⟩
      · rintro (heq | ⟨h9, hP⟩)
        · exact ⟨hl, Or.inl (hpos.2 ⟨hsel, heq⟩)⟩
        · exact ⟨h9, Or.inr hP⟩
    · rw [if_neg hsel]
      simp only [Finset.mem_filter, Finset.mem_range]
      constructor
      · rintro ⟨h9, hor | hP⟩
        · exact absurd (hpos.1 hor).1 hsel
        · exact ⟨h9, hP⟩
      · rintro ⟨h9, hP⟩
        exact ⟨h9, Or.inr hP⟩
  · have h0 : ∀ Q : Finset (ℕ × ℕ), l ∉ pendLocs Q k i := by
      intro Q
      simp [pendLocs, Finset.mem_filter]
      omega
    simp only [h0 (insert (r, c) P), false_iff]
    split
    · simp only [Finset.mem_insert]
      rintro (heq | habs)
      · subst heq
        exact hl (locIdx_lt k r c hk hr hc)
      · exact h0 P habs
    · intro habs
      exact h0 P habs

theorem placeValue_ok_true (p : Puzzle) (r c v : ℕ) (p' : Puzzle)
    (h : p.placeValue r c v = .ok (true, p')) :
    ¬ (p.grid r c).solved ∧ p' = placedState p r c v := by
  unfold Puzzle.placeValue at h
  by_cases hs : (p.grid r c).solved
  · rw [if_pos hs] at h
    by_cases hv : (p.grid r c).value ≠ v
    · rw [if_pos hv] at h
      exact absurd h (by simp)
    · rw [if_neg hv] at h
      injection h with h'
      injection h' with hb
      exact absurd hb.symm (by simp)
  · rw [if_neg hs] at h
    unfold Puzzle.updateUnsolvedCounts at h
    by_cases hg : (if v = 0 then
        (p.setCell r c ((p.grid r c).place v)).counts 0 - 1
        else (p.setCell r c ((p.grid r c).place v)).counts v) - 1 < 0
    · rw [if_pos hg] at h
      exact absurd h (by simp [PM.bind])
    · rw [if_neg hg] at h
      simp only [PM.bind] at h
      injection h with h'
      injection h' with hb hp
      exact ⟨hs, hp.symm⟩

theorem placeValue_ok_false (p : Puzzle) (r c v : ℕ) (p' : Puzzle)
    (h : p.placeValue r c v = .ok (false, p')) :
    (p.grid r c).solved ∧ (p.grid r c).value = v ∧ p' = p := by
  unfold Puzzle.placeValue at h
  by_cases hs : (p.grid r c).solved
  · rw [if_pos hs] at h
    by_cases hv : (p.grid r c).value ≠ v
    · rw [if_pos hv] at h
      exact absurd h (by simp)
    · rw [if_neg hv] at h
      injection h with h'
      injection h' with hb hp
      exact ⟨hs, by omega, hp.symm⟩
  · rw [if_neg hs] at h
    unfold Puzzle.updateUnsolvedCounts at h
    by_cases hg : (if v = 0 then
        (p.setCell r c ((p.grid r c).place v)).counts 0 - 1
        else (p.setCell r c ((p.grid r c).place v)).counts v) - 1 < 0
    · rw [if_pos hg] at h
      exact absurd h (by simp [PM.bind])
    · rw [if_neg hg] at h
      simp only [PM.bind] at h
      injection h with h'
      injection h' with hb
      exact absurd hb.symm (by simp)

theorem grid_placedState (p : Puzzle) (r c v x y : ℕ) :
    (placedState p r c v).grid x y =
      if x = r ∧ y = c then
        { value := v, given := (p.grid r c).given, cands := ∅ }
      else p.grid x y := rfl

theorem evolves_rccState (s : SolverSt) (r c v : ℕ)
    (hu : ¬ (s.puzzle.grid r c).solved) : Evolves s (rccState s r c v) := by
  refine ⟨?_, ?_, ?_, ?_⟩
  · intro x y
    rw [grid_rccState]
    split
    · rename_i hxy
      obtain ⟨rfl, rfl⟩ := hxy
      exact Finset.erase_subset v _
    · exact subset_rfl
  · intro x y hxy
    rw [grid_rccState]
    split
    · rename_i h
      obtain ⟨rfl, rfl⟩ := h
      exact absurd hxy hu
    · rfl
  · intro x y
    rw [grid_rccState]
    split
    · rename_i h
      obtain ⟨rfl, rfl⟩ := h
      rfl
    · rfl
  · intro k i e' he'
    rw [houseOf_rccState s r c v k i] at he'
    by_cases hsel : houseSel k i r c
    · rw [if_pos hsel] at he'
      rcases mem_removeCandidateCell _ _ _ _ he' with ⟨hm, -⟩ | ⟨S, hS, rfl⟩
      · exact ⟨e', hm, rfl, subset_rfl⟩
      · exact ⟨(v, S), hmFind_mem _ _ _ hS, rfl, Finset.erase_subset _ _⟩
    · rw [if_neg hsel] at he'
      exact ⟨e', he', rfl, subset_rfl⟩

theorem evolves_elimState (s : SolverSt) (r c v : ℕ) :
    Evolves s (elimState s r c v) := by
  refine ⟨fun x y => subset_rfl, fun x y _ => rfl, fun x y => rfl, ?_⟩
  intro k i e' he'
  rw [houseOf_elimState s r c v k i] at he'
  by_cases hsel : houseSel k i r c
  · rw [if_pos hsel] at he'
    obtain ⟨e, he, -, rfl⟩ := (mem_removeCandidateValue _ _ _ _).1 he'
    exact ⟨e, he, rfl, Finset.erase_subset _ _⟩
  · rw [if_neg hsel] at he'
    exact ⟨e', he', rfl, subset_rfl⟩

theorem evolves_place (s : SolverSt) (r c v : ℕ)
    (hu : ¬ (s.puzzle.grid r c).solved) :
    Evolves s { s with puzzle := placedState s.puzzle r c v } := by
  refine ⟨?_, ?_, ?_, fun k i e' he' => ⟨e', he', rfl, subset_rfl⟩⟩
  · intro x y
    show ((placedState s.puzzle r c v).grid x y).cands ⊆
      (s.puzzle.grid x y).cands
    rw [grid_placedState]
    split
    · exact Finset.empty_subset _
    · exact subset_rfl
  · intro x y hxy
    show (placedState s.puzzle r c v).grid x y = s.puzzle.grid x y
    rw [grid_placedState]
    split
    · rename_i h
      obtain ⟨rfl, rfl⟩ := h
      exact absurd hxy hu
    · rfl
  · intro x y
    show ((placedState s.puzzle r c v).grid x y).given =
      (s.puzzle.grid x y).given
    rw [grid_placedState]
    split
    · rename_i h
      obtain ⟨rfl, rfl⟩ := h
      rfl
    · rfl

/-! ### Fold helpers -/

theorem srFoldl_stuck {α : Type} (h : SolverSt → α → SR) (l : List α)
    (x : SR) (hx : x = .out ∨ x = .fatal) : srFoldl h l x = x := by
  induction l generalizing x with
  | nil => rfl
  | cons a l ih =>
    rcases hx with rfl | rfl
    · exact ih _ (Or.inl rfl)
    · exact ih _ (Or.inr rfl)

theorem srFoldl_cons {α : Type} (h : SolverSt → α → SR) (a : α) (l : List α)
    (s : SolverSt) :
    srFoldl h (a :: l) (.ok s) = srFoldl h l (h s a) := rfl

/-- Run a fold to an `ok` result: evolve-invariant consequences. -/
theorem srFoldl_facts {α : Type} (h : SolverSt → α → SR)
    (I : SolverSt → Prop) (Q : SolverSt → α → Prop) :
    ∀ (l : List α) (s t : SolverSt),
      (∀ u a t', a ∈ l → I u → h u a = .ok t' →
        I t' ∧ Evolves u t' ∧ Q t' a) →
      (∀ u u' a, Evolves u u' → Q u a → Q u' a) →
      I s →
      srFoldl h l (.ok s) = .ok t →
      I t ∧ Evolves s t ∧ ∀ a ∈ l, Q t a := by
  intro l
  induction l with
  | nil =>
    intro s t _ _ hI hrun
    have : s = t := by
      have : SR.ok s = SR.ok t := hrun
      injection this
    subst this
    exact ⟨hI, Evolves.refl s, by simp⟩
  | cons a l ih =>
    intro s t hstep hmono hI hrun
    rw [srFoldl_cons] at hrun
    cases ha : h s a with
    | out =>
      rw [ha] at hrun
      rw [srFoldl_stuck _ _ _ (Or.inl rfl)] at hrun
      exact absurd hrun (by simp)
    | fatal =>
      rw [ha] at hrun
      rw [srFoldl_stuck _ _ _ (Or.inr rfl)] at hrun
      exact absurd hrun (by simp)
    | ok s' =>
      rw [ha] at hrun
      obtain ⟨hI', hev', hQ'⟩ :=
        hstep s a s' (List.mem_cons_self a l) hI ha
      obtain ⟨hIt, hevt, hQt⟩ := ih s' t
        (fun u b t' hb hu hb' => hstep u b t' (List.mem_cons_of_mem a hb) hu hb')
        hmono hI' hrun
      refine ⟨hIt, hev'.trans hevt, ?_⟩
      intro b hb
      rcases List.mem_cons.1 hb with rfl | hb'
      · exact hmono s' t b hevt hQ'
      · exact hQt b hb'

/-- A cell no longer offers `v`: it is solved or `v` is not among its
candidates.  Stable under `Evolves`. -/
def NoCand (t : SolverSt) (x y v : ℕ) : Prop :=
  (t.puzzle.grid x y).value ≠ 0 ∨ v ∉ (t.puzzle.grid x y).cands

theorem noCand_mono {t u : SolverSt} {x y v : ℕ} (hev : Evolves t u)
    (h : NoCand t x y v) : NoCand u x y v := by
  rcases h with h | h
  · left
    rw [hev.2.1 x y h]
    exact h
  · right
    intro habs
    exact h (hev.1 x y habs)

/-- Fuel induction A: every solver operation only evolves the state
(candidates and house entries shrink, solved and given cells are
untouched); `removeCellCandidate` additionally leaves its target cell
without the candidate, and `eliminateCandidates` does so for all 27
cells of its three houses. -/
theorem evolvesA (f : ℕ) :
    (∀ s r c v t, pvF f s r c v = .ok t → Evolves s t) ∧
    (∀ s r c v t, rccF f s r c v = .ok t →
      Evolves s t ∧ NoCand t r c v) ∧
    (∀ s r c v t, elimF f s r c v = .ok t →
      Evolves s t ∧ ∀ pos ∈ elimCells r c, NoCand t pos.1 pos.2 v) := by
  induction f with
  | zero =>
    have hpv : ∀ s r c v t, pvF 0 s r c v = .ok t → Evolves s t := by
      intro s r c v t h
      unfold pvF at h
      cases hp : s.puzzle.placeValue r c v with
      | fatal =>
        rw [hp] at h
        exact absurd h (by simp)
      | ok bp =>
        obtain ⟨b, p'⟩ := bp
        rw [hp] at h
        cases b with
        | true => exact absurd h (by simp)
        | false =>
          have : s = t := by
            have h' : SR.ok s = SR.ok t := h
            injection h'
          subst this
          exact Evolves.refl s
    have hrcc : ∀ s r c v t, rccF 0 s r c v = .ok t →
        Evolves s t ∧ NoCand t r c v := by
      intro s r c v t h
      unfold rccF rccGo at h
      by_cases h1 : (s.puzzle.grid r c).solved ∨
          ¬ (s.puzzle.grid r c).hasCand v
      · rw [if_pos h1] at h
        have : s = t := by
          have h' : SR.ok s = SR.ok t := h
          injection h'
        subst this
        exact ⟨Evolves.refl s, h1.imp (fun a => a) (fun a => a)⟩
      · rw [if_neg h1] at h
        push_neg at h1
        by_cases h2 : ((s.puzzle.grid r c).cands.erase v).card = 1
        · rw [dif_pos h2] at h
          have hev1 := evolves_rccState s r c v h1.1
          have hev2 := hpv _ _ _ _ _ h
          refine ⟨hev1.trans hev2, Or.inr ?_⟩
          intro habs
          have := hev2.1 r c habs
          rw [grid_rccState] at this
          simp only [if_pos (And.intro rfl rfl)] at this
          exact Finset.not_mem_erase v _ this
        · rw [dif_neg h2] at h
          have : rccState s r c v = t := by
            have h' : SR.ok (rccState s r c v) = SR.ok t := h
            injection h'
          subst this
          refine ⟨evolves_rccState s r c v h1.1, Or.inr ?_⟩
          rw [grid_rccState]
          simp only [if_pos (And.intro rfl rfl)]
          exact Finset.not_mem_erase v _
    have helim : ∀ s r c v t, elimF 0 s r c v = .ok t →
        Evolves s t ∧ ∀ pos ∈ elimCells r c, NoCand t pos.1 pos.2 v := by
      intro s r c v t h
      unfold elimF elimGo at h
      have hstep : ∀ (u : SolverSt) (a : ℕ × ℕ) (t' : SolverSt),
          a ∈ elimCells r c → True →
          rccGo (pvF 0) u a.1 a.2 v = .ok t' →
          True ∧ Evolves u t' ∧ NoCand t' a.1 a.2 v := by
        intro u a t' _ _ hrun
        have hx := hrcc u a.1 a.2 v t' (by unfold rccF; exact hrun)
        exact ⟨trivial, hx.1, hx.2⟩
      have hmono : ∀ (u u' : SolverSt) (a : ℕ × ℕ), Evolves u u' →
          NoCand u a.1 a.2 v → NoCand u' a.1 a.2 v :=
        fun u u' a hev hq => noCand_mono hev hq
      have happ := srFoldl_facts
        (fun t pos => rccGo (pvF 0) t pos.1 pos.2 v)
        (fun _ => True) (fun u pos => NoCand u pos.1 pos.2 v)
        (elimCells r c) (elimState s r c v) t
      have hfacts := happ hstep hmono trivial h
      exact ⟨(evolves_elimState s r c v).trans hfacts.2.1, hfacts.2.2⟩
    exact ⟨hpv, hrcc, helim⟩
  | succ n ih =>
    have hpv : ∀ s r c v t, pvF (n + 1) s r c v = .ok t → Evolves s t := by
      intro s r c v t h
      unfold pvF at h
      cases hp : s.puzzle.placeValue r c v with
      | fatal =>
        rw [hp] at h
        exact absurd h (by simp)
      | ok bp =>
        obtain ⟨b, p'⟩ := bp
        rw [hp] at h
        cases b with
        | false =>
          have : s = t := by
            have h' : SR.ok s = SR.ok t := h
            injection h'
          subst this
          exact Evolves.refl s
        | true =>
          obtain ⟨hu, rfl⟩ := placeValue_ok_true _ _ _ _ _ hp
          have h' : elimF n { s with puzzle := placedState s.puzzle r c v }
              r c v = .ok t := h
          have hev1 := evolves_place s r c v hu
          exact hev1.trans (ih.2.2 _ _ _ _ _ h').1
    have hrcc : ∀ s r c v t, rccF (n + 1) s r c v = .ok t →
        Evolves s t ∧ NoCand t r c v := by
      intro s r c v t h
      unfold rccF rccGo at h
      by_cases h1 : (s.puzzle.grid r c).solved ∨
          ¬ (s.puzzle.grid r c).hasCand v
      · rw [if_pos h1] at h
        have : s = t := by
          have h' : SR.ok s = SR.ok t := h
          injection h'
        subst this
        exact ⟨Evolves.refl s, h1.imp (fun a => a) (fun a => a)⟩
      · rw [if_neg h1] at h
        push_neg at h1
        by_cases h2 : ((s.puzzle.grid r c).cands.erase v).card = 1
        · rw [dif_pos h2] at h
          have hev1 := evolves_rccState s r c v h1.1
          have hev2 := hpv _ _ _ _ _ h
          refine ⟨hev1.trans hev2, Or.inr ?_⟩
          intro habs
          have := hev2.1 r c habs
          rw [grid_rccState] at this
          simp only [if_pos (And.intro rfl rfl)] at this
          exact Finset.not_mem_erase v _ this
        · rw [dif_neg h2] at h
          have : rccState s r c v = t := by
            have h' : SR.ok (rccState s r c v) = SR.ok t := h
            injection h'
          subst this
          refine ⟨evolves_rccState s r c v h1.1, Or.inr ?_⟩
          rw [grid_rccState]
          simp only [if_pos (And.intro rfl rfl)]
          exact Finset.not_mem_erase v _
    have helim : ∀ s r c v t, elimF (n + 1) s r c v = .ok t →
        Evolves s t ∧ ∀ pos ∈ elimCells r c, NoCand t pos.1 pos.2 v := by
      intro s r c v t h
      unfold elimF elimGo at h
      have hstep : ∀ (u : SolverSt) (a : ℕ × ℕ) (t' : SolverSt),
          a ∈ elimCells r c → True →
          rccGo (pvF (n + 1)) u a.1 a.2 v = .ok t' →
          True ∧ Evolves u t' ∧ NoCand t' a.1 a.2 v := by
        intro u a t' _ _ hrun
        have hx := hrcc u a.1 a.2 v t' (by unfold rccF; exact hrun)
        exact ⟨trivial, hx.1, hx.2⟩
      have hmono : ∀ (u u' : SolverSt) (a : ℕ × ℕ), Evolves u u' →
          NoCand u a.1 a.2 v → NoCand u' a.1 a.2 v :=
        fun u u' a hev hq => noCand_mono hev hq
      have happ := srFoldl_facts
        (fun t pos => rccGo (pvF (n + 1)) t pos.1 pos.2 v)
        (fun _ => True) (fun u pos => NoCand u pos.1 pos.2 v)
        (elimCells r c) (elimState s r c v) t
      have hfacts := happ hstep hmono trivial h
      exact ⟨(evolves_elimState s r c v).trans hfacts.2.1, hfacts.2.2⟩
    exact ⟨hpv, hrcc, helim⟩

/-! ### Set bookkeeping for the pending-cell accounting -/

theorem sdiff_insert_erase (A B : Finset ℕ) (x : ℕ) :
    A \ insert x B = (A \ B).erase x := by
  ext a
  simp only [Finset.mem_sdiff, Finset.mem_insert, Finset.mem_erase]
  tauto

theorem erase_sdiff (A B : Finset ℕ) (x : ℕ) :
    (A.erase x) \ B = (A \ B).erase x := by
  ext a
  simp only [Finset.mem_sdiff, Finset.mem_erase]
  tauto

theorem pendLocs_empty (k i : ℕ) : pendLocs ∅ k i = ∅ := by
  unfold pendLocs
  simp

/-- `candLocs` is unchanged when the grids agree except possibly at
`(r, c)` where membership of `w` is preserved. -/
theorem candLocs_keep (s t : SolverSt) (r c k i w : ℕ)
    (hsame : ∀ x y, ¬ (x = r ∧ y = c) →
      t.puzzle.grid x y = s.puzzle.grid x y)
    (hmem : w ∈ (t.puzzle.grid r c).cands ↔ w ∈ (s.puzzle.grid r c).cands) :
    candLocs t k i w = candLocs s k i w := by
  unfold candLocs cellOf
  ext l
  simp only [Finset.mem_filter, Finset.mem_range]
  refine and_congr_right fun _ => ?_
  by_cases hp : housePos k i l = (r, c)
  · rw [hp]
    exact hmem
  · rw [hsame (housePos k i l).1 (housePos k i l).2
      (fun hand => hp (Prod.ext hand.1 hand.2))]

theorem hmFind_isSome_of_mem (m : List (ℕ × Finset ℕ)) (w : ℕ)
    (S : Finset ℕ) (h : (w, S) ∈ m) : (hmFind m w).isSome := by
  induction m with
  | nil => exact absurd h (by simp)
  | cons e m ih =>
    unfold hmFind
    by_cases hew : e.1 = w
    · have hb : ((fun e : ℕ × Finset ℕ => e.1 == w) e) = true := by
        simp [hew]
      rw [@List.find?_cons_of_pos _ (fun e : ℕ × Finset ℕ => e.1 == w) _ _ hb]
      rfl
    · have hb : ¬ ((fun e : ℕ × Finset ℕ => e.1 == w) e) = true := by
        simp [hew]
      rw [@List.find?_cons_of_neg _ (fun e : ℕ × Finset ℕ => e.1 == w) _ _ hb]
      rcases List.mem_cons.1 h with heq | hm
      · exact absurd (congrArg Prod.fst heq.symm) hew
      · exact ih hm

theorem hmFind_none_keys (m : List (ℕ × Finset ℕ)) (v : ℕ)
    (h : hmFind m v = none) : ∀ e ∈ m, e.1 ≠ v := by
  intro e he heq
  have : (hmFind m v).isSome := hmFind_isSome_of_mem m v e.2
    (by rw [← heq]; exact he)
  rw [h] at this
  exact absurd this (by simp)

theorem hmFind_none_evolves (s t : SolverSt) (k i w : ℕ)
    (hev : Evolves s t) (h : hmFind (houseOf s k i) w = none) :
    hmFind (houseOf t k i) w = none := by
  cases hf : hmFind (houseOf t k i) w with
  | none => rfl
  | some S =>
    exfalso
    have hmem := hmFind_mem _ _ _ hf
    obtain ⟨e, he, hk, -⟩ := hev.2.2.2 k i (w, S) hmem
    exact hmFind_none_keys (houseOf s k i) w h e he hk

theorem elimCells_bound (r c : ℕ) (hr : r < 9) (hc : c < 9) :
    ∀ a ∈ elimCells r c, a.1 < 9 ∧ a.2 < 9 := by
  intro a ha
  unfold elimCells at ha
  rw [List.mem_flatMap] at ha
  obtain ⟨i, hi, hmem⟩ := ha
  rw [List.mem_range] at hi
  simp only [List.mem_cons, List.not_mem_nil, or_false] at hmem
  rcases hmem with rfl | rfl | rfl <;> constructor <;> simp <;> omega

theorem housePos_mem_elimCells (k i l r c : ℕ) (hk : k < 3) (hl : l < 9)
    (hr : r < 9) (hc : c < 9) (hsel : houseSel k i r c) :
    housePos k i l ∈ elimCells r c := by
  unfold elimCells
  rw [List.mem_flatMap]
  refine ⟨l, by rw [List.mem_range]; exact hl, ?_⟩
  unfold housePos houseSel boxIdx at *
  simp only [List.mem_cons, List.not_mem_nil, or_false]
  by_cases h0 : k = 0
  · rw [if_pos h0] at hsel ⊢
    subst hsel
    exact Or.inl rfl
  · by_cases h1 : k = 1
    · rw [if_neg h0, if_pos h1] at hsel ⊢
      subst hsel
      exact Or.inr (Or.inl rfl)
    · rw [if_neg h0, if_neg h1] at hsel ⊢
      subst hsel
      refine Or.inr (Or.inr (Prod.ext ?_ ?_)) <;> simp <;> omega

theorem value_rccState (s : SolverSt) (r c v x y : ℕ) :
    ((rccState s r c v).puzzle.grid x y).value =
      (s.puzzle.grid x y).value := by
  rw [grid_rccState]
  split <;> rename_i h
  · obtain ⟨rfl, rfl⟩ := h
    rfl
  · rfl

/-- House–value pairs suspended during `eliminateCandidates(r, c, v)`:
the previous suspensions plus value `v` in the three houses of
`(r, c)`. -/
def addE (E : ℕ → ℕ → ℕ → Prop) (r c v : ℕ) : ℕ → ℕ → ℕ → Prop :=
  fun k i w => E k i w ∨ (w = v ∧ houseSel k i r c)

/-- The removal statements of `removeCellCandidate` preserve the
generalized mirror invariant: erasing candidate `v` from cell `(r, c)`
and mirroring the removal into the three houses keeps both directions
of the equivalence. -/
theorem ginv_rccState (s : SolverSt) (P : Finset (ℕ × ℕ))
    (E : ℕ → ℕ → ℕ → Prop) (r c v : ℕ) (hr : r < 9) (hc : c < 9)
    (hval : (s.puzzle.grid r c).value = 0)
    (hcand : v ∈ (s.puzzle.grid r c).cands)
    (hinv : GInvP s P E) :
    GInvP (rccState s r c v) P E := by
  have hnp : (r, c) ∉ P := by
    intro hP
    have h0 := hinv.1 (r, c) hP
    rw [h0] at hcand
    exact absurd hcand (by simp)
  have hsame : ∀ x y, ¬ (x = r ∧ y = c) →
      (rccState s r c v).puzzle.grid x y = s.puzzle.grid x y := by
    intro x y hxy
    rw [grid_rccState, if_neg hxy]
  have hgrc : (rccState s r c v).puzzle.grid r c =
      { s.puzzle.grid r c with
        cands := (s.puzzle.grid r c).cands.erase v } := by
    rw [grid_rccState, if_pos ⟨rfl, rfl⟩]
  constructor
  · intro rc hrc
    by_cases hx : rc.1 = r ∧ rc.2 = c
    · exfalso
      have heq : rc = (r, c) := Prod.ext hx.1 hx.2
      rw [heq] at hrc
      exact hnp hrc
    · rw [hsame rc.1 rc.2 hx]
      exact hinv.1 rc hrc
  · intro k hk i hi
    obtain ⟨h2a, h2b, h2c⟩ := hinv.2 k hk i hi
    have hCLv : candLocs (rccState s r c v) k i v =
        if houseSel k i r c then (candLocs s k i v).erase (locIdx k r c)
        else candLocs s k i v :=
      candLocs_point s _ r c k i v hk hi hr hc hsame
        (by rw [hgrc]; exact Finset.not_mem_erase v _)
    have hCLw : ∀ w, w ≠ v →
        candLocs (rccState s r c v) k i w = candLocs s k i w := by
      intro w hw
      refine candLocs_keep s _ r c k i w hsame ?_
      rw [hgrc]
      show w ∈ (s.puzzle.grid r c).cands.erase v ↔ _
      simp [Finset.mem_erase, hw]
    have hcell : ∀ l, housePos k i l ≠ (r, c) →
        cellOf (rccState s r c v) k i l = cellOf s k i l := by
      intro l hne
      unfold cellOf
      exact hsame _ _ (fun hand => hne (Prod.ext hand.1 hand.2))
    have hmemw : ∀ l w, w ≠ v →
        (w ∈ (cellOf (rccState s r c v) k i l).cands ↔
          w ∈ (cellOf s k i l).cands) := by
      intro l w hw
      unfold cellOf
      by_cases hp : housePos k i l = (r, c)
      · rw [hp]
        show w ∈ ((rccState s r c v).puzzle.grid r c).cands ↔ _
        rw [hgrc]
        show w ∈ (s.puzzle.grid r c).cands.erase v ↔ _
        simp [Finset.mem_erase, hw]
      · rw [hsame _ _ (fun hand => hp (Prod.ext hand.1 hand.2))]

    by_cases hsel : houseSel k i r c
    · by_cases hE : E k i v
      · -- suspended value: the house has no entry for v, nothing moves
        have hnone := h2c v hE
        have hH : houseOf (rccState s r c v) k i = houseOf s k i := by
          rw [houseOf_rccState, if_pos hsel,
            removeCandidateCell_of_none _ _ _ hnone]
        refine ⟨?_, ?_, ?_⟩
        · intro e he
          rw [hH] at he
          rw [hCLw e.1 (hmFind_none_keys _ _ hnone e he)]
          exact h2a e he
        · intro l hl hv0 hlP w hEw
          have hwv : w ≠ v := fun h => hEw (h ▸ hE)
          have hv0' : (cellOf s k i l).value = 0 := by
            unfold cellOf at hv0 ⊢
            rwa [value_rccState] at hv0
          rw [hH, hmemw l w hwv]
          exact h2b l hl hv0' hlP w hEw
        · intro w hEw
          rw [hH]
          exact h2c w hEw
      · -- live value: the entry for v exists and lists the cell
        have hlt : locIdx k r c < 9 := locIdx_lt k r c hk hr hc
        have hposloc : housePos k i (locIdx k r c) = (r, c) :=
          housePos_locIdx k i r c hk hi hr hc hsel
        have hcl : cellOf s k i (locIdx k r c) = s.puzzle.grid r c := by
          unfold cellOf
          rw [hposloc]
        have hiff := h2b (locIdx k r c) hlt (by rw [hcl]; exact hval)
          (by rw [hposloc]; exact hnp) v hE
        obtain ⟨S, hfind, hlocS⟩ := hiff.1 (by rw [hcl]; exact hcand)
        have hH : houseOf (rccState s r c v) k i =
            removeCandidateCell (houseOf s k i) v (locIdx k r c) := by
          rw [houseOf_rccState, if_pos hsel]
        have hfind' := hmFind_removeCandidateCell (houseOf s k i) v
          (locIdx k r c) S hfind
        refine ⟨?_, ?_, ?_⟩
        · intro e' he'
          rw [hH] at he'
          rcases mem_removeCandidateCell _ _ _ _ he' with
            ⟨hm, hcase⟩ | ⟨S', hS', rfl⟩
          · have hev : e'.1 ≠ v := by
              rcases hcase with hnone | hne
              · rw [hfind] at hnone
                exact absurd hnone (by simp)
              · exact hne
            rw [hCLw e'.1 hev]
            exact h2a e' hm
          · have hSS : S' = S := by
              rw [hfind] at hS'
              exact (Option.some.inj hS').symm
            show (S'.erase (locIdx k r c)) \ pendLocs P k i =
              candLocs (rccState s r c v) k i v
            rw [hSS, hCLv, if_pos hsel, erase_sdiff,
              h2a (v, S) (hmFind_mem _ _ _ hfind)]
        · intro l hl hv0 hlP w hEw
          have hv0' : (cellOf s k i l).value = 0 := by
            unfold cellOf at hv0 ⊢
            rwa [value_rccState] at hv0
          rw [hH]
          by_cases hw : w = v
          · subst hw
            by_cases hll : l = locIdx k r c
            · subst hll
              constructor
              · intro habs
                exfalso
                unfold cellOf at habs
                rw [hposloc] at habs
                rw [hgrc] at habs
                exact Finset.not_mem_erase _ _ habs
              · rintro ⟨S', hS', hmem⟩
                rw [hfind'] at hS'
                by_cases hz : (S.erase (locIdx k r c)).card = 0
                · rw [if_pos hz, if_pos rfl] at hS'
                  exact absurd hS' (by simp)
                · rw [if_neg hz, if_pos rfl] at hS'
                  have hSS : S' = S.erase (locIdx k r c) :=
                    (Option.some.inj hS').symm
                  rw [hSS] at hmem
                  exact absurd hmem (Finset.not_mem_erase _ _)
            · have hne : housePos k i l ≠ (r, c) := by
                intro heq
                exact hll ((housePos_eq_rc k i l r c hk hi hl hr hc).1 heq).2
              rw [hcell l hne]
              have hpre := h2b l hl hv0' hlP w hEw
              rw [hfind']
              by_cases hz : (S.erase (locIdx k r c)).card = 0
              · rw [if_pos hz]
                constructor
                · intro hmem
                  exfalso
                  obtain ⟨S', hS', hmem'⟩ := hpre.1 hmem
                  rw [hfind] at hS'
                  have hSS : S' = S := (Option.some.inj hS').symm
                  rw [hSS] at hmem'
                  have hin : l ∈ S.erase (locIdx k r c) :=
                    Finset.mem_erase.2 ⟨hll, hmem'⟩
                  rw [Finset.card_eq_zero.1 hz] at hin
                  exact absurd hin (by simp)
                · rintro ⟨S', hS', -⟩
                  rw [if_pos rfl] at hS'
                  exact absurd hS' (by simp)
              · rw [if_neg hz]
                constructor
                · intro hmem
                  obtain ⟨S', hS', hmem'⟩ := hpre.1 hmem
                  rw [hfind] at hS'
                  have hSS : S' = S := (Option.some.inj hS').symm
                  rw [hSS] at hmem'
                  exact ⟨S.erase (locIdx k r c), by rw [if_pos rfl],
                    Finset.mem_erase.2 ⟨hll, hmem'⟩⟩
                · rintro ⟨S', hS', hmem⟩
                  rw [if_pos rfl] at hS'
                  have hSS : S' = S.erase (locIdx k r c) :=
                    (Option.some.inj hS').symm
                  rw [hSS] at hmem
                  exact hpre.2 ⟨S, hfind, Finset.mem_of_mem_erase hmem⟩
          · have hfw : hmFind (removeCandidateCell (houseOf s k i) v
                (locIdx k r c)) w = hmFind (houseOf s k i) w := by
              rw [hfind']
              by_cases hz : (S.erase (locIdx k r c)).card = 0
              · rw [if_pos hz, if_neg hw]
              · rw [if_neg hz, if_neg hw]
            rw [hfw, hmemw l w hw]
            exact h2b l hl hv0' hlP w hEw
        · intro w hEw
          have hwv : w ≠ v := fun h => hE (h ▸ hEw)
          rw [hH, hfind']
          by_cases hz : (S.erase (locIdx k r c)).card = 0
          · rw [if_pos hz, if_neg hwv]
            exact h2c w hEw
          · rw [if_neg hz, if_neg hwv]
            exact h2c w hEw
    · -- house not containing (r, c): untouched
      have hH : houseOf (rccState s r c v) k i = houseOf s k i := by
        rw [houseOf_rccState, if_neg hsel]
      have hnohit : ∀ l, l < 9 → housePos k i l ≠ (r, c) := by
        intro l hl heq
        exact hsel ((housePos_eq_rc k i l r c hk hi hl hr hc).1 heq).1
      refine ⟨?_, ?_, ?_⟩
      · intro e he
        rw [hH] at he
        have hCL : candLocs (rccState s r c v) k i e.1 =
            candLocs s k i e.1 := by
          by_cases hw : e.1 = v
          · rw [hw, hCLv, if_neg hsel]
          · exact hCLw e.1 hw
        rw [hCL]
        exact h2a e he
      · intro l hl hv0 hlP w hEw
        rw [hcell l (hnohit l hl)] at hv0 ⊢
        rw [hH]
        exact h2b l hl hv0 hlP w hEw
      · intro w hEw
        rw [hH]
        exact h2c w hEw

/-- A successful `puzzle.PlaceValue` moves the placed cell into the
pending set: its candidates are cleared while its stale house entries
are charged to `P`. -/
theorem ginv_place (s : SolverSt) (P : Finset (ℕ × ℕ))
    (E : ℕ → ℕ → ℕ → Prop) (r c v : ℕ) (hr : r < 9) (hc : c < 9)
    (hinv : GInvP s P E) :
    GInvP { s with puzzle := placedState s.puzzle r c v }
      (insert (r, c) P) E := by
  have hsame : ∀ x y, ¬ (x = r ∧ y = c) →
      ({ s with puzzle := placedState s.puzzle r c v } :
        SolverSt).puzzle.grid x y = s.puzzle.grid x y := by
    intro x y hxy
    show (placedState s.puzzle r c v).grid x y = _
    rw [grid_placedState, if_neg hxy]
  have hgrc : ({ s with puzzle := placedState s.puzzle r c v } :
      SolverSt).puzzle.grid r c =
      { value := v, given := (s.puzzle.grid r c).given, cands := ∅ } := by
    show (placedState s.puzzle r c v).grid r c = _
    rw [grid_placedState, if_pos ⟨rfl, rfl⟩]
  have hH : ∀ k i, houseOf { s with puzzle := placedState s.puzzle r c v }
      k i = houseOf s k i := by
    intro k i
    unfold houseOf
    split
    · rfl
    · split <;> rfl
  constructor
  · intro rc hrc
    rcases Finset.mem_insert.1 hrc with heq | hmem
    · rw [heq, hgrc]
    · by_cases hx : rc.1 = r ∧ rc.2 = c
      · have heq : rc = (r, c) := Prod.ext hx.1 hx.2
        rw [heq, hgrc]
      · rw [hsame rc.1 rc.2 hx]
        exact hinv.1 rc hmem
  · intro k hk i hi
    obtain ⟨h2a, h2b, h2c⟩ := hinv.2 k hk i hi
    have hCL : ∀ w, candLocs { s with puzzle := placedState s.puzzle r c v }
        k i w =
        if houseSel k i r c then (candLocs s k i w).erase (locIdx k r c)
        else candLocs s k i w := by
      intro w
      exact candLocs_point s _ r c k i w hk hi hr hc hsame
        (by rw [hgrc]; exact Finset.not_mem_empty w)
    refine ⟨?_, ?_, ?_⟩
    · intro e he
      rw [hH] at he
      rw [hCL, pendLocs_insert P r c k i hk hi hr hc]
      by_cases hsel : houseSel k i r c
      · rw [if_pos hsel, if_pos hsel, sdiff_insert_erase, h2a e he]
      · rw [if_neg hsel, if_neg hsel, h2a e he]
    · intro l hl hv0 hlP w hEw
      have hne : housePos k i l ≠ (r, c) := by
        intro heq
        exact hlP (heq ▸ Finset.mem_insert_self (r, c) P)
      have hcell : cellOf { s with puzzle := placedState s.puzzle r c v }
          k i l = cellOf s k i l := by
        unfold cellOf
        exact hsame _ _ (fun hand => hne (Prod.ext hand.1 hand.2))
      rw [hcell] at hv0 ⊢
      rw [hH]
      exact h2b l hl hv0 (fun hmem => hlP (Finset.mem_insert_of_mem hmem))
        w hEw
    · intro w hEw
      rw [hH]
      exact h2c w hEw

/-- The three `RemoveCandidateValue` calls opening
`eliminateCandidates(r, c, v)` discharge the pending debt of `(r, c)`:
its local index is erased from every entry of its three houses, and the
entry for `v` itself is dropped there (suspending the value-coverage
direction for `v` until the elimination loop has run). -/
theorem ginv_elimState (s : SolverSt) (P : Finset (ℕ × ℕ))
    (E : ℕ → ℕ → ℕ → Prop) (r c v : ℕ) (hr : r < 9) (hc : c < 9)
    (hinv : GInvP s (insert (r, c) P) E) :
    GInvP (elimState s r c v) P (addE E r c v) := by
  have hgrid : ∀ x y, (elimState s r c v).puzzle.grid x y =
      s.puzzle.grid x y := fun _ _ => rfl
  have hrc0 : (s.puzzle.grid r c).cands = ∅ :=
    hinv.1 (r, c) (Finset.mem_insert_self (r, c) P)
  constructor
  · intro rc hrc
    rw [hgrid]
    exact hinv.1 rc (Finset.mem_insert_of_mem hrc)
  · intro k hk i hi
    obtain ⟨h2a, h2b, h2c⟩ := hinv.2 k hk i hi
    have hCL : ∀ w, candLocs (elimState s r c v) k i w =
        candLocs s k i w := fun w => candLocs_congr s _ k i w hgrid
    have hcell : ∀ l, cellOf (elimState s r c v) k i l = cellOf s k i l :=
      fun l => by unfold cellOf; rw [hgrid]
    by_cases hsel : houseSel k i r c
    · have hH : houseOf (elimState s r c v) k i =
          removeCandidateValue (houseOf s k i) v (locIdx k r c) := by
        rw [houseOf_elimState, if_pos hsel]
      have hfind : ∀ w, hmFind (houseOf (elimState s r c v) k i) w =
          if w = v then none
          else (hmFind (houseOf s k i) w).map
            (fun S => S.erase (locIdx k r c)) := by
        intro w
        rw [hH, hmFind_removeCandidateValue]
      refine ⟨?_, ?_, ?_⟩
      · intro e' he'
        rw [hH] at he'
        obtain ⟨e, he, hev, heq⟩ := (mem_removeCandidateValue _ _ _ _).1 he'
        rw [heq]
        show (e.2.erase (locIdx k r c)) \ pendLocs P k i =
          candLocs (elimState s r c v) k i e.1
        rw [hCL, erase_sdiff, ← sdiff_insert_erase]
        have := h2a e he
        rw [pendLocs_insert P r c k i hk hi hr hc, if_pos hsel] at this
        exact this
      · intro l hl hv0 hlP w hEw
        have hEw' : ¬ E k i w := fun h => hEw (Or.inl h)
        have hwv : w ≠ v := fun h => hEw (Or.inr ⟨h, hsel⟩)
        rw [hcell] at hv0 ⊢
        rw [hfind w, if_neg hwv]
        by_cases hp : housePos k i l = (r, c)
        · -- the freshly placed cell: empty candidates, erased everywhere
          have hcl : cellOf s k i l = s.puzzle.grid r c := by
            unfold cellOf
            rw [hp]
          have hll : l = locIdx k r c :=
            ((housePos_eq_rc k i l r c hk hi hl hr hc).1 hp).2
          rw [hcl, hrc0]
          constructor
          · intro habs
            exact absurd habs (Finset.not_mem_empty w)
          · rintro ⟨S', hS', hmem⟩
            exfalso
            cases hf : hmFind (houseOf s k i) w with
            | none =>
              rw [hf] at hS'
              exact absurd hS' (by simp)
            | some S =>
              rw [hf] at hS'
              have hSS : S' = S.erase (locIdx k r c) :=
                (Option.some.inj hS').symm
              rw [hSS, hll] at hmem
              exact Finset.not_mem_erase _ _ hmem
        · have hll : l ≠ locIdx k r c := by
            intro heq
            exact hp ((housePos_eq_rc k i l r c hk hi hl hr hc).2
              ⟨hsel, heq⟩)
          have hpre := h2b l hl hv0
            (fun hmem => by
              rcases Finset.mem_insert.1 hmem with heq | hmem'
              · exact hp heq
              · exact hlP hmem') w hEw'
          rw [hpre]
          cases hf : hmFind (houseOf s k i) w with
          | none =>
            simp
          | some S =>
            constructor
            · rintro ⟨S', hS', hmem⟩
              have hSS : S' = S := (Option.some.inj hS').symm
              rw [hSS] at hmem
              exact ⟨S.erase (locIdx k r c), rfl,
                Finset.mem_erase.2 ⟨hll, hmem⟩⟩
            · rintro ⟨S', hS', hmem⟩
              have hSS : S' = S.erase (locIdx k r c) :=
                (Option.some.inj hS').symm
              rw [hSS] at hmem
              exact ⟨S, rfl, Finset.mem_of_mem_erase hmem⟩
      · intro w hEw
        rw [hfind w]
        rcases hEw with hEw | ⟨rfl, -⟩
        · by_cases hwv : w = v
          · rw [if_pos hwv]
          · rw [if_neg hwv, h2c w hEw]
            rfl
        · rw [if_pos rfl]
    · have hH : houseOf (elimState s r c v) k i = houseOf s k i := by
        rw [houseOf_elimState, if_neg hsel]
      have hpend : pendLocs (insert (r, c) P) k i = pendLocs P k i := by
        rw [pendLocs_insert P r c k i hk hi hr hc, if_neg hsel]
      refine ⟨?_, ?_, ?_⟩
      · intro e he
        rw [hH] at he
        rw [hCL]
        have := h2a e he
        rw [hpend] at this
        exact this
      · intro l hl hv0 hlP w hEw
        have hEw' : ¬ E k i w := fun h => hEw (Or.inl h)
        have hne : housePos k i l ≠ (r, c) := by
          intro heq
          exact hsel ((housePos_eq_rc k i l r c hk hi hl hr hc).1 heq).1
        rw [hcell] at hv0 ⊢
        rw [hH]
        exact h2b l hl hv0
          (fun hmem => by
            rcases Finset.mem_insert.1 hmem with heq | hmem'
            · exact hne heq
            · exact hlP hmem') w hEw'
      · intro w hEw
        rw [hH]
        rcases hEw with hEw | ⟨-, habs⟩
        · exact h2c w hEw
        · exact absurd habs hsel

/-- Once the elimination loop has cleared candidate `v` from every
unsolved cell of the three houses of `(r, c)` and the entries for `v`
are gone there, the suspension of `v` can be lifted. -/
theorem ginv_unsuspend (t : SolverSt) (P : Finset (ℕ × ℕ))
    (E : ℕ → ℕ → ℕ → Prop) (r c v : ℕ)
    (hnone : ∀ k i, k < 3 → i < 9 → houseSel k i r c →
      hmFind (houseOf t k i) v = none)
    (hnc : ∀ k i l, k < 3 → i < 9 → l < 9 → houseSel k i r c →
      (cellOf t k i l).value = 0 → v ∉ (cellOf t k i l).cands)
    (hinv : GInvP t P (addE E r c v)) :
    GInvP t P E := by
  refine ⟨hinv.1, ?_⟩
  intro k hk i hi
  obtain ⟨h2a, h2b, h2c⟩ := hinv.2 k hk i hi
  refine ⟨h2a, ?_, ?_⟩
  · intro l hl hv0 hlP w hEw
    by_cases hadd : addE E r c v k i w
    · rcases hadd with hadd | ⟨rfl, hsel⟩
      · exact absurd hadd hEw
      · constructor
        · intro habs
          exact absurd habs (hnc k i l hk hi hl hsel hv0)
        · rintro ⟨S, hS, -⟩
          rw [hnone k i hk hi hsel] at hS
          exact absurd hS (by simp)
    · exact h2b l hl hv0 hlP w hadd
  · intro w hEw
    exact h2c w (Or.inl hEw)

/-- Fuel induction B: `PlaceValue`, `removeCellCandidate` and
`eliminateCandidates` preserve the generalized mirror invariant
(the latter additionally discharges the pending debt of its cell). -/
theorem ginvB (f : ℕ) :
    (∀ P E s r c v t, r < 9 → c < 9 → GInvP s P E →
      pvF f s r c v = .ok t → GInvP t P E) ∧
    (∀ P E s r c v t, r < 9 → c < 9 → GInvP s P E →
      rccF f s r c v = .ok t → GInvP t P E) ∧
    (∀ P E s r c v t, r < 9 → c < 9 → GInvP s (insert (r, c) P) E →
      elimF f s r c v = .ok t → GInvP t P E) := by
  induction f with
  | zero =>
    have hpv : ∀ P E s r c v t, r < 9 → c < 9 → GInvP s P E →
        pvF 0 s r c v = .ok t → GInvP t P E := by
      intro P E s r c v t hr hc hinv h
      unfold pvF at h
      cases hp : s.puzzle.placeValue r c v with
      | fatal =>
        rw [hp] at h
        exact absurd h (by simp)
      | ok bp =>
        obtain ⟨b, p'⟩ := bp
        rw [hp] at h
        cases b with
        | true => exact absurd h (by simp)
        | false =>
          have heq : s = t := by
            have h' : SR.ok s = SR.ok t := h
            injection h'
          subst heq
          exact hinv
    have hrcc : ∀ P E s r c v t, r < 9 → c < 9 → GInvP s P E →
        rccF 0 s r c v = .ok t → GInvP t P E := by
      intro P E s r c v t hr hc hinv h
      unfold rccF rccGo at h
      by_cases h1 : (s.puzzle.grid r c).solved ∨
          ¬ (s.puzzle.grid r c).hasCand v
      · rw [if_pos h1] at h
        have heq : s = t := by
          have h' : SR.ok s = SR.ok t := h
          injection h'
        subst heq
        exact hinv
      · rw [if_neg h1] at h
        push_neg at h1
        have hval : (s.puzzle.grid r c).value = 0 := by
          have := h1.1
          unfold Cell.solved at this
          push_neg at this
          exact this
        have hcand : v ∈ (s.puzzle.grid r c).cands := h1.2
        have hst := ginv_rccState s P E r c v hr hc hval hcand hinv
        by_cases h2 : ((s.puzzle.grid r c).cands.erase v).card = 1
        · rw [dif_pos h2] at h
          exact hpv P E _ r c _ t hr hc hst h
        · rw [dif_neg h2] at h
          have heq : rccState s r c v = t := by
            have h' : SR.ok (rccState s r c v) = SR.ok t := h
            injection h'
          subst heq
          exact hst
    have helim : ∀ P E s r c v t, r < 9 → c < 9 →
        GInvP s (insert (r, c) P) E →
        elimF 0 s r c v = .ok t → GInvP t P E := by
      intro P E s r c v t hr hc hinv h
      unfold elimF elimGo at h
      have hst := ginv_elimState s P E r c v hr hc hinv
      have hstep : ∀ (u : SolverSt) (a : ℕ × ℕ) (t' : SolverSt),
          a ∈ elimCells r c → GInvP u P (addE E r c v) →
          rccGo (pvF 0) u a.1 a.2 v = .ok t' →
          GInvP t' P (addE E r c v) ∧ Evolves u t' ∧
            NoCand t' a.1 a.2 v := by
        intro u a t' ha hIu hrun
        obtain ⟨ha1, ha2⟩ := elimCells_bound r c hr hc a ha
        have hG := hrcc P (addE E r c v) u a.1 a.2 v t' ha1 ha2 hIu
          (by unfold rccF; exact hrun)
        have hEN := (evolvesA 0).2.1 u a.1 a.2 v t'
          (by unfold rccF; exact hrun)
        exact ⟨hG, hEN.1, hEN.2⟩
      have hmono : ∀ (u u' : SolverSt) (a : ℕ × ℕ), Evolves u u' →
          NoCand u a.1 a.2 v → NoCand u' a.1 a.2 v :=
        fun u u' a hev hq => noCand_mono hev hq
      have happ := srFoldl_facts
        (fun t pos => rccGo (pvF 0) t pos.1 pos.2 v)
        (fun u => GInvP u P (addE E r c v))
        (fun u pos => NoCand u pos.1 pos.2 v)
        (elimCells r c) (elimState s r c v) t
      have hfacts := happ hstep hmono hst h
      have hnone : ∀ k i, k < 3 → i < 9 → houseSel k i r c →
          hmFind (houseOf t k i) v = none := by
        intro k i hk hi hsel
        have h0 : hmFind (houseOf (elimState s r c v) k i) v = none := by
          rw [houseOf_elimState, if_pos hsel,
            hmFind_removeCandidateValue, if_pos rfl]
        exact hmFind_none_evolves _ _ k i v hfacts.2.1 h0
      have hnc : ∀ k i l, k < 3 → i < 9 → l < 9 → houseSel k i r c →
          (cellOf t k i l).value = 0 → v ∉ (cellOf t k i l).cands := by
        intro k i l hk hi hl hsel hv0
        have hq := hfacts.2.2 (housePos k i l)
          (housePos_mem_elimCells k i l r c hk hl hr hc hsel)
        rcases hq with hq | hq
        · exact absurd hv0 hq
        · exact hq
      exact ginv_unsuspend t P E r c v hnone hnc hfacts.1
    exact ⟨hpv, hrcc, helim⟩
  | succ n ih =>
    have hpv : ∀ P E s r c v t, r < 9 → c < 9 → GInvP s P E →
        pvF (n + 1) s r c v = .ok t → GInvP t P E := by
      intro P E s r c v t hr hc hinv h
      unfold pvF at h
      cases hp : s.puzzle.placeValue r c v with
      | fatal =>
        rw [hp] at h
        exact absurd h (by simp)
      | ok bp =>
        obtain ⟨b, p'⟩ := bp
        rw [hp] at h
        cases b with
        | false =>
          have heq : s = t := by
            have h' : SR.ok s = SR.ok t := h
            injection h'
          subst heq
          exact hinv
        | true =>
          obtain ⟨hu, rfl⟩ := placeValue_ok_true _ _ _ _ _ hp
          have h' : elimF n { s with puzzle := placedState s.puzzle r c v }
              r c v = .ok t := h
          have hplace := ginv_place s P E r c v hr hc hinv
          exact ih.2.2 P E _ r c v t hr hc hplace h'
    have hrcc : ∀ P E s r c v t, r < 9 → c < 9 → GInvP s P E →
        rccF (n + 1) s r c v = .ok t → GInvP t P E := by
      intro P E s r c v t hr hc hinv h
      unfold rccF rccGo at h
      by_cases h1 : (s.puzzle.grid r c).solved ∨
          ¬ (s.puzzle.grid r c).hasCand v
      · rw [if_pos h1] at h
        have heq : s = t := by
          have h' : SR.ok s = SR.ok t := h
          injection h'
        subst heq
        exact hinv
      · rw [if_neg h1] at h
        push_neg at h1
        have hval : (s.puzzle.grid r c).value = 0 := by
          have := h1.1
          unfold Cell.solved at this
          push_neg at this
          exact this
        have hcand : v ∈ (s.puzzle.grid r c).cands := h1.2
        have hst := ginv_rccState s P E r c v hr hc hval hcand hinv
        by_cases h2 : ((s.puzzle.grid r c).cands.erase v).card = 1
        · rw [dif_pos h2] at h
          exact hpv P E _ r c _ t hr hc hst h
        · rw [dif_neg h2] at h
          have heq : rccState s r c v = t := by
            have h' : SR.ok (rccState s r c v) = SR.ok t := h
            injection h'
          subst heq
          exact hst
    have helim : ∀ P E s r c v t, r < 9 → c < 9 →
        GInvP s (insert (r, c) P) E →
        elimF (n + 1) s r c v = .ok t → GInvP t P E := by
      intro P E s r c v t hr hc hinv h
      unfold elimF elimGo at h
      have hst := ginv_elimState s P E r c v hr hc hinv
      have hstep : ∀ (u : SolverSt) (a : ℕ × ℕ) (t' : SolverSt),
          a ∈ elimCells r c → GInvP u P (addE E r c v) →
          rccGo (pvF (n + 1)) u a.1 a.2 v = .ok t' →
          GInvP t' P (addE E r c v) ∧ Evolves u t' ∧
            NoCand t' a.1 a.2 v := by
        intro u a t' ha hIu hrun
        obtain ⟨ha1, ha2⟩ := elimCells_bound r c hr hc a ha
        have hG := hrcc P (addE E r c v) u a.1 a.2 v t' ha1 ha2 hIu
          (by unfold rccF; exact hrun)
        have hEN := (evolvesA (n + 1)).2.1 u a.1 a.2 v t'
          (by unfold rccF; exact hrun)
        exact ⟨hG, hEN.1, hEN.2⟩
      have hmono : ∀ (u u' : SolverSt) (a : ℕ × ℕ), Evolves u u' →
          NoCand u a.1 a.2 v → NoCand u' a.1 a.2 v :=
        fun u u' a hev hq => noCand_mono hev hq
      have happ := srFoldl_facts
        (fun t pos => rccGo (pvF (n + 1)) t pos.1 pos.2 v)
        (fun u => GInvP u P (addE E r c v))
        (fun u pos => NoCand u pos.1 pos.2 v)
        (elimCells r c) (elimState s r c v) t
      have hfacts := happ hstep hmono hst h
      have hnone : ∀ k i, k < 3 → i < 9 → houseSel k i r c →
          hmFind (houseOf t k i) v = none := by
        intro k i hk hi hsel
        have h0 : hmFind (houseOf (elimState s r c v) k i) v = none := by
          rw [houseOf_elimState, if_pos hsel,
            hmFind_removeCandidateValue, if_pos rfl]
        exact hmFind_none_evolves _ _ k i v hfacts.2.1 h0
      have hnc : ∀ k i l, k < 3 → i < 9 → l < 9 → houseSel k i r c →
          (cellOf t k i l).value = 0 → v ∉ (cellOf t k i l).cands := by
        intro k i l hk hi hl hsel hv0
        have hq := hfacts.2.2 (housePos k i l)
          (housePos_mem_elimCells k i l r c hk hl hr hc hsel)
        rcases hq with hq | hq
        · exact absurd hv0 hq
        · exact hq
      exact ginv_unsuspend t P E r c v hnone hnc hfacts.1
    exact ⟨hpv, hrcc, helim⟩

/-! ### Initialization: `NewSolver` establishes the invariant -/

theorem mem_gridCellList (a : ℕ × ℕ) :
    a ∈ gridCellList ↔ a.1 < 9 ∧ a.2 < 9 := by
  unfold gridCellList
  rw [List.mem_flatMap]
  constructor
  · rintro ⟨r, hr, hmem⟩
    rw [List.mem_range] at hr
    rw [List.mem_map] at hmem
    obtain ⟨c, hc, rfl⟩ := hmem
    rw [List.mem_range] at hc
    exact ⟨hr, hc⟩
  · rintro ⟨h1, h2⟩
    refine ⟨a.1, by rw [List.mem_range]; exact h1, ?_⟩
    rw [List.mem_map]
    exact ⟨a.2, by rw [List.mem_range]; exact h2, Prod.mk.eta⟩

theorem mem_fullCands (w : ℕ) : w ∈ fullCands ↔ 1 ≤ w ∧ w ≤ 9 := by
  unfold fullCands
  simp only [Finset.mem_insert, Finset.mem_singleton]
  omega

theorem mem_initialHouse (e : ℕ × Finset ℕ) :
    e ∈ initialHouse ↔ ∃ j, j < 9 ∧
      e = (j + 1, ({0, 1, 2, 3, 4, 5, 6, 7, 8} : Finset ℕ)) := by
  unfold initialHouse
  rw [List.mem_map]
  constructor
  · rintro ⟨j, hj, rfl⟩
    rw [List.mem_range] at hj
    exact ⟨j, hj, rfl⟩
  · rintro ⟨j, hj, rfl⟩
    exact ⟨j, by rw [List.mem_range]; exact hj, rfl⟩

theorem hmFind_initialHouse (v : ℕ) :
    hmFind initialHouse v =
      if 1 ≤ v ∧ v ≤ 9 then
        some ({0, 1, 2, 3, 4, 5, 6, 7, 8} : Finset ℕ)
      else none := by
  by_cases h : 1 ≤ v ∧ v ≤ 9
  · rw [if_pos h]
    obtain ⟨h1, h2⟩ := h
    interval_cases v <;> decide
  · rw [if_neg h]
    unfold hmFind
    have hfind : initialHouse.find? (fun e => e.1 == v) = none := by
      rw [List.find?_eq_none]
      intro e he
      obtain ⟨j, hj, rfl⟩ := (mem_initialHouse e).1 he
      simp only [beq_iff_eq]
      omega
    rw [hfind]
    rfl

theorem houseOf_initSolver (p : Puzzle) (k i : ℕ) :
    houseOf (initSolver p) k i = initialHouse := by
  unfold houseOf initSolver
  split
  · rfl
  · split <;> rfl

/-- The given cells of a puzzle: the initial pending set of
`initializeCandidates`. -/
def givenCells (p : Puzzle) : Finset (ℕ × ℕ) :=
  (Finset.range 9 ×ˢ Finset.range 9).filter
    (fun rc => (p.grid rc.1 rc.2).given = true)

/-- A puzzle as produced by parsing (`NewPuzzle` plus `GivenValue`
calls): unsolved cells carry the full candidate set and are not
givens; solved cells are givens with cleared candidates. -/
def InitPuzzle (p : Puzzle) : Prop :=
  ∀ x, x < 9 → ∀ y, y < 9 →
    ((p.grid x y).value = 0 →
      (p.grid x y).cands = fullCands ∧ (p.grid x y).given = false) ∧
    ((p.grid x y).value ≠ 0 →
      (p.grid x y).cands = ∅ ∧ (p.grid x y).given = true)

instance (p : Puzzle) : Decidable (InitPuzzle p) := by
  unfold InitPuzzle
  infer_instance

theorem mem_givenCells (p : Puzzle) (a : ℕ × ℕ) :
    a ∈ givenCells p ↔
      a.1 < 9 ∧ a.2 < 9 ∧ (p.grid a.1 a.2).given = true := by
  unfold givenCells
  rw [Finset.mem_filter, Finset.mem_product, Finset.mem_range,
    Finset.mem_range]
  tauto

/-- The fresh solver state of a parsed puzzle satisfies the
generalized invariant with the givens pending. -/
theorem ginv_init (p : Puzzle) (hp : InitPuzzle p) :
    GInvP (initSolver p) (givenCells p) NoE := by
  have h08 : ({0, 1, 2, 3, 4, 5, 6, 7, 8} : Finset ℕ) = Finset.range 9 := by
    decide
  constructor
  · intro rc hrc
    obtain ⟨hx, hy, hg⟩ := (mem_givenCells p rc).1 hrc
    show (p.grid rc.1 rc.2).cands = ∅
    by_cases hv : (p.grid rc.1 rc.2).value = 0
    · have hfalse := ((hp rc.1 hx rc.2 hy).1 hv).2
      rw [hfalse] at hg
      exact absurd hg (by simp)
    · exact ((hp rc.1 hx rc.2 hy).2 hv).1
  · intro k hk i hi
    have hhp : ∀ l, l < 9 →
        (housePos k i l).1 < 9 ∧ (housePos k i l).2 < 9 :=
      fun l hl => housePos_lt k i l hk hi hl
    have hmemCand : ∀ l w, l ∈ candLocs (initSolver p) k i w ↔
        l < 9 ∧ w ∈ (p.grid (housePos k i l).1 (housePos k i l).2).cands := by
      intro l w
      unfold candLocs cellOf
      rw [Finset.mem_filter, Finset.mem_range]
      exact Iff.rfl
    have hmemPend : ∀ l, l ∈ pendLocs (givenCells p) k i ↔
        l < 9 ∧ housePos k i l ∈ givenCells p := by
      intro l
      unfold pendLocs
      rw [Finset.mem_filter, Finset.mem_range]
    refine ⟨?_, ?_, fun v hv => hv.elim⟩
    · intro e he
      rw [houseOf_initSolver] at he
      obtain ⟨j, hj, rfl⟩ := (mem_initialHouse e).1 he
      show ({0, 1, 2, 3, 4, 5, 6, 7, 8} : Finset ℕ) \
        pendLocs (givenCells p) k i = candLocs (initSolver p) k i (j + 1)
      rw [h08]
      ext l
      rw [Finset.mem_sdiff, Finset.mem_range, hmemPend l,
        hmemCand l (j + 1)]
      constructor
      · rintro ⟨hl, hnp⟩
        refine ⟨hl, ?_⟩
        obtain ⟨ha, hb⟩ := hhp l hl
        by_cases hv : (p.grid (housePos k i l).1 (housePos k i l).2).value
            = 0
        · have hfull := ((hp _ ha _ hb).1 hv).1
          rw [hfull, mem_fullCands]
          omega
        · have hg := ((hp _ ha _ hb).2 hv).2
          exact absurd ⟨hl, (mem_givenCells p _).2 ⟨ha, hb, hg⟩⟩ hnp
      · rintro ⟨hl, hmem⟩
        refine ⟨hl, ?_⟩
        rintro ⟨-, hginG⟩
        obtain ⟨ha, hb, hg⟩ := (mem_givenCells p _).1 hginG
        have hv : (p.grid (housePos k i l).1 (housePos k i l).2).value
            ≠ 0 := by
          intro hv0
          have hfalse := ((hp _ ha _ hb).1 hv0).2
          rw [hfalse] at hg
          exact absurd hg (by simp)
        have hempty := ((hp _ ha _ hb).2 hv).1
        rw [hempty] at hmem
        exact absurd hmem (Finset.not_mem_empty _)
    · intro l hl hv0 hlP w hE
      obtain ⟨ha, hb⟩ := hhp l hl
      have hv0' : (p.grid (housePos k i l).1 (housePos k i l).2).value
          = 0 := hv0
      have hfull := ((hp _ ha _ hb).1 hv0').1
      rw [houseOf_initSolver, hmFind_initialHouse]
      show w ∈ (p.grid (housePos k i l).1 (housePos k i l).2).cands ↔ _
      rw [hfull, mem_fullCands]
      by_cases hw : 1 ≤ w ∧ w ≤ 9
      · rw [if_pos hw]
        constructor
        · intro
          exact ⟨_, rfl, by rw [h08, Finset.mem_range]; exact hl⟩
        · intro
          exact hw
      · rw [if_neg hw]
        constructor
        · intro habs
          exact absurd habs hw
        · rintro ⟨S, hS, -⟩
          exact absurd hS (by simp)

/-- Invariant for the `initializeCandidates` loop: the pending set is
the set of given cells not yet processed. -/
theorem initGo_inv (f : ℕ) (p : Puzzle) :
    ∀ (l : List (ℕ × ℕ)) (s t : SolverSt),
      (∀ a ∈ l, a.1 < 9 ∧ a.2 < 9) →
      (∀ x y, (s.puzzle.grid x y).given = (p.grid x y).given) →
      GInvP s (l.toFinset ∩ givenCells p) NoE →
      srFoldl (fun t pos =>
        if (t.puzzle.grid pos.1 pos.2).given then
          elimF f t pos.1 pos.2 (t.puzzle.grid pos.1 pos.2).value
        else .ok t) l (.ok s) = .ok t →
      GInvP t ∅ NoE := by
  intro l
  induction l with
  | nil =>
    intro s t _ _ hinv hrun
    have heq : s = t := by
      have h' : SR.ok s = SR.ok t := hrun
      injection h'
    subst heq
    rw [List.toFinset_nil, Finset.empty_inter] at hinv
    exact hinv
  | cons a l ih =>
    intro s t hb hflag hinv hrun
    rw [srFoldl_cons] at hrun
    obtain ⟨ha1, ha2⟩ := hb a (List.mem_cons_self a l)
    by_cases hg : (s.puzzle.grid a.1 a.2).given = true
    · rw [if_pos hg] at hrun
      cases hres : elimF f s a.1 a.2 (s.puzzle.grid a.1 a.2).value with
      | out =>
        rw [hres, srFoldl_stuck _ _ _ (Or.inl rfl)] at hrun
        exact absurd hrun (by simp)
      | fatal =>
        rw [hres, srFoldl_stuck _ _ _ (Or.inr rfl)] at hrun
        exact absurd hrun (by simp)
      | ok s' =>
        rw [hres] at hrun
        have haG : a ∈ givenCells p :=
          (mem_givenCells p a).2 ⟨ha1, ha2,
            by rw [← hflag a.1 a.2]; exact hg⟩
        rw [List.toFinset_cons, Finset.insert_inter_of_mem haG] at hinv
        have hG' := (ginvB f).2.2 (l.toFinset ∩ givenCells p) NoE s a.1
          a.2 (s.puzzle.grid a.1 a.2).value s' ha1 ha2 hinv hres
        have hev := ((evolvesA f).2.2 s a.1 a.2
          (s.puzzle.grid a.1 a.2).value s' hres).1
        have hflag' : ∀ x y,
            (s'.puzzle.grid x y).given = (p.grid x y).given :=
          fun x y => by rw [hev.2.2.1 x y, hflag x y]
        exact ih s' t (fun b hb' => hb b (List.mem_cons_of_mem a hb'))
          hflag' hG' hrun
    · rw [if_neg hg] at hrun
      have haG : a ∉ givenCells p := by
        intro hmem
        obtain ⟨-, -, hg'⟩ := (mem_givenCells p a).1 hmem
        rw [← hflag a.1 a.2] at hg'
        exact hg hg'
      rw [List.toFinset_cons, Finset.insert_inter_of_not_mem haG] at hinv
      exact ih s t (fun b hb' => hb b (List.mem_cons_of_mem a hb'))
        hflag hinv hrun

theorem gridCellList_inter (p : Puzzle) :
    gridCellList.toFinset ∩ givenCells p = givenCells p := by
  apply Finset.inter_eq_right.2
  intro a ha
  rw [List.mem_toFinset, mem_gridCellList]
  obtain ⟨h1, h2, -⟩ := (mem_givenCells p a).1 ha
  exact ⟨h1, h2⟩

/-- C1's equivalence in its direct form: every house entry equals the
set of local indices whose cell holds the value as candidate, and
every unsolved cell's candidate set equals the set of values whose
entry lists the cell. -/
def Mirror (s : SolverSt) : Prop :=
  ∀ k, k < 3 → ∀ i, i < 9 →
    (∀ e ∈ houseOf s k i, e.2 = candLocs s k i e.1) ∧
    (∀ l, l < 9 → (cellOf s k i l).value = 0 →
      ∀ v, v ∈ (cellOf s k i l).cands ↔
        ∃ S, hmFind (houseOf s k i) v = some S ∧ l ∈ S)

theorem inv_iff_mirror (s : SolverSt) : Inv s ↔ Mirror s := by
  unfold Inv GInvP Mirror
  constructor
  · rintro ⟨-, h2⟩ k hk i hi
    obtain ⟨h2a, h2b, -⟩ := h2 k hk i hi
    refine ⟨fun e he => ?_, fun l hl hv0 v => ?_⟩
    · have hbase := h2a e he
      rw [pendLocs_empty, Finset.sdiff_empty] at hbase
      exact hbase
    · exact h2b l hl hv0 (Finset.not_mem_empty _) v (fun h => h)
  · intro h
    refine ⟨fun rc hrc => absurd hrc (Finset.not_mem_empty rc),
      fun k hk i hi => ?_⟩
    obtain ⟨h2a, h2b⟩ := h k hk i hi
    refine ⟨fun e he => ?_,
      fun l hl hv0 hlP v hE => h2b l hl hv0 v,
      fun v hv => hv.elim⟩
    rw [pendLocs_empty, Finset.sdiff_empty]
    exact h2a e he

/-- From the plain invariant, a cell with cleared candidates can be
moved into the pending set (the precondition under which
`eliminateCandidates` is invoked after a placement). -/
theorem inv_insert_cleared (s : SolverSt) (r c : ℕ) (hr : r < 9)
    (hc : c < 9) (hinv : Inv s)
    (hempty : (s.puzzle.grid r c).cands = ∅) :
    GInvP s (insert (r, c) ∅) NoE := by
  obtain ⟨-, h2⟩ := hinv
  constructor
  · intro rc hrc
    rcases Finset.mem_insert.1 hrc with heq | habs
    · rw [heq]
      exact hempty
    · exact absurd habs (Finset.not_mem_empty rc)
  · intro k hk i hi
    obtain ⟨h2a, h2b, h2c⟩ := h2 k hk i hi
    refine ⟨?_, ?_, h2c⟩
    · intro e he
      have hbase := h2a e he
      rw [pendLocs_empty, Finset.sdiff_empty] at hbase
      rw [pendLocs_insert ∅ r c k i hk hi hr hc]
      by_cases hsel : houseSel k i r c
      · rw [if_pos hsel, pendLocs_empty, sdiff_insert_erase,
          Finset.sdiff_empty, hbase]
        apply Finset.erase_eq_of_not_mem
        intro habs
        unfold candLocs at habs
        rw [Finset.mem_filter] at habs
        have hcl : cellOf s k i (locIdx k r c) = s.puzzle.grid r c := by
          unfold cellOf
          rw [housePos_locIdx k i r c hk hi hr hc hsel]
        rw [hcl, hempty] at habs
        exact absurd habs.2 (Finset.not_mem_empty _)
      · rw [if_neg hsel, pendLocs_empty, Finset.sdiff_empty, hbase]
    · intro l hl hv0 hlP v hE
      exact h2b l hl hv0 (Finset.not_mem_empty _) v hE

/-- C1: the two candidate representations mirror each other at every
quiescent point.  `Mirror` (each house entry `unsolved[v]` equals the
set of local indices whose cell has `v` as candidate, and each
unsolved cell's candidate set equals the set of values whose entry
lists it) holds after `NewSolver` initialization of a parsed puzzle,
and is preserved by `removeCellCandidate`, by `PlaceValue`, by
`eliminateCandidates` when invoked on a cell with cleared candidates
(as after every placement), and by applying a step's deleted
candidates. -/
theorem c1_candidate_mirror (f : ℕ) (p : Puzzle) (hp : InitPuzzle p) :
    (∀ t, newSolverF f p = .ok t → Mirror t) ∧
    (∀ s r c v t, r < 9 → c < 9 → Mirror s →
      rccF f s r c v = .ok t → Mirror t) ∧
    (∀ s r c v t, r < 9 → c < 9 → Mirror s →
      pvF f s r c v = .ok t → Mirror t) ∧
    (∀ s r c v t, r < 9 → c < 9 → Mirror s →
      (s.puzzle.grid r c).cands = ∅ →
      elimF f s r c v = .ok t → Mirror t) ∧
    (∀ s ds t, (∀ d ∈ ds, d.1 < 9 ∧ d.2.1 < 9) → Mirror s →
      applyStepF f s ds = .ok t → Mirror t) := by
  refine ⟨?_, ?_, ?_, ?_, ?_⟩
  · intro t hrun
    unfold newSolverF initGo at hrun
    have hinv0 : GInvP (initSolver p)
        (gridCellList.toFinset ∩ givenCells p) NoE := by
      rw [gridCellList_inter]
      exact ginv_init p hp
    have hfin := initGo_inv f p gridCellList (initSolver p) t
      (fun a ha => (mem_gridCellList a).1 ha) (fun x y => rfl) hinv0 hrun
    exact (inv_iff_mirror t).1 hfin
  · intro s r c v t hr hc hm hrun
    exact (inv_iff_mirror t).1 ((ginvB f).2.1 ∅ NoE s r c v t hr hc
      ((inv_iff_mirror s).2 hm) hrun)
  · intro s r c v t hr hc hm hrun
    exact (inv_iff_mirror t).1 ((ginvB f).1 ∅ NoE s r c v t hr hc
      ((inv_iff_mirror s).2 hm) hrun)
  · intro s r c v t hr hc hm hempty hrun
    exact (inv_iff_mirror t).1 ((ginvB f).2.2 ∅ NoE s r c v t hr hc
      (inv_insert_cleared s r c hr hc ((inv_iff_mirror s).2 hm) hempty)
      hrun)
  · intro s ds t hb hm hrun
    unfold applyStepF at hrun
    have hstep : ∀ (u : SolverSt) (d : ℕ × ℕ × ℕ) (t' : SolverSt),
        d ∈ ds → Inv u → rccF f u d.1 d.2.1 d.2.2 = .ok t' →
        Inv t' ∧ Evolves u t' ∧ True := by
      intro u d t' hd hIu hrun'
      obtain ⟨h1, h2⟩ := hb d hd
      exact ⟨(ginvB f).2.1 ∅ NoE u d.1 d.2.1 d.2.2 t' h1 h2 hIu hrun',
        ((evolvesA f).2.1 u d.1 d.2.1 d.2.2 t' hrun').1, trivial⟩
    have happ := srFoldl_facts (fun t d => rccF f t d.1 d.2.1 d.2.2)
      (fun u => Inv u) (fun _ _ => True) ds s t
    have hfacts := happ hstep (fun _ _ _ _ _ => trivial)
      ((inv_iff_mirror s).2 hm) hrun
    exact (inv_iff_mirror t).1 hfacts.1

/-- Witness for C1: the freshly parsed empty puzzle satisfies the
hypothesis, and the theorem yields the invariant after
initialization. -/
theorem c1_candidate_mirror_witness :
    InitPuzzle newPuzzle ∧
      (∀ t, newSolverF 0 newPuzzle = .ok t → Mirror t) :=
  ⟨by decide, (c1_candidate_mirror 0 newPuzzle (by decide)).1⟩

/-! ### Termination of the naked-single cascade (C9) -/

/-- Candidate hygiene: no cell offers `0` as a candidate (true of every
reachable state, since candidate sets start at `1..9` and only
shrink). -/
def GoodCands (s : SolverSt) : Prop :=
  ∀ x y, 0 ∉ (s.puzzle.grid x y).cands

theorem goodCands_mono {s t : SolverSt} (hev : Evolves s t)
    (hg : GoodCands s) : GoodCands t :=
  fun x y hmem => hg x y (hev.1 x y hmem)

theorem unsolvedCells_pos (p : Puzzle) (r c : ℕ) (hr : r < 9) (hc : c < 9)
    (hv : (p.grid r c).value = 0) : 1 ≤ unsolvedCells p :=
  Finset.card_pos.2 ⟨(r, c), Finset.mem_filter.2
    ⟨Finset.mem_product.2 ⟨Finset.mem_range.2 hr, Finset.mem_range.2 hc⟩,
      hv⟩⟩

theorem unsolvedCells_le_81 (p : Puzzle) : unsolvedCells p ≤ 81 :=
  (Finset.card_filter_le _ _).trans
    (by rw [Finset.card_product, Finset.card_range])

/-- A successful placement of a nonzero digit strictly decreases the
number of unsolved cells. -/
theorem unsolvedCells_placed (p : Puzzle) (r c v : ℕ) (hr : r < 9)
    (hc : c < 9) (hv0 : (p.grid r c).value = 0) (hv : v ≠ 0) :
    unsolvedCells (placedState p r c v) = unsolvedCells p - 1 := by
  unfold unsolvedCells
  have hfil : (Finset.range 9 ×ˢ Finset.range 9).filter
      (fun rc => ((placedState p r c v).grid rc.1 rc.2).value = 0) =
      ((Finset.range 9 ×ˢ Finset.range 9).filter
        (fun rc => (p.grid rc.1 rc.2).value = 0)).erase (r, c) := by
    ext rc
    rw [Finset.mem_erase, Finset.mem_filter, Finset.mem_filter]
    constructor
    · rintro ⟨hmem, hval⟩
      rw [grid_placedState] at hval
      by_cases hx : rc.1 = r ∧ rc.2 = c
      · rw [if_pos hx] at hval
        exact absurd hval hv
      · rw [if_neg hx] at hval
        exact ⟨fun heq => hx ⟨by rw [heq], by rw [heq]⟩, hmem, hval⟩
    · rintro ⟨hne, hmem, hval⟩
      refine ⟨hmem, ?_⟩
      rw [grid_placedState, if_neg ?_]
      · exact hval
      · rintro ⟨h1, h2⟩
        exact hne (Prod.ext h1 h2)
  rw [hfil, Finset.card_erase_of_mem]
  exact Finset.mem_filter.2 ⟨Finset.mem_product.2
    ⟨Finset.mem_range.2 hr, Finset.mem_range.2 hc⟩, hv0⟩

theorem evolves_unsolvedCells {s t : SolverSt} (hev : Evolves s t) :
    unsolvedCells t.puzzle ≤ unsolvedCells s.puzzle := by
  unfold unsolvedCells
  apply Finset.card_le_card
  intro rc hrc
  rw [Finset.mem_filter] at hrc ⊢
  refine ⟨hrc.1, ?_⟩
  by_contra hne
  have heq := hev.2.1 rc.1 rc.2 hne
  rw [heq] at hrc
  exact hne hrc.2

theorem unsolvedCells_rccState (s : SolverSt) (r c v : ℕ) :
    unsolvedCells (rccState s r c v).puzzle = unsolvedCells s.puzzle := by
  unfold unsolvedCells
  simp only [value_rccState]

/-! Equations of `pvF` by the result of `puzzle.PlaceValue`. -/

theorem pvF_fatal (f : ℕ) (s : SolverSt) (r c v : ℕ)
    (hp : s.puzzle.placeValue r c v = .fatal) : pvF f s r c v = .fatal := by
  unfold pvF
  rw [hp]

theorem pvF_ok_false (f : ℕ) (s : SolverSt) (r c v : ℕ) (p' : Puzzle)
    (hp : s.puzzle.placeValue r c v = .ok (false, p')) :
    pvF f s r c v = .ok s := by
  unfold pvF
  rw [hp]
  rfl

theorem pvF_ok_true_succ (f : ℕ) (s : SolverSt) (r c v : ℕ) (p' : Puzzle)
    (hp : s.puzzle.placeValue r c v = .ok (true, p')) :
    pvF (f + 1) s r c v = elimF f { s with puzzle := p' } r c v := by
  unfold pvF
  rw [hp]
  rfl

/-- Running a fold with two pointwise-equal, never-out step functions
from the same seed gives equal, never-out results. -/
theorem srFoldl_eq {α : Type} (h h' : SolverSt → α → SR)
    (I : SolverSt → Prop) :
    ∀ (l : List α) (s : SolverSt),
      (∀ u a, a ∈ l → I u → h u a = h' u a ∧ h u a ≠ .out ∧
        (∀ t', h u a = .ok t' → I t')) →
      I s →
      srFoldl h l (.ok s) = srFoldl h' l (.ok s) ∧
        srFoldl h l (.ok s) ≠ .out := by
  intro l
  induction l with
  | nil =>
    intro s _ _
    exact ⟨rfl, by simp [srFoldl]⟩
  | cons a l ih =>
    intro s hstep hI
    obtain ⟨heq, hne, hpres⟩ := hstep s a (List.mem_cons_self a l) hI
    rw [srFoldl_cons, srFoldl_cons, ← heq]
    cases ha : h s a with
    | out => exact absurd ha hne
    | fatal =>
      rw [srFoldl_stuck _ _ _ (Or.inr rfl),
        srFoldl_stuck _ _ _ (Or.inr rfl)]
      exact ⟨rfl, by simp⟩
    | ok s' =>
      exact ih s' (fun u b hb hu => hstep u b (List.mem_cons_of_mem a hb) hu)
        (hpres s' ha)

/-- Fuel stability of `removeCellCandidate`, given that of
`PlaceValue`. -/
theorem stab_rcc (f : ℕ)
    (hpv : ∀ s r c v, GoodCands s → r < 9 → c < 9 → v ≠ 0 →
      unsolvedCells s.puzzle ≤ f →
      pvF (f + 1) s r c v = pvF f s r c v ∧ pvF f s r c v ≠ .out) :
    ∀ s r c v, GoodCands s → r < 9 → c < 9 → v ≠ 0 →
      unsolvedCells s.puzzle ≤ f →
      rccF (f + 1) s r c v = rccF f s r c v ∧ rccF f s r c v ≠ .out := by
  intro s r c v hg hr hc hv hf
  unfold rccF rccGo
  by_cases h1 : (s.puzzle.grid r c).solved ∨
      ¬ (s.puzzle.grid r c).hasCand v
  · rw [if_pos h1, if_pos h1]
    exact ⟨rfl, by simp⟩
  · rw [if_neg h1, if_neg h1]
    push_neg at h1
    by_cases h2 : ((s.puzzle.grid r c).cands.erase v).card = 1
    · rw [dif_pos h2, dif_pos h2]
      apply hpv
      · exact goodCands_mono (evolves_rccState s r c v h1.1) hg
      · exact hr
      · exact hc
      · intro h0
        have hwmem : ((s.puzzle.grid r c).cands.erase v).min'
            (Finset.card_pos.mp (by omega)) ∈
            (s.puzzle.grid r c).cands.erase v := Finset.min'_mem _ _
        rw [h0] at hwmem
        exact hg r c (Finset.mem_of_mem_erase hwmem)
      · rw [unsolvedCells_rccState]
        exact hf
    · rw [dif_neg h2, dif_neg h2]
      exact ⟨rfl, by simp⟩

/-- Fuel stability of `eliminateCandidates`, given that of
`removeCellCandidate`. -/
theorem stab_elim (f : ℕ)
    (hrcc : ∀ s r c v, GoodCands s → r < 9 → c < 9 → v ≠ 0 →
      unsolvedCells s.puzzle ≤ f →
      rccF (f + 1) s r c v = rccF f s r c v ∧ rccF f s r c v ≠ .out) :
    ∀ s r c v, GoodCands s → r < 9 → c < 9 → v ≠ 0 →
      unsolvedCells s.puzzle ≤ f →
      elimF (f + 1) s r c v = elimF f s r c v ∧ elimF f s r c v ≠ .out := by
  intro s r c v hg hr hc hv hf
  unfold elimF elimGo
  have hstep : ∀ (u : SolverSt) (a : ℕ × ℕ), a ∈ elimCells r c →
      (GoodCands u ∧ unsolvedCells u.puzzle ≤ f) →
      rccGo (pvF f) u a.1 a.2 v = rccGo (pvF (f + 1)) u a.1 a.2 v ∧
      rccGo (pvF f) u a.1 a.2 v ≠ .out ∧
      (∀ t', rccGo (pvF f) u a.1 a.2 v = .ok t' →
        GoodCands t' ∧ unsolvedCells t'.puzzle ≤ f) := by
    intro u a ha hu
    obtain ⟨ha1, ha2⟩ := elimCells_bound r c hr hc a ha
    have hR := hrcc u a.1 a.2 v hu.1 ha1 ha2 hv hu.2
    refine ⟨?_, ?_, ?_⟩
    · show rccF f u a.1 a.2 v = rccF (f + 1) u a.1 a.2 v
      exact hR.1.symm
    · show rccF f u a.1 a.2 v ≠ .out
      exact hR.2
    · intro t' hok
      have hok' : rccF f u a.1 a.2 v = .ok t' := hok
      have hev := ((evolvesA f).2.1 u a.1 a.2 v t' hok').1
      exact ⟨goodCands_mono hev hu.1,
        (evolves_unsolvedCells hev).trans hu.2⟩
  have happ := srFoldl_eq (fun t pos => rccGo (pvF f) t pos.1 pos.2 v)
    (fun t pos => rccGo (pvF (f + 1)) t pos.1 pos.2 v)
    (fun u => GoodCands u ∧ unsolvedCells u.puzzle ≤ f)
    (elimCells r c) (elimState s r c v)
  have hout := happ hstep ⟨hg, hf⟩
  exact ⟨hout.1.symm, hout.2⟩

/-- Fuel-stability ladder: with fuel at least the number of unsolved
cells, one more unit of fuel changes nothing and the fuel never runs
out. -/
theorem stabC9 (f : ℕ) :
    (∀ s r c v, GoodCands s → r < 9 → c < 9 → v ≠ 0 →
      unsolvedCells s.puzzle ≤ f →
      pvF (f + 1) s r c v = pvF f s r c v ∧ pvF f s r c v ≠ .out) ∧
    (∀ s r c v, GoodCands s → r < 9 → c < 9 → v ≠ 0 →
      unsolvedCells s.puzzle ≤ f →
      rccF (f + 1) s r c v = rccF f s r c v ∧ rccF f s r c v ≠ .out) ∧
    (∀ s r c v, GoodCands s → r < 9 → c < 9 → v ≠ 0 →
      unsolvedCells s.puzzle ≤ f →
      elimF (f + 1) s r c v = elimF f s r c v ∧
        elimF f s r c v ≠ .out) := by
  induction f with
  | zero =>
    have hpv : ∀ s r c v, GoodCands s → r < 9 → c < 9 → v ≠ 0 →
        unsolvedCells s.puzzle ≤ 0 →
        pvF 1 s r c v = pvF 0 s r c v ∧ pvF 0 s r c v ≠ .out := by
      intro s r c v hg hr hc hv hf
      cases hp : s.puzzle.placeValue r c v with
      | fatal =>
        rw [pvF_fatal 1 s r c v hp, pvF_fatal 0 s r c v hp]
        exact ⟨rfl, by simp⟩
      | ok bp =>
        obtain ⟨b, p'⟩ := bp
        cases b with
        | false =>
          rw [pvF_ok_false 1 s r c v p' hp, pvF_ok_false 0 s r c v p' hp]
          exact ⟨rfl, by simp⟩
        | true =>
          exfalso
          obtain ⟨hu, -⟩ := placeValue_ok_true s.puzzle r c v p' hp
          have hval : (s.puzzle.grid r c).value = 0 := by
            unfold Cell.solved at hu
            push_neg at hu
            exact hu
          have := unsolvedCells_pos s.puzzle r c hr hc hval
          omega
    exact ⟨hpv, stab_rcc 0 hpv, stab_elim 0 (stab_rcc 0 hpv)⟩
  | succ n ih =>
    have hpv : ∀ s r c v, GoodCands s → r < 9 → c < 9 → v ≠ 0 →
        unsolvedCells s.puzzle ≤ n + 1 →
        pvF (n + 1 + 1) s r c v = pvF (n + 1) s r c v ∧
          pvF (n + 1) s r c v ≠ .out := by
      intro s r c v hg hr hc hv hf
      cases hp : s.puzzle.placeValue r c v with
      | fatal =>
        rw [pvF_fatal (n + 1 + 1) s r c v hp, pvF_fatal (n + 1) s r c v hp]
        exact ⟨rfl, by simp⟩
      | ok bp =>
        obtain ⟨b, p'⟩ := bp
        cases b with
        | false =>
          rw [pvF_ok_false (n + 1 + 1) s r c v p' hp,
            pvF_ok_false (n + 1) s r c v p' hp]
          exact ⟨rfl, by simp⟩
        | true =>
          obtain ⟨hu, rfl⟩ := placeValue_ok_true s.puzzle r c v p' hp
          have hval : (s.puzzle.grid r c).value = 0 := by
            unfold Cell.solved at hu
            push_neg at hu
            exact hu
          rw [pvF_ok_true_succ (n + 1) s r c v _ hp,
            pvF_ok_true_succ n s r c v _ hp]
          have hg' : GoodCands
              { s with puzzle := placedState s.puzzle r c v } :=
            goodCands_mono (evolves_place s r c v hu) hg
          have hmu : unsolvedCells
              ({ s with puzzle := placedState s.puzzle r c v } :
                SolverSt).puzzle ≤ n := by
            show unsolvedCells (placedState s.puzzle r c v) ≤ n
            rw [unsolvedCells_placed s.puzzle r c v hr hc hval hv]
            omega
          exact ih.2.2 _ r c v hg' hr hc hv hmu
    exact ⟨hpv, stab_rcc (n + 1) hpv, stab_elim (n + 1) (stab_rcc (n + 1) hpv)⟩

/-- With candidate hygiene, the result of `PlaceValue` is independent
of the fuel once it reaches the number of unsolved cells. -/
theorem pvF_eq_of_le (s : SolverSt) (r c v : ℕ) (hg : GoodCands s)
    (hr : r < 9) (hc : c < 9) (hv : v ≠ 0) :
    ∀ f g, unsolvedCells s.puzzle ≤ f → f ≤ g →
      pvF g s r c v = pvF f s r c v := by
  intro f g hf hfg
  induction g, hfg using Nat.le_induction with
  | base => rfl
  | succ g hfg ih =>
    rw [← ih]
    exact ((stabC9 g).1 s r c v hg hr hc hv (hf.trans hfg)).1

/-- C9: the naked-single cascade terminates on every input.  In the
fuel model, `PlaceValue` with fuel at least the number of unsolved
cells never exhausts its fuel (each nested placement strictly
decreases the unsolved count), its result no longer depends on the
fuel, and the unsolved count — hence the depth of nested placements —
is bounded by 81. -/
theorem c9_cascade_bounded (f : ℕ) (s : SolverSt) (r c v : ℕ)
    (hg : GoodCands s) (hr : r < 9) (hc : c < 9) (hv : v ≠ 0)
    (hf : unsolvedCells s.puzzle ≤ f) :
    pvF f s r c v ≠ .out ∧
    pvF f s r c v = pvF (unsolvedCells s.puzzle) s r c v ∧
    unsolvedCells s.puzzle ≤ 81 :=
  ⟨((stabC9 f).1 s r c v hg hr hc hv hf).2,
    pvF_eq_of_le s r c v hg hr hc hv (unsolvedCells s.puzzle) f
      le_rfl hf,
    unsolvedCells_le_81 s.puzzle⟩

/-- Witness for C9 at the fresh empty puzzle: fuel 81 suffices for any
placement. -/
theorem c9_cascade_bounded_witness :
    GoodCands (initSolver newPuzzle) ∧ (0 : ℕ) < 9 ∧ (5 : ℕ) ≠ 0 ∧
      unsolvedCells (initSolver newPuzzle).puzzle ≤ 81 ∧
      (pvF 81 (initSolver newPuzzle) 0 0 5 ≠ .out ∧
        pvF 81 (initSolver newPuzzle) 0 0 5 =
          pvF (unsolvedCells (initSolver newPuzzle).puzzle)
            (initSolver newPuzzle) 0 0 5 ∧
        unsolvedCells (initSolver newPuzzle).puzzle ≤ 81) :=
  ⟨fun x y => (by decide : (0 : ℕ) ∉ newCell.cands), by decide, by decide,
    by decide,
    c9_cascade_bounded 81 (initSolver newPuzzle) 0 0 5
      (fun x y => (by decide : (0 : ℕ) ∉ newCell.cands)) (by decide)
      (by decide) (by decide) (by decide)⟩

/-! ### Dancing links: the pointer-level matrix state (C2) -/

/-- Pointer state of the dancing-links matrix.  Nodes are identified
by numerals; a column header is identified with its column.  `L`,
`R`, `U`, `D` are the four links of each node, `col` the owning
column of each node (a `Node.Column` pointer, never mutated), and
`size` the per-column node count. -/
@[ext] structure DLX where
  L : ℕ → ℕ
  R : ℕ → ℕ
  U : ℕ → ℕ
  D : ℕ → ℕ
  col : ℕ → ℕ
  size : ℕ → ℤ

/-- Body of `cover`'s inner loop: `j.Down.Up = j.Up; j.Up.Down =
j.Down; j.Column.Size--` (all right-hand sides read the pre-statement
state; the two pointer writes hit nodes other than `j`). -/
def unlinkV (j : ℕ) (s : DLX) : DLX :=
  { s with
    U := Function.update s.U (s.D j) (s.U j)
    D := Function.update s.D (s.U j) (s.D j)
    size := fun x => if x = s.col j then s.size x - 1 else s.size x }

/-- Body of `uncover`'s inner loop: `j.Column.Size++; j.Down.Up = j;
j.Up.Down = j`. -/
def linkV (j : ℕ) (s : DLX) : DLX :=
  { s with
    U := Function.update s.U (s.D j) j
    D := Function.update s.D (s.U j) j
    size := fun x => if x = s.col j then s.size x + 1 else s.size x }

/-- `col.Right.Left = col.Left; col.Left.Right = col.Right`. -/
def hUnlink (c : ℕ) (s : DLX) : DLX :=
  { s with
    L := Function.update s.L (s.R c) (s.L c)
    R := Function.update s.R (s.L c) (s.R c) }

/-- `col.Right.Left = &col.Node; col.Left.Right = &col.Node`. -/
def hLink (c : ℕ) (s : DLX) : DLX :=
  { s with
    L := Function.update s.L (s.R c) c
    R := Function.update s.R (s.L c) c }

/-- A fuelled pointer-chasing loop
`for x := start; x != stop; x = next(x) { body }`; the successor is
read after the body has run, as in Go. -/
def loopF (step : DLX → ℕ → DLX) (next : DLX → ℕ → ℕ) :
    ℕ → ℕ → DLX → ℕ → DLX
  | 0, _, s, _ => s
  | f + 1, stop, s, cur =>
    if cur = stop then s
    else loopF step next f stop (step s cur) (next (step s cur) cur)

/-- `DancingLinks.cover`: unlink the column header from the header
list, then walk down the column and unlink every other node of every
intersecting row from its own column. -/
def cover (f : ℕ) (c : ℕ) (s : DLX) : DLX :=
  loopF
    (fun t i => loopF (fun u j => unlinkV j u) (fun u j => u.R j)
      f i t (t.R i))
    (fun t i => t.D i) f c (hUnlink c s) ((hUnlink c s).D c)

/-- `DancingLinks.uncover`: walk up the column relinking every other
node of every intersecting row (rows in up order, nodes in left
order), then relink the column header. -/
def uncover (f : ℕ) (c : ℕ) (s : DLX) : DLX :=
  hLink c
    (loopF
      (fun t i => loopF (fun u j => linkV j u) (fun u j => u.L j)
        f i t (t.L i))
      (fun t i => t.U i) f c s (s.U c))

/-- Vertical link consistency at a node: its down/up neighbours point
back to it. -/
def OK2 (s : DLX) (x : ℕ) : Prop := s.U (s.D x) = x ∧ s.D (s.U x) = x

/-- Vertical links never leave a node's column. -/
def ColOK (s : DLX) : Prop :=
  ∀ x, s.col (s.D x) = s.col x ∧ s.col (s.U x) = s.col x

theorem unlinkV_L (j : ℕ) (s : DLX) : (unlinkV j s).L = s.L := rfl

theorem unlinkV_R (j : ℕ) (s : DLX) : (unlinkV j s).R = s.R := rfl

theorem unlinkV_col (j : ℕ) (s : DLX) : (unlinkV j s).col = s.col := rfl

theorem linkV_L (j : ℕ) (s : DLX) : (linkV j s).L = s.L := rfl

theorem linkV_col (j : ℕ) (s : DLX) : (linkV j s).col = s.col := rfl

theorem unlinkV_D_of_col (j x : ℕ) (s : DLX) (hcol : s.col (s.U j) ≠ s.col x)
    (hx : s.col x = s.col x) : True := trivial

/-- The vertical writes of `unlinkV j` hit only nodes of `j`'s
column. -/
theorem unlinkV_D_stable (j x : ℕ) (s : DLX) (hc : ColOK s)
    (hne : s.col j ≠ s.col x) :
    (unlinkV j s).D x = s.D x ∧ (unlinkV j s).U x = s.U x := by
  constructor
  · show Function.update s.D (s.U j) (s.D j) x = s.D x
    rw [Function.update_apply, if_neg]
    intro heq
    rw [heq] at hne
    exact hne (hc j).2.symm
  · show Function.update s.U (s.D j) (s.U j) x = s.U x
    rw [Function.update_apply, if_neg]
    intro heq
    rw [heq] at hne
    exact hne (hc j).1.symm

theorem ColOK_unlinkV (j : ℕ) (s : DLX) (hc : ColOK s) :
    ColOK (unlinkV j s) := by
  intro x
  constructor
  · show s.col (Function.update s.D (s.U j) (s.D j) x) = s.col x
    rw [Function.update_apply]
    by_cases h : x = s.U j
    · rw [if_pos h, h, (hc j).1, (hc j).2]
    · rw [if_neg h]
      exact (hc x).1
  · show s.col (Function.update s.U (s.D j) (s.U j) x) = s.col x
    rw [Function.update_apply]
    by_cases h : x = s.D j
    · rw [if_pos h, h, (hc j).2, (hc j).1]
    · rw [if_neg h]
      exact (hc x).2

theorem ColOK_linkV (j : ℕ) (s : DLX) (hc : ColOK s) :
    ColOK (linkV j s) := by
  intro x
  constructor
  · show s.col (Function.update s.D (s.U j) j x) = s.col x
    rw [Function.update_apply]
    by_cases h : x = s.U j
    · rw [if_pos h, h, (hc j).2]
    · rw [if_neg h]
      exact (hc x).1
  · show s.col (Function.update s.U (s.D j) j x) = s.col x
    rw [Function.update_apply]
    by_cases h : x = s.D j
    · rw [if_pos h, h, (hc j).1]
    · rw [if_neg h]
      exact (hc x).2

theorem linkV_D_stable (j x : ℕ) (s : DLX) (hc : ColOK s)
    (hne : s.col j ≠ s.col x) :
    (linkV j s).D x = s.D x ∧ (linkV j s).U x = s.U x := by
  constructor
  · show Function.update s.D (s.U j) j x = s.D x
    rw [Function.update_apply, if_neg]
    intro heq
    rw [heq] at hne
    exact hne (hc j).2.symm
  · show Function.update s.U (s.D j) j x = s.U x
    rw [Function.update_apply, if_neg]
    intro heq
    rw [heq] at hne
    exact hne (hc j).1.symm

/-- Relinking a node right after unlinking it restores the state
exactly, given that its vertical neighbours pointed back at it. -/
theorem linkV_unlinkV (s : DLX) (j : ℕ)
    (hU : s.U (s.D j) = j) (hD : s.D (s.U j) = j) :
    linkV j (unlinkV j s) = s := by
  have hDj : (unlinkV j s).D j = s.D j := by
    show Function.update s.D (s.U j) (s.D j) j = s.D j
    rw [Function.update_apply]
    exact ite_self _
  have hUj : (unlinkV j s).U j = s.U j := by
    show Function.update s.U (s.D j) (s.U j) j = s.U j
    rw [Function.update_apply]
    exact ite_self _
  refine DLX.ext rfl rfl ?_ ?_ rfl ?_
  · show Function.update (unlinkV j s).U ((unlinkV j s).D j) j = s.U
    rw [hDj]
    show Function.update (Function.update s.U (s.D j) (s.U j)) (s.D j) j
      = s.U
    rw [Function.update_idem]
    have hval : Function.update s.U (s.D j) j =
        Function.update s.U (s.D j) (s.U (s.D j)) := by rw [hU]
    rw [hval, Function.update_eq_self]
  · show Function.update (unlinkV j s).D ((unlinkV j s).U j) j = s.D
    rw [hUj]
    show Function.update (Function.update s.D (s.U j) (s.D j)) (s.U j) j
      = s.D
    rw [Function.update_idem]
    have hval : Function.update s.D (s.U j) j =
        Function.update s.D (s.U j) (s.D (s.U j)) := by rw [hD]
    rw [hval, Function.update_eq_self]
  · show (fun x => if x = (unlinkV j s).col j then
        (unlinkV j s).size x + 1 else (unlinkV j s).size x) = s.size
    funext x
    show (if x = s.col j then
        (if x = s.col j then s.size x - 1 else s.size x) + 1
      else (if x = s.col j then s.size x - 1 else s.size x)) = s.size x
    by_cases hx : x = s.col j
    · rw [if_pos hx, if_pos hx]
      ring
    · rw [if_neg hx, if_neg hx]

/-- Unlinking one node preserves the vertical consistency of every
other consistent node. -/
theorem OK2_unlinkV (s : DLX) (j x : ℕ) (hj : OK2 s j) (hx : OK2 s x)
    (hne : x ≠ j) : OK2 (unlinkV j s) x := by
  obtain ⟨hjU, hjD⟩ := hj
  obtain ⟨hxU, hxD⟩ := hx
  have hDD : s.D x = s.D j → x = j := fun h => by rw [← hxU, h, hjU]
  have hUU : s.U x = s.U j → x = j := fun h => by rw [← hxD, h, hjD]
  constructor
  · show Function.update s.U (s.D j) (s.U j)
      (Function.update s.D (s.U j) (s.D j) x) = x
    by_cases h1 : x = s.U j
    · rw [show Function.update s.D (s.U j) (s.D j) x = s.D j from by
        rw [Function.update_apply, if_pos h1]]
      rw [Function.update_apply, if_pos rfl]
      exact h1.symm
    · rw [show Function.update s.D (s.U j) (s.D j) x = s.D x from by
        rw [Function.update_apply, if_neg h1]]
      rw [Function.update_apply]
      by_cases h2 : s.D x = s.D j
      · exact absurd (hDD h2) hne
      · rw [if_neg h2]
        exact hxU
  · show Function.update s.D (s.U j) (s.D j)
      (Function.update s.U (s.D j) (s.U j) x) = x
    by_cases h1 : x = s.D j
    · rw [show Function.update s.U (s.D j) (s.U j) x = s.U j from by
        rw [Function.update_apply, if_pos h1]]
      rw [Function.update_apply, if_pos rfl]
      exact h1.symm
    · rw [show Function.update s.U (s.D j) (s.U j) x = s.U x from by
        rw [Function.update_apply, if_neg h1]]
      rw [Function.update_apply]
      by_cases h2 : s.U x = s.U j
      · exact absurd (hUU h2) hne
      · rw [if_neg h2]
        exact hxD

/-- Undoing a sequence of vertical unlinks in reverse order restores
the state exactly. -/
theorem foldl_linkV_unlinkV :
    ∀ (ps : List ℕ) (u : DLX), (∀ x ∈ ps, OK2 u x) → ps.Nodup →
      ps.reverse.foldl (fun t j => linkV j t)
        (ps.foldl (fun t j => unlinkV j t) u) = u := by
  intro ps
  induction ps with
  | nil => intro u _ _; rfl
  | cons j ps ih =>
    intro u hok hnd
    rw [List.foldl_cons, List.reverse_cons, List.foldl_append]
    rw [ih (unlinkV j u)
      (fun x hx => OK2_unlinkV u j x (hok j (List.mem_cons_self j ps))
        (hok x (List.mem_cons_of_mem j hx))
        (fun heq => (List.nodup_cons.1 hnd).1 (heq ▸ hx)))
      (List.nodup_cons.1 hnd).2]
    show linkV j (unlinkV j u) = u
    exact linkV_unlinkV u j (hok j (List.mem_cons_self j ps)).1
      (hok j (List.mem_cons_self j ps)).2

/-- Relinking the column header right after unlinking it restores the
state, given header-list consistency at the column. -/
theorem hLink_hUnlink (s : DLX) (c : ℕ)
    (hL : s.L (s.R c) = c) (hR : s.R (s.L c) = c) :
    hLink c (hUnlink c s) = s := by
  have hRc : (hUnlink c s).R c = s.R c := by
    show Function.update s.R (s.L c) (s.R c) c = s.R c
    rw [Function.update_apply]
    exact ite_self _
  have hLc : (hUnlink c s).L c = s.L c := by
    show Function.update s.L (s.R c) (s.L c) c = s.L c
    rw [Function.update_apply]
    exact ite_self _
  refine DLX.ext ?_ ?_ rfl rfl rfl rfl
  · show Function.update (hUnlink c s).L ((hUnlink c s).R c) c = s.L
    rw [hRc]
    show Function.update (Function.update s.L (s.R c) (s.L c)) (s.R c) c
      = s.L
    rw [Function.update_idem]
    have hval : Function.update s.L (s.R c) c =
        Function.update s.L (s.R c) (s.L (s.R c)) := by rw [hL]
    rw [hval, Function.update_eq_self]
  · show Function.update (hUnlink c s).R ((hUnlink c s).L c) c = s.R
    rw [hLc]
    show Function.update (Function.update s.R (s.L c) (s.R c)) (s.L c) c
      = s.R
    rw [Function.update_idem]
    have hval : Function.update s.R (s.L c) c =
        Function.update s.R (s.L c) (s.R (s.L c)) := by rw [hR]
    rw [hval, Function.update_eq_self]

/-- Pure pointer path: following `nf` from `a` traverses exactly the
nodes of `l` and ends at `b`. -/
def ChainP (nf : ℕ → ℕ) : ℕ → List ℕ → ℕ → Prop
  | a, [], b => a = b
  | a, x :: l, b => a = x ∧ ChainP nf (nf x) l b

/-- Loop traversal: a pointer path whose visited nodes all differ from
the loop's stop sentinel. -/
def Chain (nf : ℕ → ℕ) (a : ℕ) (l : List ℕ) (stop : ℕ) : Prop :=
  ChainP nf a l stop ∧ ∀ x ∈ l, x ≠ stop

theorem ChainP_append (nf : ℕ → ℕ) :
    ∀ (l₁ l₂ : List ℕ) (a b : ℕ),
      ChainP nf a (l₁ ++ l₂) b ↔
        ∃ m, ChainP nf a l₁ m ∧ ChainP nf m l₂ b := by
  intro l₁
  induction l₁ with
  | nil =>
    intro l₂ a b
    constructor
    · intro h
      exact ⟨a, rfl, h⟩
    · rintro ⟨m, hm, h⟩
      have hm' : a = m := hm
      rw [hm']
      exact h
  | cons x l ih =>
    intro l₂ a b
    constructor
    · rintro ⟨ha, h⟩
      obtain ⟨m, h1, h2⟩ := (ih l₂ (nf x) b).1 h
      exact ⟨m, ⟨ha, h1⟩, h2⟩
    · rintro ⟨m, ⟨ha, h1⟩, h2⟩
      exact ⟨ha, (ih l₂ (nf x) b).2 ⟨m, h1, h2⟩⟩

/-- Reversing a pointer path along the inverse links. -/
theorem ChainP_reverse (nf pf : ℕ → ℕ) :
    ∀ (l : List ℕ) (a b : ℕ),
      ChainP nf a l b → (∀ x ∈ l, pf (nf x) = x) →
      ChainP pf (pf b) l.reverse (pf a) := by
  intro l
  induction l with
  | nil =>
    intro a b h _
    show pf b = pf a
    rw [show a = b from h]
  | cons x l ih =>
    intro a b h hinv
    obtain ⟨rfl, hch⟩ := h
    have hrev := ih (nf a) b hch
      (fun y hy => hinv y (List.mem_cons_of_mem a hy))
    rw [List.reverse_cons, ChainP_append]
    refine ⟨pf (nf a), hrev, hinv a (List.mem_cons_self a l), ?_⟩
    show pf a = pf a
    rfl

/-- A fuelled pointer loop whose traversal is described by a stable
chain is the fold of its body over the chain's node list. -/
theorem loopF_eq_foldl (step : DLX → ℕ → DLX) (next : DLX → ℕ → ℕ)
    (nf : ℕ → ℕ) (I : DLX → Prop) :
    ∀ (l : List ℕ),
      (∀ u x, x ∈ l → I u → next (step u x) x = nf x ∧ I (step u x)) →
      ∀ (f stop : ℕ) (s : DLX) (cur : ℕ),
        l.length < f → Chain nf cur l stop → I s →
        loopF step next f stop s cur = l.foldl step s ∧
          I (l.foldl step s) := by
  intro l
  induction l with
  | nil =>
    intro _ f stop s cur hf hch hI
    have hcur : cur = stop := hch.1
    cases f with
    | zero => omega
    | succ f =>
      rw [show loopF step next (f + 1) stop s cur =
          if cur = stop then s
          else loopF step next f stop (step s cur)
            (next (step s cur) cur) from rfl, if_pos hcur]
      exact ⟨rfl, hI⟩
  | cons x l ih =>
    intro hstep f stop s cur hf hch hI
    obtain ⟨⟨rfl, hchp⟩, hne⟩ := hch
    have hxstop : cur ≠ stop := hne cur (List.mem_cons_self cur l)
    cases f with
    | zero => simp at hf
    | succ f =>
      rw [show loopF step next (f + 1) stop s cur =
          if cur = stop then s
          else loopF step next f stop (step s cur)
            (next (step s cur) cur) from rfl, if_neg hxstop]
      obtain ⟨hnx, hI'⟩ := hstep s cur (List.mem_cons_self cur l) hI
      rw [hnx, List.foldl_cons]
      have hf' : l.length < f := by
        simp only [List.length_cons] at hf
        omega
      exact ih (fun u y hy hu => hstep u y (List.mem_cons_of_mem cur hy) hu)
        f stop (step s cur) (nf cur) hf'
        ⟨hchp, fun y hy => hne y (List.mem_cons_of_mem cur hy)⟩ hI'

theorem foldl_flatMap {β : Type} (g : β → ℕ → β) (rows : ℕ → List ℕ) :
    ∀ (is : List ℕ) (b : β),
      (is.flatMap rows).foldl g b =
        is.foldl (fun t i => (rows i).foldl g t) b := by
  intro is
  induction is with
  | nil => intro b; rfl
  | cons i is ih =>
    intro b
    rw [List.flatMap_cons, List.foldl_append, List.foldl_cons, ih]

theorem reverse_flatMap (rows : ℕ → List ℕ) :
    ∀ (is : List ℕ),
      (is.flatMap rows).reverse =
        is.reverse.flatMap (fun i => (rows i).reverse) := by
  intro is
  induction is with
  | nil => rfl
  | cons i is ih =>
    rw [List.flatMap_cons, List.reverse_append, ih, List.reverse_cons,
      List.flatMap_append]
    simp

theorem hUnlink_R (c j : ℕ) (s : DLX) (hj : j ≠ s.L c) :
    (hUnlink c s).R j = s.R j := by
  show Function.update s.R (s.L c) (s.R c) j = s.R j
  rw [Function.update_apply, if_neg hj]

theorem hUnlink_L (c j : ℕ) (s : DLX) (hj : j ≠ s.R c) :
    (hUnlink c s).L j = s.L j := by
  show Function.update s.L (s.R c) (s.L c) j = s.L j
  rw [Function.update_apply, if_neg hj]

theorem linkV_R (j : ℕ) (s : DLX) : (linkV j s).R = s.R := rfl

/-- Stability invariant during `cover c`/`uncover c`: the horizontal
links stay as the header unlink left them, columns never change, the
vertical links stay column-closed, and the vertical links of column
`c`'s nodes are untouched. -/
def InvC (s : DLX) (c : ℕ) (t : DLX) : Prop :=
  t.L = (hUnlink c s).L ∧ t.R = (hUnlink c s).R ∧ t.col = s.col ∧
  ColOK t ∧ ∀ x, s.col x = c → t.D x = s.D x ∧ t.U x = s.U x

theorem InvC_unlinkV (s : DLX) (c j : ℕ) (hj : s.col j ≠ c) (u : DLX)
    (hI : InvC s c u) : InvC s c (unlinkV j u) := by
  obtain ⟨hL, hR, hcol, hok, hDU⟩ := hI
  refine ⟨?_, ?_, ?_, ColOK_unlinkV j u hok, ?_⟩
  · rw [unlinkV_L, hL]
  · rw [unlinkV_R, hR]
  · rw [unlinkV_col, hcol]
  · intro x hx
    have hne : u.col j ≠ u.col x := by
      rw [hcol, hx]
      exact hj
    obtain ⟨hD, hU⟩ := unlinkV_D_stable j x u hok hne
    exact ⟨hD.trans (hDU x hx).1, hU.trans (hDU x hx).2⟩

theorem InvC_linkV (s : DLX) (c j : ℕ) (hj : s.col j ≠ c) (u : DLX)
    (hI : InvC s c u) : InvC s c (linkV j u) := by
  obtain ⟨hL, hR, hcol, hok, hDU⟩ := hI
  refine ⟨?_, ?_, ?_, ColOK_linkV j u hok, ?_⟩
  · rw [linkV_L, hL]
  · rw [linkV_R, hR]
  · rw [linkV_col, hcol]
  · intro x hx
    have hne : u.col j ≠ u.col x := by
      rw [hcol, hx]
      exact hj
    obtain ⟨hD, hU⟩ := linkV_D_stable j x u hok hne
    exact ⟨hD.trans (hDU x hx).1, hU.trans (hDU x hx).2⟩

theorem foldl_congr_inv {I : DLX → Prop} (step step' : DLX → ℕ → DLX) :
    ∀ (l : List ℕ) (s : DLX), I s →
      (∀ u x, x ∈ l → I u → step u x = step' u x ∧ I (step u x)) →
      l.foldl step s = l.foldl step' s := by
  intro l
  induction l with
  | nil => intro s _ _; rfl
  | cons x l ih =>
    intro s hI hstep
    rw [List.foldl_cons, List.foldl_cons]
    obtain ⟨heq, hI'⟩ := hstep s x (List.mem_cons_self x l) hI
    rw [← heq]
    exact ih (step s x) hI'
      (fun u y hy hu => hstep u y (List.mem_cons_of_mem x hy) hu)

/-- Execution-level well-formedness for `cover c`/`uncover c`: `is`
is the vertical cycle of column `c`, `rows i` the row cycle of each
of its nodes; links along these cycles are mutually inverse, row
nodes live in columns other than `c`, vertical links are
column-closed, all unlinked nodes are distinct, and the header list
is consistent at `c`. -/
structure CoverWf (s : DLX) (c : ℕ) (is : List ℕ)
    (rows : ℕ → List ℕ) : Prop where
  chainD : Chain s.D (s.D c) is c
  chainR : ∀ i ∈ is, Chain s.R (s.R i) (rows i) i
  okC : OK2 s c
  okI : ∀ i ∈ is, OK2 s i
  okJ : ∀ x ∈ is.flatMap rows, OK2 s x
  colJ : ∀ x ∈ is.flatMap rows, s.col x ≠ c
  colC : s.col c = c
  colI : ∀ i ∈ is, s.col i = c
  colOK : ColOK s
  nodupJ : (is.flatMap rows).Nodup
  hdrL : s.L (s.R c) = c
  hdrR : s.R (s.L c) = c
  okH : ∀ i ∈ is, s.L (s.R i) = i ∧ ∀ x ∈ rows i, s.L (s.R x) = x
  sepL : s.L c ∉ is ∧ s.L c ∉ is.flatMap rows
  sepR : s.R c ∉ is ∧ s.R c ∉ is.flatMap rows

/-- `cover` is the fold of the vertical unlinks over the nodes of the
intersecting rows (in walk order), after the header unlink; the
horizontal links and the links of column `c`'s own nodes are
untouched. -/
theorem cover_eq (s : DLX) (c : ℕ) (is : List ℕ) (rows : ℕ → List ℕ)
    (f : ℕ) (W : CoverWf s c is rows) (hfI : is.length < f)
    (hfJ : ∀ i ∈ is, (rows i).length < f) :
    cover f c s =
      (is.flatMap rows).foldl (fun t j => unlinkV j t) (hUnlink c s) ∧
    InvC s c (cover f c s) := by
  have hstepInner : ∀ i, i ∈ is → ∀ (u : DLX) (j : ℕ), j ∈ rows i →
      InvC s c u →
      (unlinkV j u).R j = s.R j ∧ InvC s c (unlinkV j u) := by
    intro i hi u j hj hI
    have hjJ : j ∈ is.flatMap rows := List.mem_flatMap.2 ⟨i, hi, hj⟩
    constructor
    · rw [unlinkV_R, hI.2.1]
      exact hUnlink_R c j s (fun heq => W.sepL.2 (heq ▸ hjJ))
    · exact InvC_unlinkV s c j (W.colJ j hjJ) u hI
  have hInner : ∀ (u : DLX) (i : ℕ), i ∈ is → InvC s c u →
      loopF (fun u' j => unlinkV j u') (fun u' j => u'.R j) f i u (u.R i)
        = (rows i).foldl (fun t j => unlinkV j t) u ∧
      InvC s c ((rows i).foldl (fun t j => unlinkV j t) u) := by
    intro u i hi hI
    refine loopF_eq_foldl (fun u' j => unlinkV j u') (fun u' j => u'.R j)
      s.R (InvC s c) (rows i)
      (fun u' j hj hI' => hstepInner i hi u' j hj hI')
      f i u (u.R i) (hfJ i hi) ?_ hI
    have hRi : u.R i = s.R i := by
      rw [hI.2.1]
      exact hUnlink_R c i s (fun heq => W.sepL.1 (heq ▸ hi))
    rw [hRi]
    exact W.chainR i hi
  have hI0 : InvC s c (hUnlink c s) :=
    ⟨rfl, rfl, rfl, W.colOK, fun x _ => ⟨rfl, rfl⟩⟩
  have houter := loopF_eq_foldl
    (fun t i => loopF (fun u j => unlinkV j u) (fun u j => u.R j)
      f i t (t.R i))
    (fun t i => t.D i) s.D (InvC s c) is
    (fun u i hi hI => by
      obtain ⟨heq, hI'⟩ := hInner u i hi hI
      beta_reduce
      refine ⟨?_, by rw [heq]; exact hI'⟩
      rw [heq]
      exact (hI'.2.2.2.2 i (W.colI i hi)).1)
    f c (hUnlink c s) ((hUnlink c s).D c) hfI W.chainD hI0
  have hcov : cover f c s = is.foldl
      (fun t i => loopF (fun u j => unlinkV j u) (fun u j => u.R j)
        f i t (t.R i)) (hUnlink c s) := houter.1
  have hcongr : is.foldl
      (fun t i => loopF (fun u j => unlinkV j u) (fun u j => u.R j)
        f i t (t.R i)) (hUnlink c s) =
      is.foldl (fun t i => (rows i).foldl (fun u j => unlinkV j u) t)
        (hUnlink c s) :=
    foldl_congr_inv _ _ is (hUnlink c s) hI0
      (fun u i hi hI => by
        obtain ⟨heq, hI'⟩ := hInner u i hi hI
        exact ⟨heq, by rw [heq]; exact hI'⟩)
  constructor
  · rw [hcov, hcongr, foldl_flatMap]
  · rw [hcov]
    exact houter.2

/-- `uncover` after `cover` restores the matrix state exactly: every
`Left`/`Right`/`Up`/`Down` link and every column `Size` (and the
column assignments) return to their values before `cover`. -/
theorem uncover_cover (s : DLX) (c : ℕ) (is : List ℕ)
    (rows : ℕ → List ℕ) (f : ℕ) (W : CoverWf s c is rows)
    (hfI : is.length < f) (hfJ : ∀ i ∈ is, (rows i).length < f) :
    uncover f c (cover f c s) = s := by
  obtain ⟨hcov, hInv⟩ := cover_eq s c is rows f W hfI hfJ
  have hstepInner : ∀ i, i ∈ is → ∀ (u : DLX) (j : ℕ),
      j ∈ (rows i).reverse → InvC s c u →
      (linkV j u).L j = s.L j ∧ InvC s c (linkV j u) := by
    intro i hi u j hj hI
    have hjJ : j ∈ is.flatMap rows :=
      List.mem_flatMap.2 ⟨i, hi, List.mem_reverse.1 hj⟩
    constructor
    · rw [linkV_L, hI.1]
      exact hUnlink_L c j s (fun heq => W.sepR.2 (heq ▸ hjJ))
    · exact InvC_linkV s c j (W.colJ j hjJ) u hI
  have hchainL : ∀ i, i ∈ is → Chain s.L (s.L i) (rows i).reverse i := by
    intro i hi
    have hP := ChainP_reverse s.R s.L (rows i) (s.R i) i
      (W.chainR i hi).1 (fun x hx => (W.okH i hi).2 x hx)
    rw [(W.okH i hi).1] at hP
    exact ⟨hP, fun x hx => (W.chainR i hi).2 x (List.mem_reverse.1 hx)⟩
  have hInner : ∀ (u : DLX) (i : ℕ), i ∈ is → InvC s c u →
      loopF (fun u' j => linkV j u') (fun u' j => u'.L j) f i u (u.L i)
        = ((rows i).reverse).foldl (fun t j => linkV j t) u ∧
      InvC s c (((rows i).reverse).foldl (fun t j => linkV j t) u) := by
    intro u i hi hI
    refine loopF_eq_foldl (fun u' j => linkV j u') (fun u' j => u'.L j)
      s.L (InvC s c) ((rows i).reverse)
      (fun u' j hj hI' => hstepInner i hi u' j hj hI')
      f i u (u.L i) (by rw [List.length_reverse]; exact hfJ i hi) ?_ hI
    have hLi : u.L i = s.L i := by
      rw [hI.1]
      exact hUnlink_L c i s (fun heq => W.sepR.1 (heq ▸ hi))
    rw [hLi]
    exact hchainL i hi
  have hchainU : Chain s.U ((cover f c s).U c) is.reverse c := by
    have hP := ChainP_reverse s.D s.U is (s.D c) c W.chainD.1
      (fun i hi => (W.okI i hi).1)
    rw [W.okC.1] at hP
    rw [(hInv.2.2.2.2 c W.colC).2]
    exact ⟨hP, fun x hx => W.chainD.2 x (List.mem_reverse.1 hx)⟩
  have houter := loopF_eq_foldl
    (fun t i => loopF (fun u j => linkV j u) (fun u j => u.L j)
      f i t (t.L i))
    (fun t i => t.U i) s.U (InvC s c) is.reverse
    (fun u i hi hI => by
      obtain ⟨heq, hI'⟩ := hInner u i (List.mem_reverse.1 hi) hI
      beta_reduce
      refine ⟨?_, by rw [heq]; exact hI'⟩
      rw [heq]
      exact (hI'.2.2.2.2 i (W.colI i (List.mem_reverse.1 hi))).2)
    f c (cover f c s) ((cover f c s).U c)
    (by rw [List.length_reverse]; exact hfI) hchainU hInv
  have hloops : loopF
      (fun t i => loopF (fun u j => linkV j u) (fun u j => u.L j)
        f i t (t.L i))
      (fun t i => t.U i) f c (cover f c s) ((cover f c s).U c) =
      is.reverse.foldl
        (fun t i => ((rows i).reverse).foldl (fun u j => linkV j u) t)
        (cover f c s) := by
    rw [houter.1]
    exact foldl_congr_inv _ _ is.reverse (cover f c s) hInv
      (fun u i hi hI => by
        obtain ⟨heq, hI'⟩ := hInner u i (List.mem_reverse.1 hi) hI
        exact ⟨heq, by rw [heq]; exact hI'⟩)
  show hLink c _ = s
  rw [hloops]
  have hflat : is.reverse.foldl
      (fun t i => ((rows i).reverse).foldl (fun u j => linkV j u) t)
      (cover f c s) =
      ((is.flatMap rows).reverse).foldl (fun t j => linkV j t)
        (cover f c s) := by
    rw [reverse_flatMap, foldl_flatMap]
  rw [hflat, hcov, foldl_linkV_unlinkV (is.flatMap rows) (hUnlink c s)
    (fun x hx => W.okJ x hx) W.nodupJ]
  exact hLink_hUnlink s c W.hdrL W.hdrR

/-! ### Structure preservation under `cover` (towards the `search`
restoration consequence) -/

/-- `ChainP` only reads the link function on the visited nodes. -/
theorem chainP_congr (nf nf' : ℕ → ℕ) :
    ∀ (l : List ℕ) (a b : ℕ), (∀ x ∈ l, nf' x = nf x) →
      ChainP nf a l b → ChainP nf' a l b := by
  intro l
  induction l with
  | nil => intro a b _ h; exact h
  | cons x l ih =>
    intro a b hagree h
    obtain ⟨rfl, hch⟩ := h
    refine ⟨rfl, ?_⟩
    rw [hagree a (List.mem_cons_self a l)]
    exact ih (nf a) b (fun y hy => hagree y (List.mem_cons_of_mem a hy)) hch

/-- Mutual-inverse transfer under the erase-shaped double update (the
generic core of `OK2_unlinkV` and of the header unlink). -/
theorem pairInv_update (nf pf : ℕ → ℕ) (j x : ℕ)
    (hjU : pf (nf j) = j) (hjD : nf (pf j) = j)
    (hxU : pf (nf x) = x) (hxD : nf (pf x) = x) (hne : x ≠ j) :
    Function.update pf (nf j) (pf j)
        (Function.update nf (pf j) (nf j) x) = x ∧
    Function.update nf (pf j) (nf j)
        (Function.update pf (nf j) (pf j) x) = x := by
  have hDD : nf x = nf j → x = j := fun h => by rw [← hxU, h, hjU]
  have hUU : pf x = pf j → x = j := fun h => by rw [← hxD, h, hjD]
  constructor
  · by_cases h1 : x = pf j
    · rw [show Function.update nf (pf j) (nf j) x = nf j from by
        rw [Function.update_apply, if_pos h1]]
      rw [Function.update_apply, if_pos rfl]
      exact h1.symm
    · rw [show Function.update nf (pf j) (nf j) x = nf x from by
        rw [Function.update_apply, if_neg h1]]
      rw [Function.update_apply]
      by_cases h2 : nf x = nf j
      · exact absurd (hDD h2) hne
      · rw [if_neg h2]
        exact hxU
  · by_cases h1 : x = nf j
    · rw [show Function.update pf (nf j) (pf j) x = pf j from by
        rw [Function.update_apply, if_pos h1]]
      rw [Function.update_apply, if_pos rfl]
      exact h1.symm
    · rw [show Function.update pf (nf j) (pf j) x = pf x from by
        rw [Function.update_apply, if_neg h1]]
      rw [Function.update_apply]
      by_cases h2 : pf x = pf j
      · exact absurd (hUU h2) hne
      · rw [if_neg h2]
        exact hxD

/-- Splitting a pointer path at an interior point. -/
theorem chainP_split (nf : ℕ → ℕ) (l₁ l₂ : List ℕ) (a x b : ℕ)
    (h : ChainP nf a (l₁ ++ x :: l₂) b) :
    ChainP nf a l₁ x ∧ ChainP nf (nf x) l₂ b := by
  obtain ⟨m, h1, h2⟩ := (ChainP_append nf l₁ (x :: l₂) a b).1 h
  have hmx : m = x := h2.1
  subst hmx
  exact ⟨h1, h2.2⟩

/-- Erasing one node from a pointer cycle: bridging its predecessor to
its successor leaves the remaining nodes in cycle order. -/
theorem cycle_erase (nf pf : ℕ → ℕ) (stop j : ℕ) (l : List ℕ)
    (hch : ChainP nf (nf stop) l stop)
    (hinvL : ∀ x ∈ stop :: l, pf (nf x) = x)
    (hnd : (stop :: l).Nodup)
    (hj : j ∈ l) :
    ChainP (Function.update nf (pf j) (nf j))
      (Function.update nf (pf j) (nf j) stop) (l.erase j) stop := by
  obtain ⟨l₁, l₂, rfl⟩ := List.append_of_mem hj
  rcases List.eq_nil_or_concat l₁ with rfl | ⟨A, p, rfl⟩
  · -- j is the first node after the stop sentinel
    rw [List.nil_append] at hch hnd ⊢
    obtain ⟨hsj, hch₂⟩ := hch
    have hpfj : pf j = stop := by
      rw [← hsj, hinvL stop (List.mem_cons_self _ _)]
    have hstop2 : stop ∉ l₂ := by
      have h1 := (List.nodup_cons.1 hnd).1
      intro hmem
      exact h1 (List.mem_cons_of_mem _ hmem)
    rw [List.erase_cons_head, hpfj, Function.update_same]
    refine chainP_congr nf _ l₂ (nf j) stop ?_ hch₂
    intro y hy
    have hne : ¬ y = stop := fun heq => hstop2 (heq ▸ hy)
    rw [Function.update_apply, if_neg hne]
  · -- j has a predecessor p inside the cycle list
    rw [List.concat_eq_append, List.append_assoc, List.singleton_append]
      at hch hnd hj ⊢
    rw [List.concat_eq_append, List.append_assoc, List.singleton_append]
      at hinvL
    obtain ⟨hA, hrest⟩ := chainP_split nf A (j :: l₂) (nf stop) p stop hch
    obtain ⟨hpj, hch₂⟩ : nf p = j ∧ ChainP nf (nf j) l₂ stop := by
      obtain ⟨h1, h2⟩ := hrest
      exact ⟨h1, h2⟩
    have hpmem : p ∈ stop :: A ++ p :: j :: l₂ := by
      refine List.mem_cons_of_mem _ ?_
      exact List.mem_append.2 (Or.inr (List.mem_cons_self _ _))
    have hpfj : pf j = p := by
      rw [← hpj, hinvL p hpmem]
    -- distinctness facts
    have hndA : stop ∉ A ∧ stop ≠ p ∧ stop ≠ j ∧ stop ∉ l₂ ∧
        p ∉ A ∧ p ≠ j ∧ p ∉ l₂ := by
      have h1 := List.nodup_cons.1 hnd
      have hstopall := h1.1
      have h2 := h1.2
      rw [List.nodup_append] at h2
      obtain ⟨hA2, hpl, hdisj⟩ := h2
      have hp1 := List.nodup_cons.1 hpl
      refine And.intro ?_ (And.intro ?_ (And.intro ?_ ⟨?_, ?_, ?_, ?_⟩))
      · intro hmem; exact hstopall (List.mem_append.2 (Or.inl hmem))
      · intro heq
        exact hstopall (List.mem_append.2 (Or.inr (heq ▸ List.mem_cons_self _ _)))
      · intro heq
        exact hstopall (List.mem_append.2
          (Or.inr (heq ▸ List.mem_cons_of_mem _ (List.mem_cons_self _ _))))
      · intro hmem
        exact hstopall (List.mem_append.2
          (Or.inr (List.mem_cons_of_mem _ (List.mem_cons_of_mem _ hmem))))
      · intro hmem
        exact hdisj hmem (List.mem_cons_self _ _)
      · intro heq
        exact (List.nodup_cons.1 hpl).1 (heq ▸ List.mem_cons_self _ _)
      · intro hmem
        exact (List.nodup_cons.1 hpl).1 (List.mem_cons_of_mem _ hmem)
    obtain ⟨hsA, hsp, hsj', hsl₂, hpA, hpj', hpl₂⟩ := hndA
    -- the erased list
    have hErase : (A ++ p :: j :: l₂).erase j = A ++ p :: l₂ := by
      rw [List.erase_append_right]
      · rw [show (p :: j :: l₂).erase j = p :: l₂ from by
          rw [List.erase_cons_tail, List.erase_cons_head]
          simp [hpj']]
      · intro hmem
        have h1 := List.nodup_cons.1 hnd
        have h2 := h1.2
        rw [List.nodup_append] at h2
        exact h2.2.2 hmem (List.mem_cons_of_mem _ (List.mem_cons_self _ _))
    rw [hErase, hpfj]
    have hstopne : stop ≠ p := hsp
    rw [Function.update_apply, if_neg hstopne]
    rw [ChainP_append]
    refine ⟨p, ?_, ?_⟩
    · refine chainP_congr nf _ A (nf stop) p ?_ hA
      intro y hy
      have hne : ¬ y = p := fun heq => hpA (heq ▸ hy)
      rw [Function.update_apply, if_neg hne]
    · refine ⟨rfl, ?_⟩
      rw [Function.update_same]
      refine chainP_congr nf _ l₂ (nf j) stop ?_ hch₂
      intro y hy
      have hne : ¬ y = p := fun heq => hpl₂ (heq ▸ hy)
      rw [Function.update_apply, if_neg hne]

/-- The predecessor of a cycle member is the sentinel or another
member. -/
theorem chain_pred (nf : ℕ → ℕ) (stop x : ℕ) (l : List ℕ)
    (hch : ChainP nf (nf stop) l stop) (hx : x ∈ l) :
    ∃ p ∈ stop :: l, nf p = x := by
  obtain ⟨l₁, l₂, rfl⟩ := List.append_of_mem hx
  rcases List.eq_nil_or_concat l₁ with rfl | ⟨A, p, rfl⟩
  · rw [List.nil_append] at hch
    exact ⟨stop, List.mem_cons_self _ _, hch.1⟩
  · rw [List.concat_eq_append, List.append_assoc, List.singleton_append]
      at hch ⊢
    obtain ⟨_, hrest⟩ := chainP_split nf A (x :: l₂) (nf stop) p stop hch
    refine ⟨p, List.mem_cons_of_mem _ ?_, hrest.1⟩
    exact List.mem_append.2 (Or.inr (List.mem_cons_self _ _))

/-- The successor of a cycle member is the sentinel or another
member. -/
theorem chain_succ (nf : ℕ → ℕ) (stop x : ℕ) (l : List ℕ)
    (hch : ChainP nf (nf stop) l stop) (hx : x ∈ l) :
    nf x ∈ stop :: l := by
  obtain ⟨l₁, l₂, rfl⟩ := List.append_of_mem hx
  obtain ⟨m, h1, h2⟩ :=
    (ChainP_append nf l₁ (x :: l₂) (nf stop) stop).1 hch
  have hch₂ : ChainP nf (nf x) l₂ stop := h2.2
  cases l₂ with
  | nil =>
    have h : nf x = stop := hch₂
    rw [h]
    exact List.mem_cons_self _ _
  | cons y l₃ =>
    have h : nf x = y := hch₂.1
    rw [h]
    refine List.mem_cons_of_mem _ ?_
    exact List.mem_append.2
      (Or.inr (List.mem_cons_of_mem _ (List.mem_cons_self _ _)))

/-- The head of a loop traversal is the first visited node (or the
start equals the stop). -/
theorem chain_head (nf : ℕ → ℕ) (a stop : ℕ) (l : List ℕ)
    (hch : ChainP nf a l stop) : a ∈ l ∨ a = stop := by
  cases l with
  | nil => exact Or.inr hch
  | cons x l' => exact Or.inl (hch.1 ▸ List.mem_cons_self _ _)

theorem sublist_flatMap (rows : ℕ → List ℕ) :
    ∀ {l₁ l₂ : List ℕ}, l₁.Sublist l₂ →
      (l₁.flatMap rows).Sublist (l₂.flatMap rows) := by
  intro l₁ l₂ h
  induction h with
  | slnil => exact List.Sublist.refl _
  | cons a _ ih =>
    rw [List.flatMap_cons]
    exact ih.trans (List.sublist_append_right _ _)
  | cons₂ a _ ih =>
    rw [List.flatMap_cons, List.flatMap_cons]
    exact List.Sublist.append_left ih _

/-- Per-column description of the live vertical structure: every
column of `cols` carries its down-cycle node list; vertical links
along it are mutually inverse, its nodes are assigned to it, its size
equals the list length, the lists are duplicate-free, and vertical
links are globally column-closed. -/
def VInv (cols : List ℕ) (cl : ℕ → List ℕ) (u : DLX) : Prop :=
  (∀ c ∈ cols, ChainP u.D (u.D c) (cl c) c) ∧
  (∀ c ∈ cols, ∀ x ∈ c :: cl c, OK2 u x) ∧
  (∀ c ∈ cols, ∀ x ∈ cl c, u.col x = c) ∧
  (∀ c ∈ cols, u.col c = c) ∧
  (∀ c ∈ cols, (c :: cl c).Nodup) ∧
  (∀ c ∈ cols, u.size c = ((cl c).length : ℤ)) ∧
  ColOK u

/-- Unlinking a live node removes it from its column's description and
leaves every other column's description unchanged. -/
theorem VInv_unlinkV (cols : List ℕ) (cl : ℕ → List ℕ) (u : DLX)
    (j : ℕ) (hV : VInv cols cl u)
    (hjc : u.col j ∈ cols) (hjm : j ∈ cl (u.col j)) :
    VInv cols
      (Function.update cl (u.col j) ((cl (u.col j)).erase j))
      (unlinkV j u) := by
  obtain ⟨hch, hok, hcm, hcc, hnd, hsz, hcolOK⟩ := hV
  have hokj : OK2 u j :=
    hok (u.col j) hjc j (List.mem_cons_of_mem _ hjm)
  have hjnec : j ≠ u.col j := by
    intro heq
    exact (List.nodup_cons.1 (hnd (u.col j) hjc)).1 (heq ▸ hjm)
  have hndc : (cl (u.col j)).Nodup :=
    (List.nodup_cons.1 (hnd (u.col j) hjc)).2
  refine And.intro ?_ (And.intro ?_
    ⟨?_, ?_, ?_, ?_, ColOK_unlinkV j u hcolOK⟩)
  · intro c hc
    by_cases hceq : c = u.col j
    · rw [hceq, Function.update_same]
      exact cycle_erase u.D u.U (u.col j) j (cl (u.col j))
        (hch (u.col j) hjc)
        (fun x hx => (hok (u.col j) hjc x hx).1) (hnd (u.col j) hjc) hjm
    · rw [Function.update_apply, if_neg hceq]
      have hstart : (unlinkV j u).D c = u.D c :=
        (unlinkV_D_stable j c u hcolOK
          (by rw [hcc c hc]; exact fun h => hceq h.symm)).1
      rw [hstart]
      refine chainP_congr u.D (unlinkV j u).D (cl c) (u.D c) c ?_
        (hch c hc)
      intro x hx
      exact (unlinkV_D_stable j x u hcolOK
        (by rw [hcm c hc x hx]; exact fun h => hceq h.symm)).1
  · intro c hc x hx
    by_cases hceq : c = u.col j
    · rw [hceq, Function.update_same] at hx
      rcases List.mem_cons.1 hx with h1 | hx'
      · exact OK2_unlinkV u j x hokj
          (hok (u.col j) hjc x (by rw [h1]; exact List.mem_cons_self _ _))
          (fun heq => hjnec (heq ▸ h1))
      · obtain ⟨hxj, hxm⟩ := (List.Nodup.mem_erase_iff hndc).1 hx'
        exact OK2_unlinkV u j x hokj
          (hok (u.col j) hjc x (List.mem_cons_of_mem _ hxm)) hxj
    · rw [Function.update_apply, if_neg hceq] at hx
      have hxj : x ≠ j := by
        intro heq
        rcases List.mem_cons.1 hx with h1 | h1
        · refine hceq ?_
          rw [← hcc c hc, ← h1, heq]
        · refine hceq ?_
          rw [← hcm c hc x h1, heq]
      exact OK2_unlinkV u j x hokj (hok c hc x hx) hxj
  · intro c hc x hx
    rw [unlinkV_col]
    by_cases hceq : c = u.col j
    · rw [hceq, Function.update_same] at hx
      rw [hceq]
      exact hcm (u.col j) hjc x (List.mem_of_mem_erase hx)
    · rw [Function.update_apply, if_neg hceq] at hx
      exact hcm c hc x hx
  · intro c hc
    rw [unlinkV_col]
    exact hcc c hc
  · intro c hc
    by_cases hceq : c = u.col j
    · rw [hceq, Function.update_same, List.nodup_cons]
      refine ⟨?_, List.Nodup.erase j hndc⟩
      intro hmem
      exact (List.nodup_cons.1 (hnd (u.col j) hjc)).1
        (List.mem_of_mem_erase hmem)
    · rw [Function.update_apply, if_neg hceq]
      exact hnd c hc
  · intro c hc
    show (if c = u.col j then u.size c - 1 else u.size c) = _
    by_cases hceq : c = u.col j
    · rw [if_pos hceq, hceq, Function.update_same, hsz (u.col j) hjc]
      have hlen := List.length_erase_add_one hjm
      omega
    · rw [if_neg hceq, Function.update_apply, if_neg hceq]
      exact hsz c hc

theorem foldl_unlinkV_col :
    ∀ (ps : List ℕ) (u : DLX),
      (ps.foldl (fun t x => unlinkV x t) u).col = u.col := by
  intro ps
  induction ps with
  | nil => intro u; rfl
  | cons x ps ih =>
    intro u
    rw [List.foldl_cons, ih, unlinkV_col]

/-- `VInv` only reads the column descriptions of listed columns. -/
theorem VInv_congr (cols : List ℕ) (cl cl' : ℕ → List ℕ) (u : DLX)
    (hagree : ∀ c ∈ cols, cl c = cl' c) (hV : VInv cols cl u) :
    VInv cols cl' u := by
  obtain ⟨hch, hok, hcm, hcc, hnd, hsz, hcolOK⟩ := hV
  refine ⟨?_, ?_, ?_, hcc, ?_, ?_, hcolOK⟩
  · intro c hc
    rw [← hagree c hc]
    exact hch c hc
  · intro c hc
    rw [← hagree c hc]
    exact hok c hc
  · intro c hc
    rw [← hagree c hc]
    exact hcm c hc
  · intro c hc
    rw [← hagree c hc]
    exact hnd c hc
  · intro c hc
    rw [← hagree c hc]
    exact hsz c hc

/-- Unlinking a duplicate-free batch of live nodes filters them out of
every column's description. -/
theorem VInv_foldl (cols : List ℕ) :
    ∀ (ps : List ℕ) (cl : ℕ → List ℕ) (u : DLX),
      VInv cols cl u → ps.Nodup →
      (∀ x ∈ ps, u.col x ∈ cols ∧ x ∈ cl (u.col x)) →
      VInv cols (fun c => (cl c).filter (fun x => decide (x ∉ ps)))
        (ps.foldl (fun t x => unlinkV x t) u) := by
  intro ps
  induction ps with
  | nil =>
    intro cl u hV _ _
    refine VInv_congr cols cl _ u ?_ hV
    intro c _
    symm
    refine List.filter_eq_self.2 ?_
    intro a _
    simp
  | cons j ps ih =>
    intro cl u hV hnd hmem
    obtain ⟨hjc, hjm⟩ := hmem j (List.mem_cons_self _ _)
    have hndp := List.nodup_cons.1 hnd
    have hV1 := VInv_unlinkV cols cl u j hV hjc hjm
    have hcolMem : ∀ c ∈ cols, ∀ x ∈ cl c, u.col x = c := hV.2.2.1
    have hih := ih
      (Function.update cl (u.col j) ((cl (u.col j)).erase j))
      (unlinkV j u) hV1 hndp.2 ?_
    · rw [List.foldl_cons]
      refine VInv_congr cols _ _ _ ?_ hih
      intro c hc
      by_cases hceq : c = u.col j
      · rw [hceq, Function.update_same,
          List.Nodup.erase_eq_filter
            (List.nodup_cons.1 (hV.2.2.2.2.1 (u.col j) hjc)).2 j,
          List.filter_filter]
        refine List.filter_congr ?_
        intro x _
        by_cases hxj : x = j
        · simp [hxj]
        · by_cases hxp : x ∈ ps <;> simp [hxj, hxp]
      · rw [Function.update_apply, if_neg hceq]
        refine List.filter_congr ?_
        intro x hx
        have hxj : x ≠ j := by
          intro heq
          subst heq
          exact hceq (hcolMem c hc x hx).symm
        by_cases hxp : x ∈ ps <;> simp [hxj, hxp]
    · intro x hx
      have hxj : x ≠ j := fun heq => hndp.1 (heq ▸ hx)
      obtain ⟨hxc, hxm⟩ := hmem x (List.mem_cons_of_mem _ hx)
      rw [unlinkV_col]
      refine ⟨hxc, ?_⟩
      by_cases hceq : u.col x = u.col j
      · rw [hceq, Function.update_same, ← hceq]
        exact (List.mem_erase_of_ne hxj).2 hxm
      · rw [Function.update_apply, if_neg hceq]
        exact hxm

theorem VInv_chains {cols : List ℕ} {cl : ℕ → List ℕ} {u : DLX}
    (h : VInv cols cl u) :
    ∀ c ∈ cols, ChainP u.D (u.D c) (cl c) c := h.1

theorem VInv_ok {cols : List ℕ} {cl : ℕ → List ℕ} {u : DLX}
    (h : VInv cols cl u) :
    ∀ c ∈ cols, ∀ x ∈ c :: cl c, OK2 u x := h.2.1

theorem VInv_colMem {cols : List ℕ} {cl : ℕ → List ℕ} {u : DLX}
    (h : VInv cols cl u) :
    ∀ c ∈ cols, ∀ x ∈ cl c, u.col x = c := h.2.2.1

theorem VInv_colSelf {cols : List ℕ} {cl : ℕ → List ℕ} {u : DLX}
    (h : VInv cols cl u) : ∀ c ∈ cols, u.col c = c := h.2.2.2.1

theorem VInv_nd {cols : List ℕ} {cl : ℕ → List ℕ} {u : DLX}
    (h : VInv cols cl u) : ∀ c ∈ cols, (c :: cl c).Nodup :=
  h.2.2.2.2.1

theorem VInv_size {cols : List ℕ} {cl : ℕ → List ℕ} {u : DLX}
    (h : VInv cols cl u) :
    ∀ c ∈ cols, u.size c = ((cl c).length : ℤ) := h.2.2.2.2.2.1

theorem VInv_colOK {cols : List ℕ} {cl : ℕ → List ℕ} {u : DLX}
    (h : VInv cols cl u) : ColOK u := h.2.2.2.2.2.2

/-- `VInv` only reads the vertical links, columns and sizes. -/
theorem VInv_ext (cols : List ℕ) (cl : ℕ → List ℕ) (u u' : DLX)
    (hD : u'.D = u.D) (hU : u'.U = u.U) (hcol : u'.col = u.col)
    (hsz : u'.size = u.size) (hV : VInv cols cl u) : VInv cols cl u' := by
  obtain ⟨h1, h2, h3, h4, h5, h6, h7⟩ := hV
  refine ⟨?_, ?_, ?_, ?_, h5, ?_, ?_⟩
  · intro c hc
    rw [hD]
    exact h1 c hc
  · intro c hc x hx
    show u'.U (u'.D x) = x ∧ u'.D (u'.U x) = x
    rw [hD, hU]
    exact h2 c hc x hx
  · intro c hc x hx
    rw [hcol]
    exact h3 c hc x hx
  · intro c hc
    rw [hcol]
    exact h4 c hc
  · intro c hc
    rw [hsz]
    exact h6 c hc
  · intro x
    show u'.col (u'.D x) = u'.col x ∧ u'.col (u'.U x) = u'.col x
    rw [hD, hU, hcol]
    exact h7 x

/-- Global well-formedness of the dancing-links matrix during search:
`hdr` is the header sentinel, `hcols` the live (currently linked)
column list in right-link order, `cols` the full static column list,
`cl c` the live node list of column `c` in down-link order, `rowOf x`
the other nodes of `x`'s row in right-link order, `rid x` the row
identity of node `x` (`RowID`), and `cf` a fuel bound above every loop
length. -/
structure GWf (s : DLX) (hdr : ℕ) (hcols cols : List ℕ)
    (cl : ℕ → List ℕ) (rowOf : ℕ → List ℕ) (rid : ℕ → ℕ)
    (cf : ℕ) : Prop where
  hsub : ∀ c ∈ hcols, c ∈ cols
  vinv : VInv cols cl s
  hchain : ChainP s.R (s.R hdr) hcols hdr
  hinvL : ∀ x ∈ hdr :: hcols, s.L (s.R x) = x
  hinvR : ∀ x ∈ hdr :: hcols, s.R (s.L x) = x
  hnd : (hdr :: hcols).Nodup
  rchain : ∀ c ∈ cols, ∀ x ∈ cl c, Chain s.R (s.R x) (rowOf x) x
  rinvL : ∀ c ∈ cols, ∀ x ∈ cl c,
    s.L (s.R x) = x ∧ ∀ y ∈ rowOf x, s.L (s.R y) = y
  rowLive : ∀ c ∈ hcols, ∀ x ∈ cl c, ∀ y ∈ rowOf x,
    s.col y ∈ hcols ∧ y ∈ cl (s.col y)
  rowColNe : ∀ c ∈ cols, ∀ x ∈ cl c, ∀ y ∈ rowOf x, s.col y ≠ c
  rowColsNd : ∀ c ∈ cols, ∀ x ∈ cl c, ((x :: rowOf x).map s.col).Nodup
  ridRow : ∀ c ∈ cols, ∀ x ∈ cl c, ∀ y ∈ rowOf x,
    rid y = rid x ∧ y ≠ x
  ridCompl : ∀ c ∈ cols, ∀ x ∈ cl c, ∀ c' ∈ cols, ∀ y ∈ cl c',
    rid y = rid x → y ≠ x → y ∈ rowOf x
  psNodup : ∀ c ∈ hcols, ((cl c).flatMap rowOf).Nodup
  sep : ∀ h ∈ hdr :: hcols, ∀ c ∈ cols,
    h ∉ cl c ∧ ∀ i ∈ cl c, h ∉ rowOf i
  bndH : hcols.length < cf
  bndV : ∀ c ∈ cols, (cl c).length < cf
  bndR : ∀ c ∈ cols, ∀ x ∈ cl c, (rowOf x).length < cf
  bndSz : ∀ c ∈ cols, ((cl c).length : ℤ) < 2 ^ 63 - 1

theorem GWf_L_mem {s : DLX} {hdr cf : ℕ} {hcols cols : List ℕ}
    {cl rowOf : ℕ → List ℕ} {rid : ℕ → ℕ}
    (G : GWf s hdr hcols cols cl rowOf rid cf) {c : ℕ}
    (hc : c ∈ hcols) : s.L c ∈ hdr :: hcols := by
  obtain ⟨p, hp, hpc⟩ := chain_pred s.R hdr c hcols G.hchain hc
  rw [← hpc, G.hinvL p hp]
  exact hp

theorem GWf_R_mem {s : DLX} {hdr cf : ℕ} {hcols cols : List ℕ}
    {cl rowOf : ℕ → List ℕ} {rid : ℕ → ℕ}
    (G : GWf s hdr hcols cols cl rowOf rid cf) {c : ℕ}
    (hc : c ∈ hcols) : s.R c ∈ hdr :: hcols :=
  chain_succ s.R hdr c hcols G.hchain hc

/-- A well-formed state supplies the execution-level hypotheses of
`cover`/`uncover` at every live column. -/
theorem CoverWf_of_GWf {s : DLX} {hdr cf : ℕ} {hcols cols : List ℕ}
    {cl rowOf : ℕ → List ℕ} {rid : ℕ → ℕ}
    (G : GWf s hdr hcols cols cl rowOf rid cf) {c : ℕ}
    (hc : c ∈ hcols) : CoverWf s c (cl c) rowOf := by
  have hcc : c ∈ cols := G.hsub c hc
  have hndc := VInv_nd G.vinv c hcc
  have hLm := GWf_L_mem G hc
  have hRm := GWf_R_mem G hc
  refine ⟨⟨VInv_chains G.vinv c hcc, ?_⟩, ?_,
    VInv_ok G.vinv c hcc c (List.mem_cons_self _ _), ?_, ?_, ?_,
    VInv_colSelf G.vinv c hcc, VInv_colMem G.vinv c hcc,
    VInv_colOK G.vinv, G.psNodup c hc,
    G.hinvL c (List.mem_cons_of_mem _ hc),
    G.hinvR c (List.mem_cons_of_mem _ hc), G.rinvL c hcc, ?_, ?_⟩
  · intro x hx heq
    exact (List.nodup_cons.1 hndc).1 (heq ▸ hx)
  · intro i hi
    exact G.rchain c hcc i hi
  · intro i hi
    exact VInv_ok G.vinv c hcc i (List.mem_cons_of_mem _ hi)
  · intro x hx
    obtain ⟨i, hi, hxi⟩ := List.mem_flatMap.1 hx
    obtain ⟨hcm, hmem⟩ := G.rowLive c hc i hi x hxi
    exact VInv_ok G.vinv (s.col x) (G.hsub _ hcm) x
      (List.mem_cons_of_mem _ hmem)
  · intro x hx
    obtain ⟨i, hi, hxi⟩ := List.mem_flatMap.1 hx
    exact G.rowColNe c hcc i hi x hxi
  · refine ⟨(G.sep (s.L c) hLm c hcc).1, ?_⟩
    intro hx
    obtain ⟨i, hi, hxi⟩ := List.mem_flatMap.1 hx
    exact (G.sep (s.L c) hLm c hcc).2 i hi hxi
  · refine ⟨(G.sep (s.R c) hRm c hcc).1, ?_⟩
    intro hx
    obtain ⟨i, hi, hxi⟩ := List.mem_flatMap.1 hx
    exact (G.sep (s.R c) hRm c hcc).2 i hi hxi

/-- Covering a live column restores well-formedness: the column
leaves the header list and all nodes of its rows leave the
descriptions of their columns; the column assignments and the
horizontal links of all non-header nodes are untouched. -/
theorem GWf_cover {s : DLX} {hdr cf : ℕ} {hcols cols : List ℕ}
    {cl rowOf : ℕ → List ℕ} {rid : ℕ → ℕ}
    (G : GWf s hdr hcols cols cl rowOf rid cf) {c : ℕ}
    (hc : c ∈ hcols) :
    GWf (cover cf c s) hdr (hcols.erase c) cols
      (fun c' => (cl c').filter
        (fun x => decide (x ∉ (cl c).flatMap rowOf))) rowOf rid cf ∧
    (cover cf c s).col = s.col ∧
    (∀ y, y ∉ hdr :: hcols →
      (cover cf c s).R y = s.R y ∧ (cover cf c s).L y = s.L y) := by
  have hcc : c ∈ cols := G.hsub c hc
  have hndh : hcols.Nodup := (List.nodup_cons.1 G.hnd).2
  have hdrh : hdr ∉ hcols := (List.nodup_cons.1 G.hnd).1
  obtain ⟨hcov, hInv⟩ := cover_eq s c (cl c) rowOf cf
    (CoverWf_of_GWf G hc) (G.bndV c hcc) (fun i hi => G.bndR c hcc i hi)
  have hcol : (cover cf c s).col = s.col := hInv.2.2.1
  have hRs : (cover cf c s).R = Function.update s.R (s.L c) (s.R c) := by
    rw [hInv.2.1]
    rfl
  have hLs : (cover cf c s).L = Function.update s.L (s.R c) (s.L c) := by
    rw [hInv.1]
    rfl
  have hstab : ∀ y, y ∉ hdr :: hcols →
      (cover cf c s).R y = s.R y ∧ (cover cf c s).L y = s.L y := by
    intro y hy
    constructor
    · rw [hRs, Function.update_apply, if_neg]
      intro heq
      exact hy (heq ▸ GWf_L_mem G hc)
    · rw [hLs, Function.update_apply, if_neg]
      intro heq
      exact hy (heq ▸ GWf_R_mem G hc)
  have hmemerase : ∀ x, x ∈ hcols.erase c ↔ x ≠ c ∧ x ∈ hcols :=
    fun x => List.Nodup.mem_erase_iff hndh
  have hconsmem : ∀ x, x ∈ hdr :: hcols.erase c → x ∈ hdr :: hcols := by
    intro x hx
    rcases List.mem_cons.1 hx with h1 | h1
    · exact h1 ▸ List.mem_cons_self _ _
    · exact List.mem_cons_of_mem _ (List.mem_of_mem_erase h1)
  have hnec : ∀ x, x ∈ hdr :: hcols.erase c → x ≠ c := by
    intro x hx
    rcases List.mem_cons.1 hx with h1 | h1
    · intro heq
      exact hdrh ((h1.symm.trans heq) ▸ hc)
    · exact ((hmemerase x).1 h1).1
  have hnonh : ∀ c' ∈ cols, ∀ x ∈ cl c', x ∉ hdr :: hcols := by
    intro c' hc' x hx hmem
    exact (G.sep x hmem c' hc').1 hx
  have hnonhR : ∀ c' ∈ cols, ∀ x ∈ cl c', ∀ y ∈ rowOf x,
      y ∉ hdr :: hcols := by
    intro c' hc' x hx y hy hmem
    exact (G.sep y hmem c' hc').2 x hx hy
  have hfmem : ∀ c' (x : ℕ),
      x ∈ (cl c').filter
        (fun z => decide (z ∉ (cl c).flatMap rowOf)) →
      x ∈ cl c' ∧ x ∉ (cl c).flatMap rowOf := by
    intro c' x hx
    obtain ⟨h1, h2⟩ := List.mem_filter.1 hx
    exact ⟨h1, of_decide_eq_true h2⟩
  refine And.intro ?_ (And.intro hcol hstab)
  constructor
  · intro x hx
    exact G.hsub x (List.mem_of_mem_erase hx)
  · rw [hcov]
    have hv0 : VInv cols cl (hUnlink c s) :=
      VInv_ext cols cl s (hUnlink c s) rfl rfl rfl rfl G.vinv
    refine VInv_foldl cols ((cl c).flatMap rowOf) cl (hUnlink c s) hv0
      (G.psNodup c hc) ?_
    intro x hx
    obtain ⟨i, hi, hxi⟩ := List.mem_flatMap.1 hx
    obtain ⟨hcm, hmem⟩ := G.rowLive c hc i hi x hxi
    show s.col x ∈ cols ∧ x ∈ cl (s.col x)
    exact ⟨G.hsub _ hcm, hmem⟩
  · rw [hRs]
    exact cycle_erase s.R s.L hdr c hcols G.hchain G.hinvL G.hnd hc
  · intro x hx
    rw [hRs, hLs]
    exact (pairInv_update s.R s.L c x
      (G.hinvL c (List.mem_cons_of_mem _ hc))
      (G.hinvR c (List.mem_cons_of_mem _ hc))
      (G.hinvL x (hconsmem x hx)) (G.hinvR x (hconsmem x hx))
      (hnec x hx)).1
  · intro x hx
    rw [hRs, hLs]
    exact (pairInv_update s.R s.L c x
      (G.hinvL c (List.mem_cons_of_mem _ hc))
      (G.hinvR c (List.mem_cons_of_mem _ hc))
      (G.hinvL x (hconsmem x hx)) (G.hinvR x (hconsmem x hx))
      (hnec x hx)).2
  · rw [List.nodup_cons]
    refine ⟨?_, List.Nodup.erase c hndh⟩
    intro hmem
    exact hdrh (List.mem_of_mem_erase hmem)
  · intro c' hc' x hx
    obtain ⟨hx0, hxps⟩ := hfmem c' x hx
    have hxnh := hnonh c' hc' x hx0
    obtain ⟨hchx, hnex⟩ := G.rchain c' hc' x hx0
    refine ⟨?_, hnex⟩
    rw [(hstab x hxnh).1]
    refine chainP_congr s.R (cover cf c s).R (rowOf x) (s.R x) x ?_ hchx
    intro y hy
    exact (hstab y (hnonhR c' hc' x hx0 y hy)).1
  · intro c' hc' x hx
    obtain ⟨hx0, hxps⟩ := hfmem c' x hx
    have hxnh := hnonh c' hc' x hx0
    obtain ⟨hrx, hry⟩ := G.rinvL c' hc' x hx0
    have hheadx : s.R x ∉ hdr :: hcols := by
      rcases chain_head s.R (s.R x) x (rowOf x)
        (G.rchain c' hc' x hx0).1 with h1 | h1
      · exact hnonhR c' hc' x hx0 (s.R x) h1
      · rw [h1]
        exact hxnh
    constructor
    · rw [(hstab x hxnh).1, (hstab (s.R x) hheadx).2]
      exact hrx
    · intro y hy
      have hynh := hnonhR c' hc' x hx0 y hy
      have hheady : s.R y ∉ hdr :: hcols := by
        have hchy := (G.rchain c' hc' x hx0).1
        have hsucc : s.R y ∈ x :: rowOf x := by
          have hfull : ChainP s.R (s.R x) (rowOf x) x := hchy
          exact chain_succ s.R x y (rowOf x) hfull hy
        rcases List.mem_cons.1 hsucc with h1 | h1
        · rw [h1]
          exact hxnh
        · exact hnonhR c' hc' x hx0 (s.R y) h1
      rw [(hstab y hynh).1, (hstab (s.R y) hheady).2]
      exact hry y hy
  · intro c'' hc'' x hx y hy
    have hc''h : c'' ∈ hcols := List.mem_of_mem_erase hc''
    have hc''ne : c'' ≠ c := ((hmemerase c'').1 hc'').1
    obtain ⟨hx0, hxps⟩ := hfmem c'' x hx
    obtain ⟨hyh, hym⟩ := G.rowLive c'' hc''h x hx0 y hy
    have hcoly : (cover cf c s).col y = s.col y := by
      rw [hcol]
    have hrid2 := G.ridRow c'' (G.hsub _ hc''h) x hx0 y hy
    constructor
    · rw [hcoly]
      refine (hmemerase (s.col y)).2 ⟨?_, hyh⟩
      intro heq
      have hyc : y ∈ cl c := by
        rw [← heq]
        exact hym
      have hcompl := G.ridCompl c hcc y hyc c'' (G.hsub _ hc''h) x hx0
        (by rw [hrid2.1]) (fun he => hrid2.2 he.symm)
      exact hxps (List.mem_flatMap.2 ⟨y, hyc, hcompl⟩)
    · rw [hcoly]
      refine List.mem_filter.2 ⟨hym, decide_eq_true ?_⟩
      intro hyps
      obtain ⟨i, hi, hyi⟩ := List.mem_flatMap.1 hyps
      have hrid1 := G.ridRow c hcc i hi y hyi
      have hne_xi : x ≠ i := by
        intro he
        have h1 := VInv_colMem G.vinv c'' (G.hsub _ hc''h) x hx0
        have h2 := VInv_colMem G.vinv c hcc i hi
        rw [he, h2] at h1
        exact hc''ne h1.symm
      have hcompl := G.ridCompl c hcc i hi c'' (G.hsub _ hc''h) x hx0
        (by rw [← hrid2.1, hrid1.1]) hne_xi
      exact hxps (List.mem_flatMap.2 ⟨i, hi, hcompl⟩)
  · intro c' hc' x hx y hy
    rw [show (cover cf c s).col y = s.col y from by rw [hcol]]
    exact G.rowColNe c' hc' x (hfmem c' x hx).1 y hy
  · intro c' hc' x hx
    have hmap : ((x :: rowOf x).map (cover cf c s).col) =
        ((x :: rowOf x).map s.col) := by
      rw [hcol]
    rw [hmap]
    exact G.rowColsNd c' hc' x (hfmem c' x hx).1
  · intro c' hc' x hx y hy
    exact G.ridRow c' hc' x (hfmem c' x hx).1 y hy
  · intro c' hc' x hx c'' hc'' y hy
    exact G.ridCompl c' hc' x (hfmem c' x hx).1 c'' hc'' y
      (hfmem c'' y hy).1
  · intro c' hc'
    have hc'h : c' ∈ hcols := List.mem_of_mem_erase hc'
    refine List.Nodup.sublist ?_ (G.psNodup c' hc'h)
    exact sublist_flatMap rowOf (List.filter_sublist _)
  · intro h hh c' hc'
    have hh' : h ∈ hdr :: hcols := hconsmem h hh
    refine ⟨?_, ?_⟩
    · intro hmem
      exact (G.sep h hh' c' hc').1 (hfmem c' h hmem).1
    · intro i hi
      exact (G.sep h hh' c' hc').2 i (hfmem c' i hi).1
  · exact Nat.lt_of_le_of_lt (List.Sublist.length_le
      (List.erase_sublist c hcols)) G.bndH
  · intro c' hc'
    exact Nat.lt_of_le_of_lt (List.length_filter_le _ _) (G.bndV c' hc')
  · intro c' hc' x hx
    exact G.bndR c' hc' x (hfmem c' x hx).1
  · intro c' hc'
    have h1 := List.length_filter_le
      (fun x => decide (x ∉ (cl c).flatMap rowOf)) (cl c')
    have h2 := G.bndSz c' hc'
    omega

/-- At any well-formed state, `uncover` exactly undoes `cover` on
every live column. -/
theorem cover_unwind {s : DLX} {hdr cf : ℕ} {hcols cols : List ℕ}
    {cl rowOf : ℕ → List ℕ} {rid : ℕ → ℕ}
    (G : GWf s hdr hcols cols cl rowOf rid cf) {c : ℕ}
    (hc : c ∈ hcols) : uncover cf c (cover cf c s) = s :=
  uncover_cover s c (cl c) rowOf cf (CoverWf_of_GWf G hc)
    (G.bndV c (G.hsub c hc)) (fun i hi => G.bndR c (G.hsub c hc) i hi)

/-- Generic conversion of a fuelled pointer loop into a tracked
traversal: `T l' u c` says the loop is at state `u` and cursor `c`
with the nodes of `l'` still to visit. -/
theorem loopF_track (step : DLX → ℕ → DLX) (next : DLX → ℕ → ℕ)
    (stop : ℕ) (T : List ℕ → DLX → ℕ → Prop)
    (hcur : ∀ u x l' c, T (x :: l') u c → c = x ∧ x ≠ stop)
    (hstep : ∀ u x l', T (x :: l') u x →
      T l' (step u x) (next (step u x) x))
    (hstop : ∀ u c, T [] u c → c = stop) :
    ∀ (l : List ℕ) (f : ℕ) (u : DLX) (c : ℕ),
      l.length < f → T l u c →
      T [] (loopF step next f stop u c) stop := by
  intro l
  induction l with
  | nil =>
    intro f u c hf hT
    have hc := hstop u c hT
    cases f with
    | zero => omega
    | succ f =>
      rw [show loopF step next (f + 1) stop u c =
          if c = stop then u
          else loopF step next f stop (step u c)
            (next (step u c) c) from rfl, if_pos hc]
      rw [hc] at hT
      exact hT
  | cons x l ihl =>
    intro f u c hf hT
    obtain ⟨hcx, hxs⟩ := hcur u x l c hT
    cases f with
    | zero => simp at hf
    | succ f =>
      rw [show loopF step next (f + 1) stop u c =
          if c = stop then u
          else loopF step next f stop (step u c)
            (next (step u c) c) from rfl,
        if_neg (by rw [hcx]; exact hxs), hcx]
      rw [hcx] at hT
      refine ihl f (step u x) (next (step u x) x) ?_ (hstep u x l hT)
      simp only [List.length_cons] at hf
      omega

theorem take_drop_cons :
    ∀ (l : List ℕ) (i : ℕ) (x : ℕ) (l' : List ℕ),
      l.drop i = x :: l' →
      l.take (i + 1) = l.take i ++ [x] ∧ l.drop (i + 1) = l' := by
  intro l
  induction l with
  | nil =>
    intro i x l' h
    rw [List.drop_nil] at h
    cases h
  | cons a l ihl =>
    intro i x l' h
    cases i with
    | zero =>
      rw [List.drop_zero] at h
      injection h with h1 h2
      subst h1
      subst h2
      exact ⟨rfl, rfl⟩
    | succ i =>
      rw [List.drop_succ_cons] at h
      obtain ⟨h1, h2⟩ := ihl i x l' h
      constructor
      · show a :: l.take (i + 1) = (a :: l.take i) ++ [x]
        rw [h1, List.cons_append]
      · exact h2

/-- Body of `search`'s inner cover loop: `dl.cover(j.Column)`. -/
def coverColsStep (cf : ℕ) : DLX → ℕ → DLX :=
  fun t j => cover cf (t.col j) t

/-- Body of `search`'s backtrack loop: `dl.uncover(j.Column)`. -/
def uncoverColsStep (cf : ℕ) : DLX → ℕ → DLX :=
  fun t j => uncover cf (t.col j) t

/-- Folding `cover` over nodes with distinct live columns: every
prefix state is well-formed and leaves non-header links and all
columns untouched, and the reverse `uncover` fold undoes any suffix
exactly. -/
theorem coverFold (hdr cf : ℕ) (cols : List ℕ)
    (rowOf : ℕ → List ℕ) (rid : ℕ → ℕ) :
    ∀ (js : List ℕ) (u : DLX) (hcolsU : List ℕ) (clU : ℕ → List ℕ),
      GWf u hdr hcolsU cols clU rowOf rid cf →
      (∀ j ∈ js, u.col j ∈ hcolsU) →
      (js.map u.col).Nodup →
      (∀ i, i ≤ js.length →
        ∃ hcolsI clI,
          GWf ((js.take i).foldl (coverColsStep cf) u) hdr hcolsI cols
            clI rowOf rid cf ∧
          (∀ x ∈ hcolsI, x ∈ hcolsU) ∧
          (∀ j ∈ js.drop i, u.col j ∈ hcolsI) ∧
          ((js.take i).foldl (coverColsStep cf) u).col = u.col ∧
          (∀ y, y ∉ hdr :: hcolsU →
            ((js.take i).foldl (coverColsStep cf) u).R y = u.R y ∧
            ((js.take i).foldl (coverColsStep cf) u).L y = u.L y)) ∧
      (∀ i, i ≤ js.length →
        ((js.drop i).reverse).foldl (uncoverColsStep cf)
            (js.foldl (coverColsStep cf) u) =
          (js.take i).foldl (coverColsStep cf) u) := by
  intro js
  induction js with
  | nil =>
    intro u hcolsU clU G hlive hndm
    constructor
    · intro i hi
      have h0 : i = 0 := Nat.le_zero.1 hi
      subst h0
      exact ⟨hcolsU, clU, G, fun x h => h, fun j hj => hlive j hj, rfl,
        fun y _ => ⟨rfl, rfl⟩⟩
    · intro i hi
      have h0 : i = 0 := Nat.le_zero.1 hi
      subst h0
      rfl
  | cons j js ihl =>
    intro u hcolsU clU G hlive hndm
    have hjc : u.col j ∈ hcolsU := hlive j (List.mem_cons_self _ _)
    obtain ⟨G₁, hcol₁, hstab₁⟩ := GWf_cover G hjc
    rw [List.map_cons] at hndm
    obtain ⟨hnm1, hnm2⟩ := List.nodup_cons.1 hndm
    have hndh : hcolsU.Nodup := (List.nodup_cons.1 G.hnd).2
    have hlive' : ∀ j' ∈ js,
        (cover cf (u.col j) u).col j' ∈ hcolsU.erase (u.col j) := by
      intro j' hj'
      rw [show (cover cf (u.col j) u).col j' = u.col j' from by
        rw [hcol₁]]
      refine (List.Nodup.mem_erase_iff hndh).2 ⟨?_, hlive j'
        (List.mem_cons_of_mem _ hj')⟩
      intro heq
      exact hnm1 (heq ▸ List.mem_map_of_mem u.col hj')
    have hndm' : (js.map (cover cf (u.col j) u).col).Nodup := by
      rw [hcol₁]
      exact hnm2
    obtain ⟨ihA, ihB⟩ := ihl (cover cf (u.col j) u)
      (hcolsU.erase (u.col j)) _ G₁ hlive' hndm'
    have hcons : ∀ y, y ∉ hdr :: hcolsU →
        y ∉ hdr :: hcolsU.erase (u.col j) := by
      intro y hy hmem
      rcases List.mem_cons.1 hmem with h1 | h1
      · exact hy (h1 ▸ List.mem_cons_self _ _)
      · exact hy (List.mem_cons_of_mem _ (List.mem_of_mem_erase h1))
    constructor
    · intro i hi
      cases i with
      | zero =>
        exact ⟨hcolsU, clU, G, fun x h => h, fun j' hj' => hlive j' hj',
          rfl, fun y _ => ⟨rfl, rfl⟩⟩
      | succ i =>
        rw [List.take_succ_cons, List.foldl_cons, List.drop_succ_cons,
          show coverColsStep cf u j = cover cf (u.col j) u from rfl]
        have hi' : i ≤ js.length := by
          simp only [List.length_cons] at hi
          omega
        obtain ⟨hcolsI, clI, GI, hsubI, hliveI, hcolI, hstabI⟩ :=
          ihA i hi'
        refine ⟨hcolsI, clI, GI, ?_, ?_, ?_, ?_⟩
        · intro x hx
          exact List.mem_of_mem_erase (hsubI x hx)
        · intro j' hj'
          have := hliveI j' hj'
          rw [show (cover cf (u.col j) u).col j' = u.col j' from by
            rw [hcol₁]] at this
          exact this
        · rw [hcolI, hcol₁]
        · intro y hy
          obtain ⟨hR, hL⟩ := hstabI y (hcons y hy)
          obtain ⟨hR₁, hL₁⟩ := hstab₁ y hy
          exact ⟨hR.trans hR₁, hL.trans hL₁⟩
    · intro i hi
      cases i with
      | zero =>
        show ((j :: js).reverse).foldl (uncoverColsStep cf)
            (js.foldl (coverColsStep cf) (cover cf (u.col j) u)) = u
        rw [List.reverse_cons, List.foldl_append]
        have hB0 := ihB 0 (Nat.zero_le _)
        rw [List.drop_zero] at hB0
        rw [hB0]
        show uncoverColsStep cf (cover cf (u.col j) u) j = u
        show uncover cf ((cover cf (u.col j) u).col j)
          (cover cf (u.col j) u) = u
        rw [show (cover cf (u.col j) u).col j = u.col j from by
          rw [hcol₁]]
        exact cover_unwind G hjc
      | succ i =>
        have hi' : i ≤ js.length := by
          simp only [List.length_cons] at hi
          omega
        show ((js.drop i).reverse).foldl (uncoverColsStep cf)
            (js.foldl (coverColsStep cf) (cover cf (u.col j) u)) =
          (js.take i).foldl (coverColsStep cf) (cover cf (u.col j) u)
        exact ihB i hi'

/-- Pure fold form of `chooseColumn`'s scan; the accumulator is the
pair `(chosen, minSize)`. -/
def chooseColGo (sz : ℕ → ℤ) : List ℕ → ℕ × ℤ → ℕ × ℤ
  | [], acc => acc
  | c :: l, acc =>
    chooseColGo sz l (if sz c < acc.2 then (c, sz c) else acc)

/-- `DancingLinks.chooseColumn`: walk the header list keeping the
column with the strictly smallest `Size`; `minSize` starts at
`int(^uint(0) >> 1) = 2^63 - 1`, and `chosen` starts at Go's `nil`,
modelled by a sentinel that the liveness lemma shows is never
returned when a live column exists. -/
def chooseColF (s : DLX) (stop : ℕ) : ℕ → ℕ → ℕ × ℤ → ℕ × ℤ
  | 0, _, acc => acc
  | f + 1, cur, acc =>
    if cur = stop then acc
    else chooseColF s stop f (s.R cur)
      (if s.size (s.col cur) < acc.2 then
        (s.col cur, s.size (s.col cur)) else acc)

/-- Under the header-chain facts, the pointer scan of `chooseColumn`
is the pure fold over the live column list. -/
theorem chooseColF_eq (s : DLX) (stop : ℕ) :
    ∀ (l : List ℕ) (f : ℕ) (cur : ℕ) (acc : ℕ × ℤ),
      l.length < f → Chain s.R cur l stop →
      (∀ x ∈ l, s.col x = x) →
      chooseColF s stop f cur acc = chooseColGo s.size l acc := by
  intro l
  induction l with
  | nil =>
    intro f cur acc hf hch _
    have hcur : cur = stop := hch.1
    cases f with
    | zero => omega
    | succ f =>
      show (if cur = stop then acc
        else chooseColF s stop f (s.R cur) _) = acc
      rw [if_pos hcur]
  | cons x l ihl =>
    intro f cur acc hf hch hcol
    obtain ⟨⟨rfl, hchp⟩, hne⟩ := hch
    cases f with
    | zero => simp at hf
    | succ f =>
      show (if cur = stop then acc
        else chooseColF s stop f (s.R cur)
          (if s.size (s.col cur) < acc.2 then
            (s.col cur, s.size (s.col cur)) else acc)) = _
      rw [if_neg (hne cur (List.mem_cons_self _ _)),
        hcol cur (List.mem_cons_self _ _)]
      refine ihl f (s.R cur) _ ?_
        ⟨hchp, fun y hy => hne y (List.mem_cons_of_mem _ hy)⟩
        (fun y hy => hcol y (List.mem_cons_of_mem _ hy))
      simp only [List.length_cons] at hf
      omega

theorem chooseColGo_spec (sz : ℕ → ℤ) :
    ∀ (l : List ℕ) (acc : ℕ × ℤ),
      chooseColGo sz l acc = acc ∨
      ((chooseColGo sz l acc).1 ∈ l ∧ (chooseColGo sz l acc).2 < acc.2) := by
  intro l
  induction l with
  | nil => intro acc; exact Or.inl rfl
  | cons c l ihl =>
    intro acc
    have hunf : chooseColGo sz (c :: l) acc =
        chooseColGo sz l (if sz c < acc.2 then (c, sz c) else acc) := rfl
    rw [hunf]
    by_cases h : sz c < acc.2
    · rw [if_pos h]
      rcases ihl (c, sz c) with h1 | h1
      · refine Or.inr ?_
        rw [h1]
        exact ⟨List.mem_cons_self _ _, h⟩
      · exact Or.inr ⟨List.mem_cons_of_mem _ h1.1, lt_trans h1.2 h⟩
    · rw [if_neg h]
      rcases ihl acc with h1 | h1
      · exact Or.inl h1
      · exact Or.inr ⟨List.mem_cons_of_mem _ h1.1, h1.2⟩

/-- With every live column's size strictly below the `maxInt`
initialiser, the scan picks a live column. -/
theorem chooseColGo_mem (sz : ℕ → ℤ) (M : ℤ) (d : ℕ) :
    ∀ (l : List ℕ), l ≠ [] → (∀ c ∈ l, sz c < M) →
      (chooseColGo sz l (d, M)).1 ∈ l := by
  intro l hne hsz
  cases l with
  | nil => exact absurd rfl hne
  | cons c l =>
    show (chooseColGo sz l
      (if sz c < (d, M).2 then (c, sz c) else (d, M))).1 ∈ c :: l
    rw [if_pos (hsz c (List.mem_cons_self _ _))]
    rcases chooseColGo_spec sz l (c, sz c) with h1 | h1
    · rw [h1]
      exact List.mem_cons_self _ _
    · exact List.mem_cons_of_mem _ h1.1

/-- Result of the fuelled `search`: `out` for exhausted fuel, `sat`
for `return true`, `unsat` for `return false`, the latter two
carrying the final matrix state and solution stack. -/
inductive DRes where
  | out : DRes
  | sat : DLX → List ℕ → DRes
  | unsat : DLX → List ℕ → DRes

/-- The row loop of `search`: `for r := col.Down; r != &col.Node;
r = r.Down` — push `r.RowID`, cover the other columns of `r`'s row
left to right, recurse, and on failure uncover them right to left and
pop; when the loop ends, `uncover(col)` and report failure. -/
def searchRows (cf : ℕ) (rid : ℕ → ℕ) (rec : DLX → List ℕ → DRes) :
    ℕ → ℕ → ℕ → DLX → List ℕ → DRes
  | 0, _, _, _, _ => DRes.out
  | g + 1, stop, r, s, sol =>
    if r = stop then DRes.unsat (uncover cf stop s) sol
    else
      match rec
        (loopF (coverColsStep cf) (fun t j => t.R j) cf r s (s.R r))
        (sol ++ [rid r]) with
      | DRes.out => DRes.out
      | DRes.sat t sol' => DRes.sat t sol'
      | DRes.unsat t sol' =>
        searchRows cf rid rec g stop
          ((loopF (uncoverColsStep cf) (fun t j => t.L j) cf r t
            (t.L r)).D r)
          (loopF (uncoverColsStep cf) (fun t j => t.L j) cf r t (t.L r))
          sol'.dropLast

/-- `DancingLinks.search`: if the header list is empty, apply the
solution (abstracted as the pure predicate `ap` of the stack, sound
here because the stacks at distinct leaves of one search tree are
distinct) and report its verdict; otherwise choose the minimum-size
column, cover it, and run the row loop over its down-chain. -/
def searchF (ap : List ℕ → Bool) (hdr cf : ℕ) (rid : ℕ → ℕ) :
    ℕ → DLX → List ℕ → DRes
  | 0, _, _ => DRes.out
  | f + 1, s, sol =>
    if s.R hdr = hdr then
      if ap sol then DRes.sat s sol else DRes.unsat s sol
    else
      searchRows cf rid (searchF ap hdr cf rid f) cf
        (chooseColF s hdr cf (s.R hdr) (0, 2 ^ 63 - 1)).1
        ((cover cf (chooseColF s hdr cf (s.R hdr) (0, 2 ^ 63 - 1)).1
          s).D (chooseColF s hdr cf (s.R hdr) (0, 2 ^ 63 - 1)).1)
        (cover cf (chooseColF s hdr cf (s.R hdr) (0, 2 ^ 63 - 1)).1 s)
        sol

/-- The inner cover loop of a search iteration walks the row of `r`
once, folding `cover` over its nodes; the resulting state is
well-formed; and the backtrack loop walks the row backwards folding
`uncover`, restoring the loop-entry state exactly. -/
theorem rowCovers {hdr cf : ℕ} {cols : List ℕ} {rowOf : ℕ → List ℕ}
    {rid : ℕ → ℕ} {u : DLX} {hcolsU : List ℕ} {clU : ℕ → List ℕ}
    (G : GWf u hdr hcolsU cols clU rowOf rid cf) (r : ℕ)
    (hjs_col : ∀ j ∈ rowOf r, u.col j ∈ hcolsU)
    (hjs_nd : ((rowOf r).map u.col).Nodup)
    (hjs_nh : ∀ j ∈ rowOf r, j ∉ hdr :: hcolsU)
    (hr_nh : r ∉ hdr :: hcolsU)
    (hchainR : Chain u.R (u.R r) (rowOf r) r)
    (hrinv : u.L (u.R r) = r)
    (hrowinv : ∀ y ∈ rowOf r, u.L (u.R y) = y)
    (hflen : (rowOf r).length < cf) :
    loopF (coverColsStep cf) (fun t j => t.R j) cf r u (u.R r) =
      (rowOf r).foldl (coverColsStep cf) u ∧
    (∃ hcolsV clV,
      GWf ((rowOf r).foldl (coverColsStep cf) u) hdr hcolsV cols clV
        rowOf rid cf) ∧
    loopF (uncoverColsStep cf) (fun t j => t.L j) cf r
        ((rowOf r).foldl (coverColsStep cf) u)
        (((rowOf r).foldl (coverColsStep cf) u).L r) = u := by
  obtain ⟨hA, hB⟩ := coverFold hdr cf cols rowOf rid (rowOf r) u hcolsU
    clU G hjs_col hjs_nd
  have hxmem_take : ∀ (i : ℕ) (x : ℕ), x ∈ (rowOf r).take i →
      x ∈ rowOf r := fun i x hx => (List.take_sublist i _).subset hx
  have hxmem_drop : ∀ (i : ℕ) (x : ℕ), x ∈ (rowOf r).drop i →
      x ∈ rowOf r := fun i x hx => (List.drop_sublist i _).subset hx
  -- forward loop
  have hFwd : loopF (coverColsStep cf) (fun t j => t.R j) cf r u
      (u.R r) = (rowOf r).foldl (coverColsStep cf) u := by
    have htrack := loopF_track (coverColsStep cf) (fun t j => t.R j) r
      (fun l' t c => ∃ i, i ≤ (rowOf r).length ∧
        (rowOf r).drop i = l' ∧
        t = ((rowOf r).take i).foldl (coverColsStep cf) u ∧
        ChainP u.R c l' r ∧ ∀ x ∈ l', x ≠ r)
      ?_ ?_ ?_ (rowOf r) cf u (u.R r) hflen
      ⟨0, Nat.zero_le _, rfl, rfl, hchainR.1, hchainR.2⟩
    · obtain ⟨i, hi, hdropnil, ht, _, _⟩ := htrack
      have hilen : i = (rowOf r).length :=
        le_antisymm hi (List.drop_eq_nil_iff.1 hdropnil)
      rw [hilen, List.take_length] at ht
      exact ht
    · intro t x l' c hT
      obtain ⟨i, hi, hdrop, ht, hch, hne⟩ := hT
      exact ⟨hch.1, hne x (List.mem_cons_self _ _)⟩
    · intro t x l' hT
      obtain ⟨i, hi, hdrop, ht, hch, hne⟩ := hT
      have hxm : x ∈ rowOf r := by
        refine hxmem_drop i x ?_
        rw [hdrop]
        exact List.mem_cons_self _ _
      have hlen : (rowOf r).length - i = l'.length + 1 := by
        have := congrArg List.length hdrop
        rw [List.length_drop, List.length_cons] at this
        exact this
      have hi1 : i + 1 ≤ (rowOf r).length := by omega
      obtain ⟨htake1, hdrop1⟩ := take_drop_cons (rowOf r) i x l' hdrop
      have hst : coverColsStep cf t x =
          ((rowOf r).take (i + 1)).foldl (coverColsStep cf) u := by
        rw [htake1, List.foldl_append, ht]
        rfl
      obtain ⟨hcolsI, clI, GI, hsubI, hliveI, hcolI, hstabI⟩ :=
        hA (i + 1) hi1
      have hcurs : (coverColsStep cf t x).R x = u.R x := by
        rw [hst]
        exact (hstabI x (hjs_nh x hxm)).1
      refine ⟨i + 1, hi1, hdrop1, hst, ?_, fun y hy =>
        hne y (List.mem_cons_of_mem _ hy)⟩
      show ChainP u.R ((coverColsStep cf t x).R x) l' r
      rw [hcurs]
      exact hch.2
    · intro t c hT
      obtain ⟨i, hi, hdrop, ht, hch, hne⟩ := hT
      exact hch
  -- well-formedness of the fully covered state
  obtain ⟨hcolsV, clV, GV, hsubV, hliveV, hcolV, hstabV⟩ :=
    hA (rowOf r).length (le_refl _)
  rw [List.take_length] at GV hcolV hstabV
  refine ⟨hFwd, ⟨hcolsV, clV, GV⟩, ?_⟩
  -- backtrack loop
  have hvL : ((rowOf r).foldl (coverColsStep cf) u).L r = u.L r :=
    (hstabV r hr_nh).2
  have hLchain : ChainP u.L (u.L r) (rowOf r).reverse r := by
    have h1 := ChainP_reverse u.R u.L (rowOf r) (u.R r) r hchainR.1
      hrowinv
    rw [hrinv] at h1
    exact h1
  have htrack := loopF_track (uncoverColsStep cf) (fun t j => t.L j) r
    (fun l' t c => ∃ i, i ≤ (rowOf r).length ∧
      ((rowOf r).take i).reverse = l' ∧
      t = ((rowOf r).take i).foldl (coverColsStep cf) u ∧
      ChainP u.L c l' r ∧ ∀ x ∈ l', x ≠ r)
    ?_ ?_ ?_ ((rowOf r).reverse) cf
    ((rowOf r).foldl (coverColsStep cf) u)
    (((rowOf r).foldl (coverColsStep cf) u).L r)
    (by rw [List.length_reverse]; exact hflen)
    ⟨(rowOf r).length, le_refl _, by rw [List.take_length],
      by rw [List.take_length], by rw [hvL]; exact hLchain,
      fun x hx => hchainR.2 x (List.mem_reverse.1 hx)⟩
  · obtain ⟨i, hi, hrevnil, ht, _, _⟩ := htrack
    have htnil : (rowOf r).take i = [] := List.reverse_eq_nil_iff.1 hrevnil
    rw [htnil] at ht
    exact ht
  · intro t x l' c hT
    obtain ⟨i, hi, hrev, ht, hch, hne⟩ := hT
    exact ⟨hch.1, hne x (List.mem_cons_self _ _)⟩
  · intro t x l' hT
    obtain ⟨i, hi, hrev, ht, hch, hne⟩ := hT
    have htake : (rowOf r).take i = l'.reverse ++ [x] := by
      rw [List.reverse_eq_iff] at hrev
      rw [hrev, List.reverse_cons]
    have hlen_take : ((rowOf r).take i).length = i := by
      rw [List.length_take]
      omega
    have h2 : i = l'.reverse.length + 1 := by
      rw [← hlen_take, htake, List.length_append]
      rfl
    have htp : (rowOf r).take (i - 1) = l'.reverse := by
      have h3 : (rowOf r).take (i - 1) =
          ((rowOf r).take i).take (i - 1) := by
        rw [List.take_take, Nat.min_eq_left (by omega)]
      rw [h3, htake, List.take_left' (by omega)]
    have hxm : x ∈ rowOf r := by
      refine hxmem_take i x ?_
      rw [htake]
      exact List.mem_append.2 (Or.inr (List.mem_cons_self _ _))
    have hjs_split : rowOf r =
        (rowOf r).take (i - 1) ++ (x :: (rowOf r).drop i) := by
      conv_lhs => rw [← List.take_append_drop i (rowOf r)]
      rw [show (rowOf r).take i = (rowOf r).take (i - 1) ++ [x] from by
        rw [htake, htp], List.append_assoc, List.singleton_append]
    have hdd : (rowOf r).drop (i - 1) = x :: (rowOf r).drop i := by
      conv_lhs => rw [hjs_split]
      rw [List.drop_left' (by rw [htp]; omega)]
    obtain ⟨hcolsI, clI, GI, hsubI, hliveI, hcolI, hstabI⟩ :=
      hA (i - 1) (by omega)
    obtain ⟨hcolsJ, clJ, GJ, hsubJ, hliveJ, hcolJ, hstabJ⟩ := hA i hi
    have hlivex : u.col x ∈ hcolsI := by
      refine hliveI x ?_
      rw [hdd]
      exact List.mem_cons_self _ _
    have hteq : t = cover cf (u.col x)
        (((rowOf r).take (i - 1)).foldl (coverColsStep cf) u) := by
      rw [ht, show (rowOf r).take i = (rowOf r).take (i - 1) ++ [x] from
        by rw [htake, htp], List.foldl_append]
      show coverColsStep cf
        (((rowOf r).take (i - 1)).foldl (coverColsStep cf) u) x = _
      show cover cf
        ((((rowOf r).take (i - 1)).foldl (coverColsStep cf) u).col x)
        (((rowOf r).take (i - 1)).foldl (coverColsStep cf) u) = _
      rw [show (((rowOf r).take (i - 1)).foldl
        (coverColsStep cf) u).col x = u.col x from by rw [hcolI]]
    have hst : uncoverColsStep cf t x =
        ((rowOf r).take (i - 1)).foldl (coverColsStep cf) u := by
      show uncover cf (t.col x) t = _
      have htcol : t.col x = u.col x := by
        rw [ht, hcolJ]
      rw [htcol, hteq]
      exact cover_unwind GI hlivex
    have hcurs : (uncoverColsStep cf t x).L x = u.L x := by
      rw [hst]
      exact (hstabI x (hjs_nh x hxm)).2
    refine ⟨i - 1, by omega, ?_, hst, ?_, fun y hy =>
      hne y (List.mem_cons_of_mem _ hy)⟩
    · rw [htp, List.reverse_reverse]
    · show ChainP u.L ((uncoverColsStep cf t x).L x) l' r
      rw [hcurs]
      exact hch.2
  · intro t c hT
    obtain ⟨i, hi, hrev, ht, hch, hne⟩ := hT
    exact hch

theorem searchRows_succ (cf : ℕ) (rid : ℕ → ℕ)
    (rec : DLX → List ℕ → DRes) (g stop r : ℕ) (s : DLX)
    (sol : List ℕ) :
    searchRows cf rid rec (g + 1) stop r s sol =
    (if r = stop then DRes.unsat (uncover cf stop s) sol
     else
      match rec
        (loopF (coverColsStep cf) (fun t j => t.R j) cf r s (s.R r))
        (sol ++ [rid r]) with
      | DRes.out => DRes.out
      | DRes.sat t sol' => DRes.sat t sol'
      | DRes.unsat t sol' =>
        searchRows cf rid rec g stop
          ((loopF (uncoverColsStep cf) (fun t j => t.L j) cf r t
            (t.L r)).D r)
          (loopF (uncoverColsStep cf) (fun t j => t.L j) cf r t (t.L r))
          sol'.dropLast) := rfl

theorem searchF_succ (ap : List ℕ → Bool) (hdr cf : ℕ) (rid : ℕ → ℕ)
    (f : ℕ) (s : DLX) (sol : List ℕ) :
    searchF ap hdr cf rid (f + 1) s sol =
    (if s.R hdr = hdr then
      if ap sol then DRes.sat s sol else DRes.unsat s sol
    else
      searchRows cf rid (searchF ap hdr cf rid f) cf
        (chooseColF s hdr cf (s.R hdr) (0, 2 ^ 63 - 1)).1
        ((cover cf (chooseColF s hdr cf (s.R hdr) (0, 2 ^ 63 - 1)).1
          s).D (chooseColF s hdr cf (s.R hdr) (0, 2 ^ 63 - 1)).1)
        (cover cf (chooseColF s hdr cf (s.R hdr) (0, 2 ^ 63 - 1)).1 s)
        sol) := rfl

/-- A failing pass of the row loop restores the pre-`cover` state and
the solution stack, provided the recursive call restores any
well-formed state it fails on. -/
theorem searchRows_restores {hdr cf : ℕ} {cols : List ℕ}
    {rowOf : ℕ → List ℕ} {rid : ℕ → ℕ}
    (rec : DLX → List ℕ → DRes)
    (hrec : ∀ (u : DLX) (hcolsU : List ℕ) (clU : ℕ → List ℕ),
      GWf u hdr hcolsU cols clU rowOf rid cf →
      ∀ (σ : List ℕ) (t : DLX) (σ' : List ℕ),
        rec u σ = DRes.unsat t σ' → t = u ∧ σ' = σ)
    {s : DLX} {hcols : List ℕ} {cl : ℕ → List ℕ} {c : ℕ}
    (G : GWf s hdr hcols cols cl rowOf rid cf) (hc : c ∈ hcols) :
    ∀ (lrem : List ℕ) (g : ℕ) (r : ℕ),
      lrem.length < g →
      ChainP s.D r lrem c →
      (∀ x ∈ lrem, x ∈ cl c) →
      ∀ (sol : List ℕ) (t : DLX) (sol' : List ℕ),
        searchRows cf rid rec g c r (cover cf c s) sol =
          DRes.unsat t sol' →
        t = s ∧ sol' = sol := by
  have hcc : c ∈ cols := G.hsub c hc
  obtain ⟨G₀, hcol₀, hstab₀⟩ := GWf_cover G hc
  obtain ⟨hcov0, hInv⟩ := cover_eq s c (cl c) rowOf cf
    (CoverWf_of_GWf G hc) (G.bndV c hcc) (fun i hi => G.bndR c hcc i hi)
  intro lrem
  induction lrem with
  | nil =>
    intro g r hg hch hmem sol t sol' heq
    have hrc : r = c := hch
    cases g with
    | zero => omega
    | succ g =>
      rw [searchRows_succ, if_pos hrc] at heq
      injection heq with h1 h2
      exact ⟨h1.symm.trans (cover_unwind G hc), h2.symm⟩
  | cons r₀ lrem' ihl =>
    intro g r hg hch hmem sol t sol' heq
    have hrr : r = r₀ := hch.1
    have hchp : ChainP s.D (s.D r₀) lrem' c := hch.2
    subst hrr
    have hrmem : r ∈ cl c := hmem r (List.mem_cons_self _ _)
    have hrne : r ≠ c := fun heq' =>
      (List.nodup_cons.1 (VInv_nd G.vinv c hcc)).1 (heq' ▸ hrmem)
    cases g with
    | zero => omega
    | succ g =>
      rw [searchRows_succ, if_neg hrne] at heq
      have hps_r : r ∉ (cl c).flatMap rowOf := by
        intro hmemps
        obtain ⟨i, hi, hri⟩ := List.mem_flatMap.1 hmemps
        exact G.rowColNe c hcc i hi r hri
          (VInv_colMem G.vinv c hcc r hrmem)
      have hrcl0 : r ∈ (cl c).filter
          (fun x => decide (x ∉ (cl c).flatMap rowOf)) :=
        List.mem_filter.2 ⟨hrmem, decide_eq_true hps_r⟩
      have hjs_col : ∀ j ∈ rowOf r,
          (cover cf c s).col j ∈ hcols.erase c := by
        intro j hj
        rw [show (cover cf c s).col j = s.col j from by rw [hcol₀]]
        refine (List.Nodup.mem_erase_iff
          (List.nodup_cons.1 G.hnd).2).2
          ⟨G.rowColNe c hcc r hrmem j hj,
            (G.rowLive c hc r hrmem j hj).1⟩
      have hjs_nd : ((rowOf r).map (cover cf c s).col).Nodup := by
        rw [hcol₀]
        have h1 := G.rowColsNd c hcc r hrmem
        rw [List.map_cons] at h1
        exact (List.nodup_cons.1 h1).2
      have hjs_nh : ∀ j ∈ rowOf r, j ∉ hdr :: hcols.erase c :=
        fun j hj hmem' => (G₀.sep j hmem' c hcc).2 r hrcl0 hj
      have hr_nh : r ∉ hdr :: hcols.erase c :=
        fun hmem' => (G₀.sep r hmem' c hcc).1 hrcl0
      have hchR : Chain (cover cf c s).R ((cover cf c s).R r)
          (rowOf r) r := G₀.rchain c hcc r hrcl0
      have hrinvs := G₀.rinvL c hcc r hrcl0
      have hflen := G.bndR c hcc r hrmem
      obtain ⟨hFwd, ⟨hcolsV, clV, GV⟩, hBack⟩ := rowCovers G₀ r
        hjs_col hjs_nd hjs_nh hr_nh hchR hrinvs.1 hrinvs.2 hflen
      rw [hFwd] at heq
      cases hrc : rec
        ((rowOf r).foldl (coverColsStep cf) (cover cf c s))
        (sol ++ [rid r]) with
      | out =>
        rw [hrc] at heq
        have heq2 : DRes.out = DRes.unsat t sol' := heq
        cases heq2
      | sat t₁ σ₁ =>
        rw [hrc] at heq
        have heq2 : DRes.sat t₁ σ₁ = DRes.unsat t sol' := heq
        cases heq2
      | unsat t₁ σ₁ =>
        rw [hrc] at heq
        obtain ⟨ht₁, hσ₁⟩ := hrec _ hcolsV clV GV (sol ++ [rid r])
          t₁ σ₁ hrc
        have heq2 : searchRows cf rid rec g c
            ((loopF (uncoverColsStep cf) (fun t j => t.L j) cf r t₁
              (t₁.L r)).D r)
            (loopF (uncoverColsStep cf) (fun t j => t.L j) cf r t₁
              (t₁.L r))
            σ₁.dropLast = DRes.unsat t sol' := heq
        rw [ht₁, hBack, hσ₁, List.dropLast_concat] at heq2
        have hDr : (cover cf c s).D r = s.D r :=
          (hInv.2.2.2.2 r (VInv_colMem G.vinv c hcc r hrmem)).1
        rw [hDr] at heq2
        refine ihl g (s.D r) ?_ hchp
          (fun x hx => hmem x (List.mem_cons_of_mem _ hx)) sol t sol'
          heq2
        simp only [List.length_cons] at hg
        omega

/-- A failing `search` call restores the matrix and the solution
stack exactly, at every well-formed state. -/
theorem searchF_restores (ap : List ℕ → Bool) {hdr cf : ℕ}
    {cols : List ℕ} {rowOf : ℕ → List ℕ} {rid : ℕ → ℕ} :
    ∀ (f : ℕ) (s : DLX) (hcols : List ℕ) (cl : ℕ → List ℕ),
      GWf s hdr hcols cols cl rowOf rid cf →
      ∀ (sol : List ℕ) (t : DLX) (sol' : List ℕ),
        searchF ap hdr cf rid f s sol = DRes.unsat t sol' →
        t = s ∧ sol' = sol := by
  intro f
  induction f with
  | zero =>
    intro s hcols cl G sol t sol' heq
    have heq2 : DRes.out = DRes.unsat t sol' := heq
    cases heq2
  | succ f ihf =>
    intro s hcols cl G sol t sol' heq
    rw [searchF_succ] at heq
    by_cases hh : s.R hdr = hdr
    · rw [if_pos hh] at heq
      cases hap : ap sol with
      | true =>
        rw [hap, if_pos rfl] at heq
        cases heq
      | false =>
        rw [hap] at heq
        rw [if_neg Bool.false_ne_true] at heq
        injection heq with h1 h2
        exact ⟨h1.symm, h2.symm⟩
    · rw [if_neg hh] at heq
      have hne : hcols ≠ [] := by
        intro h0
        apply hh
        have h1 := G.hchain
        rw [h0] at h1
        exact h1
      have hcolself : ∀ x ∈ hcols, s.col x = x := fun x hx =>
        VInv_colSelf G.vinv x (G.hsub x hx)
      have hhchain : Chain s.R (s.R hdr) hcols hdr :=
        ⟨G.hchain, fun x hx heq' =>
          (List.nodup_cons.1 G.hnd).1 (heq' ▸ hx)⟩
      have hcc_eq : chooseColF s hdr cf (s.R hdr) (0, 2 ^ 63 - 1) =
          chooseColGo s.size hcols (0, 2 ^ 63 - 1) :=
        chooseColF_eq s hdr hcols cf (s.R hdr) _ G.bndH hhchain hcolself
      have hcmem : (chooseColF s hdr cf (s.R hdr)
          (0, 2 ^ 63 - 1)).1 ∈ hcols := by
        rw [hcc_eq]
        refine chooseColGo_mem s.size (2 ^ 63 - 1) 0 hcols hne ?_
        intro c' hc'
        rw [VInv_size G.vinv c' (G.hsub c' hc')]
        exact G.bndSz c' (G.hsub c' hc')
      obtain ⟨hcov0, hInv⟩ := cover_eq s
        (chooseColF s hdr cf (s.R hdr) (0, 2 ^ 63 - 1)).1
        (cl (chooseColF s hdr cf (s.R hdr) (0, 2 ^ 63 - 1)).1) rowOf cf
        (CoverWf_of_GWf G hcmem)
        (G.bndV _ (G.hsub _ hcmem))
        (fun i hi => G.bndR _ (G.hsub _ hcmem) i hi)
      have hDc0 : (cover cf
          (chooseColF s hdr cf (s.R hdr) (0, 2 ^ 63 - 1)).1 s).D
            (chooseColF s hdr cf (s.R hdr) (0, 2 ^ 63 - 1)).1 =
          s.D (chooseColF s hdr cf (s.R hdr) (0, 2 ^ 63 - 1)).1 :=
        (hInv.2.2.2.2 _ (VInv_colSelf G.vinv _ (G.hsub _ hcmem))).1
      rw [hDc0] at heq
      refine searchRows_restores (searchF ap hdr cf rid f) ?_ G hcmem
        (cl (chooseColF s hdr cf (s.R hdr) (0, 2 ^ 63 - 1)).1) cf
        (s.D (chooseColF s hdr cf (s.R hdr) (0, 2 ^ 63 - 1)).1)
        (G.bndV _ (G.hsub _ hcmem))
        (VInv_chains G.vinv _ (G.hsub _ hcmem))
        (fun x hx => hx) sol t sol' heq
      intro u hcolsU clU GU σ t₂ σ₂ h
      exact ihf u hcolsU clU GU σ t₂ σ₂ h

instance chainP_dec (nf : ℕ → ℕ) :
    ∀ (a : ℕ) (l : List ℕ) (b : ℕ), Decidable (ChainP nf a l b)
  | a, [], b => inferInstanceAs (Decidable (a = b))
  | a, x :: l, b =>
    have : Decidable (ChainP nf (nf x) l b) := chainP_dec nf (nf x) l b
    inferInstanceAs (Decidable (a = x ∧ ChainP nf (nf x) l b))

instance chain_dec (nf : ℕ → ℕ) (a : ℕ) (l : List ℕ) (b : ℕ) :
    Decidable (Chain nf a l b) :=
  inferInstanceAs (Decidable (ChainP nf a l b ∧ ∀ x ∈ l, x ≠ b))

instance ok2_dec (s : DLX) (x : ℕ) : Decidable (OK2 s x) :=
  inferInstanceAs (Decidable (s.U (s.D x) = x ∧ s.D (s.U x) = x))

/-- A minimal concrete matrix: header `0`, one live column `1`
holding the single row node `2` (a one-node row). -/
def dlxEx : DLX where
  L := fun x => if x = 0 then 1 else if x = 1 then 0 else x
  R := fun x => if x = 0 then 1 else if x = 1 then 0 else x
  U := fun x => if x = 1 then 2 else if x = 2 then 1 else x
  D := fun x => if x = 1 then 2 else if x = 2 then 1 else x
  col := fun x => if x = 2 then 1 else x
  size := fun x => if x = 1 then 1 else 0

def clEx : ℕ → List ℕ := fun c => if c = 1 then [2] else []

def rowOfEx : ℕ → List ℕ := fun _ => []

theorem gwfEx : GWf dlxEx 0 [1] [1] clEx rowOfEx (fun _ => 0) 2 := by
  have hcolok : ColOK dlxEx := by
    intro x
    constructor
    · show dlxEx.col (if x = 1 then 2 else if x = 2 then 1 else x) =
        dlxEx.col x
      by_cases h1 : x = 1
      · subst h1
        decide
      · by_cases h2 : x = 2
        · subst h2
          decide
        · rw [if_neg h1, if_neg h2]
    · show dlxEx.col (if x = 1 then 2 else if x = 2 then 1 else x) =
        dlxEx.col x
      by_cases h1 : x = 1
      · subst h1
        decide
      · by_cases h2 : x = 2
        · subst h2
          decide
        · rw [if_neg h1, if_neg h2]
  have hvinv : VInv [1] clEx dlxEx := by
    refine And.intro (by decide) (And.intro (by decide)
      ⟨by decide, by decide, by decide, by decide, hcolok⟩)
  constructor <;> first | exact hvinv | decide

/-- C2: at every reachable matrix state (formalised as the
well-formedness invariant `GWf`, which `cover` preserves), covering
any column currently linked into the header list and then uncovering
it restores every `Left`/`Right`/`Up`/`Down` link and every column
`Size` to exactly their values before the cover; and consequently any
`search` call that returns failure leaves the dancing-links matrix —
node for node and link for link — and the solution stack identical to
their state before the call. -/
theorem c2_cover_uncover_search (s : DLX) (hdr cf : ℕ)
    (hcols cols : List ℕ) (cl rowOf : ℕ → List ℕ) (rid : ℕ → ℕ)
    (G : GWf s hdr hcols cols cl rowOf rid cf) :
    (∀ c ∈ hcols, uncover cf c (cover cf c s) = s) ∧
    (∀ (ap : List ℕ → Bool) (f : ℕ) (sol : List ℕ) (t : DLX)
      (sol' : List ℕ),
      searchF ap hdr cf rid f s sol = DRes.unsat t sol' →
      t = s ∧ sol' = sol) :=
  ⟨fun c hc => cover_unwind G hc,
   fun ap f sol t sol' heq =>
     searchF_restores ap f s hcols cl G sol t sol' heq⟩

/-- Witness for C2 at the concrete one-column matrix: covering and
uncovering its live column restores the state. -/
theorem c2_cover_uncover_search_witness :
    uncover 2 1 (cover 2 1 dlxEx) = dlxEx :=
  (c2_cover_uncover_search dlxEx 0 2 [1] [1] clEx rowOfEx (fun _ => 0)
    gwfEx).1 1 (by decide)

/-- Result of the fuelled `countSolutionsRecursive`: `out` for
exhausted fuel, `done` carrying the final matrix state, solution
stack, and counter. -/
inductive CRes where
  | out : CRes
  | done : DLX → List ℕ → ℕ → CRes

/-- Row loop of `countSolutionsRecursive`: like `search`'s but the
recursion threads the counter, and after the backtrack and pop the
loop breaks (falling through to `uncover(col)`) once the counter has
reached `maxSolutions`. -/
def countRowsF (maxS cf : ℕ) (rid : ℕ → ℕ)
    (rec : DLX → List ℕ → ℕ → CRes) :
    ℕ → ℕ → ℕ → DLX → List ℕ → ℕ → CRes
  | 0, _, _, _, _, _ => CRes.out
  | g + 1, stop, r, s, sol, k =>
    if r = stop then CRes.done (uncover cf stop s) sol k
    else
      match rec
        (loopF (coverColsStep cf) (fun t j => t.R j) cf r s (s.R r))
        (sol ++ [rid r]) k with
      | CRes.out => CRes.out
      | CRes.done t sol' k' =>
        if maxS ≤ k' then
          CRes.done
            (uncover cf stop
              (loopF (uncoverColsStep cf) (fun t j => t.L j) cf r t
                (t.L r)))
            sol'.dropLast k'
        else
          countRowsF maxS cf rid rec g stop
            ((loopF (uncoverColsStep cf) (fun t j => t.L j) cf r t
              (t.L r)).D r)
            (loopF (uncoverColsStep cf) (fun t j => t.L j) cf r t
              (t.L r))
            sol'.dropLast k'

/-- `DancingLinks.countSolutionsRecursive`: return at once when the
counter has reached `maxSolutions`; count a solution when the header
list is empty; otherwise cover the minimum-size column and run the
counting row loop. -/
def countRecF (maxS hdr cf : ℕ) (rid : ℕ → ℕ) :
    ℕ → DLX → List ℕ → ℕ → CRes
  | 0, _, _, _ => CRes.out
  | f + 1, s, sol, k =>
    if maxS ≤ k then CRes.done s sol k
    else if s.R hdr = hdr then CRes.done s sol (k + 1)
    else
      countRowsF maxS cf rid (countRecF maxS hdr cf rid f) cf
        (chooseColF s hdr cf (s.R hdr) (0, 2 ^ 63 - 1)).1
        ((cover cf (chooseColF s hdr cf (s.R hdr) (0, 2 ^ 63 - 1)).1
          s).D (chooseColF s hdr cf (s.R hdr) (0, 2 ^ 63 - 1)).1)
        (cover cf (chooseColF s hdr cf (s.R hdr) (0, 2 ^ 63 - 1)).1 s)
        sol k

/-- Specification-side exhaustive solution count over the same
traversal (the spec's "total number of exact-cover solutions"): the
same recursion with no cap and no threaded state, each recursive call
resuming from the restored loop-entry state. -/
def countAllRowsF (cf : ℕ) (recAll : DLX → Option ℕ) :
    ℕ → ℕ → ℕ → DLX → Option ℕ
  | 0, _, _, _ => none
  | g + 1, stop, r, s =>
    if r = stop then some 0
    else
      match recAll
        (loopF (coverColsStep cf) (fun t j => t.R j) cf r s (s.R r))
        with
      | none => none
      | some n =>
        match countAllRowsF cf recAll g stop
          ((loopF (uncoverColsStep cf) (fun t j => t.L j) cf r
            (loopF (coverColsStep cf) (fun t j => t.R j) cf r s
              (s.R r))
            ((loopF (coverColsStep cf) (fun t j => t.R j) cf r s
              (s.R r)).L r)).D r)
          (loopF (uncoverColsStep cf) (fun t j => t.L j) cf r
            (loopF (coverColsStep cf) (fun t j => t.R j) cf r s
              (s.R r))
            ((loopF (coverColsStep cf) (fun t j => t.R j) cf r s
              (s.R r)).L r)) with
        | none => none
        | some m => some (n + m)

/-- Exhaustive solution count of the matrix (fuelled). -/
def countAllF (hdr cf : ℕ) : ℕ → DLX → Option ℕ
  | 0, _ => none
  | f + 1, s =>
    if s.R hdr = hdr then some 1
    else
      countAllRowsF cf (countAllF hdr cf f) cf
        (chooseColF s hdr cf (s.R hdr) (0, 2 ^ 63 - 1)).1
        ((cover cf (chooseColF s hdr cf (s.R hdr) (0, 2 ^ 63 - 1)).1
          s).D (chooseColF s hdr cf (s.R hdr) (0, 2 ^ 63 - 1)).1)
        (cover cf (chooseColF s hdr cf (s.R hdr) (0, 2 ^ 63 - 1)).1 s)

/-- `DancingLinks.CountSolutions`: save a copy of the solution stack,
run the counting recursion with a zero counter, restore the saved
stack, and return the counter; the puzzle is never referenced. -/
def countSolutionsF (maxS hdr cf : ℕ) (rid : ℕ → ℕ) (f : ℕ)
    (p : Puzzle) (s : DLX) (sol : List ℕ) :
    Option (Puzzle × DLX × List ℕ × ℕ) :=
  match countRecF maxS hdr cf rid f s sol 0 with
  | CRes.out => none
  | CRes.done t _ k => some (p, t, sol, k)

theorem countRowsF_succ (maxS cf : ℕ) (rid : ℕ → ℕ)
    (rec : DLX → List ℕ → ℕ → CRes) (g stop r : ℕ) (s : DLX)
    (sol : List ℕ) (k : ℕ) :
    countRowsF maxS cf rid rec (g + 1) stop r s sol k =
    (if r = stop then CRes.done (uncover cf stop s) sol k
     else
      match rec
        (loopF (coverColsStep cf) (fun t j => t.R j) cf r s (s.R r))
        (sol ++ [rid r]) k with
      | CRes.out => CRes.out
      | CRes.done t sol' k' =>
        if maxS ≤ k' then
          CRes.done
            (uncover cf stop
              (loopF (uncoverColsStep cf) (fun t j => t.L j) cf r t
                (t.L r)))
            sol'.dropLast k'
        else
          countRowsF maxS cf rid rec g stop
            ((loopF (uncoverColsStep cf) (fun t j => t.L j) cf r t
              (t.L r)).D r)
            (loopF (uncoverColsStep cf) (fun t j => t.L j) cf r t
              (t.L r))
            sol'.dropLast k') := rfl

theorem countAllRowsF_succ (cf : ℕ) (recAll : DLX → Option ℕ)
    (g stop r : ℕ) (s : DLX) :
    countAllRowsF cf recAll (g + 1) stop r s =
    (if r = stop then some 0
     else
      match recAll
        (loopF (coverColsStep cf) (fun t j => t.R j) cf r s (s.R r))
        with
      | none => none
      | some n =>
        match countAllRowsF cf recAll g stop
          ((loopF (uncoverColsStep cf) (fun t j => t.L j) cf r
            (loopF (coverColsStep cf) (fun t j => t.R j) cf r s
              (s.R r))
            ((loopF (coverColsStep cf) (fun t j => t.R j) cf r s
              (s.R r)).L r)).D r)
          (loopF (uncoverColsStep cf) (fun t j => t.L j) cf r
            (loopF (coverColsStep cf) (fun t j => t.R j) cf r s
              (s.R r))
            ((loopF (coverColsStep cf) (fun t j => t.R j) cf r s
              (s.R r)).L r)) with
        | none => none
        | some m => some (n + m)) := rfl

theorem countRecF_succ (maxS hdr cf : ℕ) (rid : ℕ → ℕ) (f : ℕ)
    (s : DLX) (sol : List ℕ) (k : ℕ) :
    countRecF maxS hdr cf rid (f + 1) s sol k =
    (if maxS ≤ k then CRes.done s sol k
     else if s.R hdr = hdr then CRes.done s sol (k + 1)
     else
      countRowsF maxS cf rid (countRecF maxS hdr cf rid f) cf
        (chooseColF s hdr cf (s.R hdr) (0, 2 ^ 63 - 1)).1
        ((cover cf (chooseColF s hdr cf (s.R hdr) (0, 2 ^ 63 - 1)).1
          s).D (chooseColF s hdr cf (s.R hdr) (0, 2 ^ 63 - 1)).1)
        (cover cf (chooseColF s hdr cf (s.R hdr) (0, 2 ^ 63 - 1)).1 s)
        sol k) := rfl

theorem countAllF_succ (hdr cf : ℕ) (f : ℕ) (s : DLX) :
    countAllF hdr cf (f + 1) s =
    (if s.R hdr = hdr then some 1
     else
      countAllRowsF cf (countAllF hdr cf f) cf
        (chooseColF s hdr cf (s.R hdr) (0, 2 ^ 63 - 1)).1
        ((cover cf (chooseColF s hdr cf (s.R hdr) (0, 2 ^ 63 - 1)).1
          s).D (chooseColF s hdr cf (s.R hdr) (0, 2 ^ 63 - 1)).1)
        (cover cf (chooseColF s hdr cf (s.R hdr) (0, 2 ^ 63 - 1)).1
          s)) := rfl

/-- A completed pass of the counting row loop restores the
pre-`cover` state and the stack, and its counter equals the entry
counter plus the exhaustive count of this subtree, capped at
`maxS`. -/
theorem countRows_spec (maxS : ℕ) {hdr cf : ℕ} {cols : List ℕ}
    {rowOf : ℕ → List ℕ} {rid : ℕ → ℕ}
    (rec : DLX → List ℕ → ℕ → CRes) (recAll : DLX → Option ℕ)
    (hrec : ∀ (u : DLX) (hcolsU : List ℕ) (clU : ℕ → List ℕ),
      GWf u hdr hcolsU cols clU rowOf rid cf →
      ∀ (σ : List ℕ) (k : ℕ) (t : DLX) (σ' : List ℕ) (k' : ℕ),
        rec u σ k = CRes.done t σ' k' →
        t = u ∧ σ' = σ ∧
          (∀ n, recAll u = some n → k ≤ maxS →
            k' = min maxS (k + n)))
    {s : DLX} {hcols : List ℕ} {cl : ℕ → List ℕ} {c : ℕ}
    (G : GWf s hdr hcols cols cl rowOf rid cf) (hc : c ∈ hcols) :
    ∀ (lrem : List ℕ) (g : ℕ) (r : ℕ),
      lrem.length < g →
      ChainP s.D r lrem c →
      (∀ x ∈ lrem, x ∈ cl c) →
      ∀ (sol : List ℕ) (k : ℕ) (t : DLX) (sol' : List ℕ) (k' : ℕ),
        countRowsF maxS cf rid rec g c r (cover cf c s) sol k =
          CRes.done t sol' k' →
        t = s ∧ sol' = sol ∧
          (∀ m, countAllRowsF cf recAll g c r (cover cf c s) =
              some m →
            k ≤ maxS → k' = min maxS (k + m)) := by
  have hcc : c ∈ cols := G.hsub c hc
  obtain ⟨G₀, hcol₀, hstab₀⟩ := GWf_cover G hc
  obtain ⟨hcov0, hInv⟩ := cover_eq s c (cl c) rowOf cf
    (CoverWf_of_GWf G hc) (G.bndV c hcc) (fun i hi => G.bndR c hcc i hi)
  intro lrem
  induction lrem with
  | nil =>
    intro g r hg hch hmem sol k t sol' k' heq
    have hrc : r = c := hch
    cases g with
    | zero => omega
    | succ g =>
      rw [countRowsF_succ, if_pos hrc] at heq
      injection heq with h1 h2 h3
      refine ⟨h1.symm.trans (cover_unwind G hc), h2.symm, ?_⟩
      intro m hm hk
      rw [countAllRowsF_succ, if_pos hrc] at hm
      injection hm with hm0
      omega
  | cons r₀ lrem' ihl =>
    intro g r hg hch hmem sol k t sol' k' heq
    have hrr : r = r₀ := hch.1
    have hchp : ChainP s.D (s.D r₀) lrem' c := hch.2
    subst hrr
    have hrmem : r ∈ cl c := hmem r (List.mem_cons_self _ _)
    have hrne : r ≠ c := fun heq' =>
      (List.nodup_cons.1 (VInv_nd G.vinv c hcc)).1 (heq' ▸ hrmem)
    cases g with
    | zero => omega
    | succ g =>
      rw [countRowsF_succ, if_neg hrne] at heq
      have hps_r : r ∉ (cl c).flatMap rowOf := by
        intro hmemps
        obtain ⟨i, hi, hri⟩ := List.mem_flatMap.1 hmemps
        exact G.rowColNe c hcc i hi r hri
          (VInv_colMem G.vinv c hcc r hrmem)
      have hrcl0 : r ∈ (cl c).filter
          (fun x => decide (x ∉ (cl c).flatMap rowOf)) :=
        List.mem_filter.2 ⟨hrmem, decide_eq_true hps_r⟩
      have hjs_col : ∀ j ∈ rowOf r,
          (cover cf c s).col j ∈ hcols.erase c := by
        intro j hj
        rw [show (cover cf c s).col j = s.col j from by rw [hcol₀]]
        refine (List.Nodup.mem_erase_iff
          (List.nodup_cons.1 G.hnd).2).2
          ⟨G.rowColNe c hcc r hrmem j hj,
            (G.rowLive c hc r hrmem j hj).1⟩
      have hjs_nd : ((rowOf r).map (cover cf c s).col).Nodup := by
        rw [hcol₀]
        have h1 := G.rowColsNd c hcc r hrmem
        rw [List.map_cons] at h1
        exact (List.nodup_cons.1 h1).2
      have hjs_nh : ∀ j ∈ rowOf r, j ∉ hdr :: hcols.erase c :=
        fun j hj hmem' => (G₀.sep j hmem' c hcc).2 r hrcl0 hj
      have hr_nh : r ∉ hdr :: hcols.erase c :=
        fun hmem' => (G₀.sep r hmem' c hcc).1 hrcl0
      have hchR : Chain (cover cf c s).R ((cover cf c s).R r)
          (rowOf r) r := G₀.rchain c hcc r hrcl0
      have hrinvs := G₀.rinvL c hcc r hrcl0
      have hflen := G.bndR c hcc r hrmem
      obtain ⟨hFwd, ⟨hcolsV, clV, GV⟩, hBack⟩ := rowCovers G₀ r
        hjs_col hjs_nd hjs_nh hr_nh hchR hrinvs.1 hrinvs.2 hflen
      have hDr : (cover cf c s).D r = s.D r :=
        (hInv.2.2.2.2 r (VInv_colMem G.vinv c hcc r hrmem)).1
      have hinvAll : ∀ m,
          countAllRowsF cf recAll (g + 1) c r (cover cf c s) =
            some m →
          ∃ n m₂, recAll
              ((rowOf r).foldl (coverColsStep cf) (cover cf c s)) =
                some n ∧
            countAllRowsF cf recAll g c (s.D r) (cover cf c s) =
              some m₂ ∧
            m = n + m₂ := by
        intro m hm
        rw [countAllRowsF_succ, if_neg hrne, hFwd, hBack, hDr] at hm
        cases hra : recAll
          ((rowOf r).foldl (coverColsStep cf) (cover cf c s)) with
        | none =>
          rw [hra] at hm
          have hm2 : (none : Option ℕ) = some m := hm
          cases hm2
        | some n =>
          rw [hra] at hm
          cases hmr : countAllRowsF cf recAll g c (s.D r)
            (cover cf c s) with
          | none =>
            rw [hmr] at hm
            have hm2 : (none : Option ℕ) = some m := hm
            cases hm2
          | some m₂ =>
            rw [hmr] at hm
            have hm2 : some (n + m₂) = some m := hm
            injection hm2 with hm3
            exact ⟨n, m₂, rfl, rfl, hm3.symm⟩
      rw [hFwd] at heq
      cases hrc : rec
        ((rowOf r).foldl (coverColsStep cf) (cover cf c s))
        (sol ++ [rid r]) k with
      | out =>
        rw [hrc] at heq
        have heq2 : CRes.out = CRes.done t sol' k' := heq
        cases heq2
      | done t₁ σ₁ k₁ =>
        rw [hrc] at heq
        obtain ⟨ht₁, hσ₁, hcnt₁⟩ := hrec _ hcolsV clV GV
          (sol ++ [rid r]) k t₁ σ₁ k₁ hrc
        by_cases hbrk : maxS ≤ k₁
        · have heq2 : CRes.done
              (uncover cf c
                (loopF (uncoverColsStep cf) (fun t j => t.L j) cf r t₁
                  (t₁.L r)))
              σ₁.dropLast k₁ = CRes.done t sol' k' := by
            rw [← heq]
            exact (if_pos hbrk).symm
          rw [ht₁, hBack, cover_unwind G hc, hσ₁,
            List.dropLast_concat] at heq2
          injection heq2 with h1 h2 h3
          refine ⟨h1.symm, h2.symm, ?_⟩
          intro m hm hk
          obtain ⟨n, m₂, hra, hmr, hm3⟩ := hinvAll m hm
          have hc₁ := hcnt₁ n hra hk
          omega
        · have heq2 : countRowsF maxS cf rid rec g c
              ((loopF (uncoverColsStep cf) (fun t j => t.L j) cf r t₁
                (t₁.L r)).D r)
              (loopF (uncoverColsStep cf) (fun t j => t.L j) cf r t₁
                (t₁.L r))
              σ₁.dropLast k₁ = CRes.done t sol' k' := by
            rw [← heq]
            exact (if_neg hbrk).symm
          rw [ht₁, hBack, hσ₁, List.dropLast_concat, hDr] at heq2
          have ihres := ihl g (s.D r) (by
              simp only [List.length_cons] at hg
              omega) hchp
            (fun x hx => hmem x (List.mem_cons_of_mem _ hx)) sol k₁
            t sol' k' heq2
          refine ⟨ihres.1, ihres.2.1, ?_⟩
          intro m hm hk
          obtain ⟨n, m₂, hra, hmr, hm3⟩ := hinvAll m hm
          have hc₁ := hcnt₁ n hra hk
          have hc₂ := ihres.2.2 m₂ hmr (by omega)
          omega

/-- A completed run of the counting recursion restores the matrix and
the stack, and returns the entry counter plus the exhaustive solution
count, capped at `maxS`. -/
theorem countRec_spec (maxS : ℕ) {hdr cf : ℕ} {cols : List ℕ}
    {rowOf : ℕ → List ℕ} {rid : ℕ → ℕ} :
    ∀ (f : ℕ) (s : DLX) (hcols : List ℕ) (cl : ℕ → List ℕ),
      GWf s hdr hcols cols cl rowOf rid cf →
      ∀ (sol : List ℕ) (k : ℕ) (t : DLX) (sol' : List ℕ) (k' : ℕ),
        countRecF maxS hdr cf rid f s sol k = CRes.done t sol' k' →
        t = s ∧ sol' = sol ∧
          (∀ n, countAllF hdr cf f s = some n → k ≤ maxS →
            k' = min maxS (k + n)) := by
  intro f
  induction f with
  | zero =>
    intro s hcols cl G sol k t sol' k' heq
    have heq2 : CRes.out = CRes.done t sol' k' := heq
    cases heq2
  | succ f ihf =>
    intro s hcols cl G sol k t sol' k' heq
    rw [countRecF_succ] at heq
    by_cases hcap : maxS ≤ k
    · rw [if_pos hcap] at heq
      injection heq with h1 h2 h3
      exact ⟨h1.symm, h2.symm, fun n hn hk => by omega⟩
    · rw [if_neg hcap] at heq
      by_cases hh : s.R hdr = hdr
      · rw [if_pos hh] at heq
        injection heq with h1 h2 h3
        refine ⟨h1.symm, h2.symm, ?_⟩
        intro n hn hk
        rw [countAllF_succ, if_pos hh] at hn
        injection hn with hn1
        omega
      · rw [if_neg hh] at heq
        have hne : hcols ≠ [] := by
          intro h0
          apply hh
          have h1 := G.hchain
          rw [h0] at h1
          exact h1
        have hcolself : ∀ x ∈ hcols, s.col x = x := fun x hx =>
          VInv_colSelf G.vinv x (G.hsub x hx)
        have hhchain : Chain s.R (s.R hdr) hcols hdr :=
          ⟨G.hchain, fun x hx heq' =>
            (List.nodup_cons.1 G.hnd).1 (heq' ▸ hx)⟩
        have hcc_eq : chooseColF s hdr cf (s.R hdr) (0, 2 ^ 63 - 1) =
            chooseColGo s.size hcols (0, 2 ^ 63 - 1) :=
          chooseColF_eq s hdr hcols cf (s.R hdr) _ G.bndH hhchain
            hcolself
        have hcmem : (chooseColF s hdr cf (s.R hdr)
            (0, 2 ^ 63 - 1)).1 ∈ hcols := by
          rw [hcc_eq]
          refine chooseColGo_mem s.size (2 ^ 63 - 1) 0 hcols hne ?_
          intro c' hc'
          rw [VInv_size G.vinv c' (G.hsub c' hc')]
          exact G.bndSz c' (G.hsub c' hc')
        obtain ⟨hcov0, hInv⟩ := cover_eq s
          (chooseColF s hdr cf (s.R hdr) (0, 2 ^ 63 - 1)).1
          (cl (chooseColF s hdr cf (s.R hdr) (0, 2 ^ 63 - 1)).1)
          rowOf cf (CoverWf_of_GWf G hcmem)
          (G.bndV _ (G.hsub _ hcmem))
          (fun i hi => G.bndR _ (G.hsub _ hcmem) i hi)
        have hDc0 : (cover cf
            (chooseColF s hdr cf (s.R hdr) (0, 2 ^ 63 - 1)).1 s).D
              (chooseColF s hdr cf (s.R hdr) (0, 2 ^ 63 - 1)).1 =
            s.D (chooseColF s hdr cf (s.R hdr) (0, 2 ^ 63 - 1)).1 :=
          (hInv.2.2.2.2 _ (VInv_colSelf G.vinv _ (G.hsub _ hcmem))).1
        rw [hDc0] at heq
        have hres := countRows_spec maxS (countRecF maxS hdr cf rid f)
          (countAllF hdr cf f)
          (fun u hcolsU clU GU σ k₂ t₂ σ₂ k₂' h =>
            ihf u hcolsU clU GU σ k₂ t₂ σ₂ k₂' h)
          G hcmem
          (cl (chooseColF s hdr cf (s.R hdr) (0, 2 ^ 63 - 1)).1) cf
          (s.D (chooseColF s hdr cf (s.R hdr) (0, 2 ^ 63 - 1)).1)
          (G.bndV _ (G.hsub _ hcmem))
          (VInv_chains G.vinv _ (G.hsub _ hcmem))
          (fun x hx => hx) sol k t sol' k' heq
        refine ⟨hres.1, hres.2.1, ?_⟩
        intro n hn hk
        rw [countAllF_succ, if_neg hh, hDc0] at hn
        exact hres.2.2 n hn hk

/-- C7: at every reachable (well-formed) matrix state,
`CountSolutions(max)` returns the minimum of `max` and the total
number of exact-cover solutions (the exhaustive traversal count `N`
of the same matrix), never touches the puzzle, and on return has
restored the matrix links, the column sizes, and the solver's
solution stack to their pre-call state. -/
theorem c7_count_solutions (p : Puzzle) (maxS : ℕ) (s : DLX)
    (hdr cf : ℕ) (hcols cols : List ℕ) (cl rowOf : ℕ → List ℕ)
    (rid : ℕ → ℕ) (G : GWf s hdr hcols cols cl rowOf rid cf)
    (f : ℕ) (sol : List ℕ) (N : ℕ)
    (hN : countAllF hdr cf f s = some N)
    (p' : Puzzle) (t : DLX) (sol' : List ℕ) (k : ℕ)
    (heq : countSolutionsF maxS hdr cf rid f p s sol =
      some (p', t, sol', k)) :
    p' = p ∧ t = s ∧ sol' = sol ∧ k = min maxS N := by
  unfold countSolutionsF at heq
  cases hcr : countRecF maxS hdr cf rid f s sol 0 with
  | out =>
    rw [hcr] at heq
    have heq2 : (none : Option (Puzzle × DLX × List ℕ × ℕ)) =
        some (p', t, sol', k) := heq
    cases heq2
  | done t₁ σ₁ k₁ =>
    rw [hcr] at heq
    have heq2 : some (p, t₁, sol, k₁) = some (p', t, sol', k) := heq
    injection heq2 with h1
    injection h1 with hp h2
    injection h2 with ht h3
    injection h3 with hsol hk
    obtain ⟨hres1, hres2, hres3⟩ :=
      countRec_spec maxS f s hcols cl G sol 0 t₁ σ₁ k₁ hcr
    refine ⟨hp.symm, ht.symm.trans hres1, hsol.symm, ?_⟩
    have h4 := hres3 N hN (Nat.zero_le _)
    omega

/-- Witness for C7 at the concrete one-column matrix (one solution):
counting with `max = 5` returns `min 5 1 = 1`, leaving the puzzle,
matrix, and stack unchanged. -/
theorem c7_count_solutions_witness :
    (∀ q ∈ countSolutionsF 5 0 2 (fun _ => 0) 3 newPuzzle dlxEx [],
      q.1 = newPuzzle ∧ q.2.1 = dlxEx ∧ q.2.2.1 = ([] : List ℕ) ∧
        q.2.2.2 = min 5 1) ∧
    (countSolutionsF 5 0 2 (fun _ => 0) 3 newPuzzle dlxEx []).isSome =
      true := by
  constructor
  · intro q hq
    have hq' : countSolutionsF 5 0 2 (fun _ => 0) 3 newPuzzle dlxEx []
        = some (q.1, q.2.1, q.2.2.1, q.2.2.2) := Option.mem_def.1 hq
    exact c7_count_solutions newPuzzle 5 dlxEx 0 2 [1] [1] clEx
      rowOfEx (fun _ => 0) gwfEx 3 [] 1 (by decide) q.1 q.2.1 q.2.2.1
      q.2.2.2 hq'
  · decide

end Sudoku